import Mathlib

/-!
# Lexical path canonicalisation and search-command synthesis (vuls scanner)

A shallow embedding of `scanner/utils/filepath/{path,windows}.go` and of
`scanLibraries` in `scanner/pseudo.go`: the dialect detection, the command
construction, the working directory and the loop over the candidate files.

Conventions of the embedding:

* a Go `string` / `[]byte` is a `List Nat` (one entry per byte); the code only
  compares bytes with constants and upper-cases `a..z`, so no byte arithmetic
  wraps;
* every index `s[i]` and slice `s[a:b]` of the source is checked: a function
  returns `none` where the Go program would stop with an out-of-range fault,
  and also when a loop runs out of its iteration budget;
* a nil slice is `none`, an allocated one is `some _`;
* the remote host, the file system and the library analyser are parameters of
  the embedding of `scanLibraries`, and every call to one of them is recorded,
  in order, in a trace.
-/

namespace Vuls

/-- Bytes of an ASCII literal, used to write inputs and outputs readably. -/
def ascii (s : String) : List Nat := s.toList.map Char.toNat

/-! ## path.go -/

/-- Checked slice `s[a:]`. -/
def sliceFrom (s : List Nat) (a : Nat) : Option (List Nat) :=
  if a ≤ s.length then some (s.drop a) else none

/-- Checked slice `s[:b]`. -/
def sliceTo (s : List Nat) (b : Nat) : Option (List Nat) :=
  if b ≤ s.length then some (s.take b) else none

structure lazybuf where
  path : List Nat
  buf : Option (List Nat)
  w : Nat
  volAndPath : List Nat
  volLen : Nat
deriving DecidableEq, Repr

namespace lazybuf

def index (b : lazybuf) (i : Nat) : Option Nat :=
  match b.buf with
  | some buf => buf[i]?
  | none => b.path[i]?

def append (b : lazybuf) (c : Nat) : Option lazybuf :=
  match b.buf with
  | none =>
    if b.w < b.path.length ∧ b.path[b.w]? = some c then
      some { b with w := b.w + 1 }
    else do
      let pre ← sliceTo b.path b.w
      let buf := pre ++ List.replicate (b.path.length - pre.length) 0
      if b.w < buf.length then
        some { b with buf := some (buf.set b.w c), w := b.w + 1 }
      else none
  | some buf =>
    if b.w < buf.length then
      some { b with buf := some (buf.set b.w c), w := b.w + 1 }
    else none

def prepend (b : lazybuf) (pre : List Nat) : lazybuf :=
  { b with buf := some (pre ++ b.buf.getD []), w := b.w + pre.length }

def string (b : lazybuf) : Option (List Nat) :=
  match b.buf with
  | none => sliceTo b.volAndPath (b.volLen + b.w)
  | some buf => do
    let v ← sliceTo b.volAndPath b.volLen
    let s ← sliceTo buf b.w
    some (v ++ s)

end lazybuf

def replaceStringByte (s : List Nat) (old new : Nat) : List Nat :=
  if old ∉ s then s else s.map (fun c => if c = old then new else c)

def ToSlash (path : List Nat) (separator : Nat) : List Nat :=
  if separator = 47 then path else replaceStringByte path separator 47

def FromSlash (path : List Nat) (separator : Nat) : List Nat :=
  if separator = 47 then path else replaceStringByte path 47 separator

/-! ## windows.go -/

def WindowsSeparator : Nat := 92

def windowsIsPathSeparator (c : Nat) : Bool := c == 92 || c == 47

def toUpper (c : Nat) : Nat :=
  if 97 ≤ c ∧ c ≤ 122 then c - (97 - 65) else c

/-- The loop of `pathHasPrefixFold`, from index `i`, followed by the check of
the byte after the prefix. -/
def pathHasPrefixFoldLoop (s pre : List Nat) : Nat → Nat → Option Bool
  | 0, i =>
    if i < pre.length then none
    else if s.length > pre.length then do
      let c ← s[pre.length]?
      some (windowsIsPathSeparator c)
    else some true
  | fuel + 1, i =>
    if i < pre.length then do
      let pc ← pre[i]?
      let sc ← s[i]?
      if windowsIsPathSeparator pc then
        if !windowsIsPathSeparator sc then some false
        else pathHasPrefixFoldLoop s pre fuel (i + 1)
      else if toUpper pc != toUpper sc then some false
      else pathHasPrefixFoldLoop s pre fuel (i + 1)
    else if s.length > pre.length then do
      let c ← s[pre.length]?
      some (windowsIsPathSeparator c)
    else some true

def pathHasPrefixFold (s pre : List Nat) : Option Bool :=
  if s.length < pre.length then some false
  else pathHasPrefixFoldLoop s pre pre.length 0

/-- The loop of `uncLen`, from index `i` with `count` separators seen. -/
def uncLenLoop (path : List Nat) : Nat → Nat → Nat → Option Nat
  | 0, i, _ => if i < path.length then none else some path.length
  | fuel + 1, i, count =>
    if i < path.length then do
      let c ← path[i]?
      if windowsIsPathSeparator c then
        if count + 1 = 2 then some i
        else uncLenLoop path fuel (i + 1) (count + 1)
      else uncLenLoop path fuel (i + 1) count
    else some path.length

def uncLen (path : List Nat) (prefixLen : Nat) : Option Nat :=
  uncLenLoop path path.length prefixLen 0

/-- The loop of `cutPath`, from index `i`. -/
def cutPathLoop (path : List Nat) : Nat → Nat → Option (List Nat × List Nat × Bool)
  | 0, i => if i < path.length then none else some (path, [], false)
  | fuel + 1, i =>
    if i < path.length then do
      let c ← path[i]?
      if windowsIsPathSeparator c then do
        let before ← sliceTo path i
        let after ← sliceFrom path (i + 1)
        some (before, after, true)
      else cutPathLoop path fuel (i + 1)
    else some (path, [], false)

def cutPath (path : List Nat) : Option (List Nat × List Nat × Bool) :=
  cutPathLoop path path.length 0

/-- Body of the local-device case of `windowsVolumeNameLen`. -/
def deviceVolumeLen (path : List Nat) : Option Nat :=
  if path.length = 3 then some 3
  else do
    let tl ← sliceFrom path 4
    let (_, rest, ok) ← cutPath tl
    if !ok then some path.length
    else some (path.length - rest.length - 1)

def windowsVolumeNameLen (path : List Nat) : Option Nat :=
  if path.length ≥ 2 ∧ path[1]? = some 58 then
    -- drive letter
    some 2
  else if path.length = 0 then some 0
  else do
    let p0 ← path[0]?
    if !windowsIsPathSeparator p0 then some 0
    -- `\\.\UNC`
    else if ← pathHasPrefixFold path [92, 92, 46, 92, 85, 78, 67] then
      -- len(`\\.\UNC\`) = 8
      uncLen path 8
    -- `\\.`
    else if ← pathHasPrefixFold path [92, 92, 46] then deviceVolumeLen path
    -- `\\?`
    else if ← pathHasPrefixFold path [92, 92, 63] then deviceVolumeLen path
    -- `\??`
    else if ← pathHasPrefixFold path [92, 63, 63] then deviceVolumeLen path
    else if path.length ≥ 2 then do
      let p1 ← path[1]?
      if windowsIsPathSeparator p1 then uncLen path 2 else some 0
    else some 0

/-- The condition `volLen > 1 && sep(originalPath[0]) && sep(originalPath[1])`. -/
def startsWithTwoSeparators (volLen : Nat) (originalPath : List Nat) : Option Bool :=
  if volLen > 1 then do
    let o0 ← originalPath[0]?
    if windowsIsPathSeparator o0 then do
      let o1 ← originalPath[1]?
      some (windowsIsPathSeparator o1)
    else some false
  else some false

/-- The condition `path[r] == '.' && (r+1 == n || sep(path[r+1]))`. -/
def isDotElem (path : List Nat) (n r : Nat) : Option Bool := do
  let c ← path[r]?
  if c = 46 then
    if r + 1 = n then some true
    else do
      let d ← path[r + 1]?
      some (windowsIsPathSeparator d)
  else some false

/-- The condition
`path[r] == '.' && path[r+1] == '.' && (r+2 == n || sep(path[r+2]))`. -/
def isDotDotElem (path : List Nat) (n r : Nat) : Option Bool := do
  let c ← path[r]?
  if c = 46 then do
    let d ← path[r + 1]?
    if d = 46 then
      if r + 2 = n then some true
      else do
        let e ← path[r + 2]?
        some (windowsIsPathSeparator e)
    else some false
  else some false

/-- The loop `for out.w > dotdot && !sep(out.index(out.w)) { out.w-- }`. -/
def backtrackLoop (dotdot : Nat) : Nat → lazybuf → Option lazybuf
  | 0, out =>
    if out.w > dotdot then do
      let c ← out.index out.w
      if !windowsIsPathSeparator c then none else some out
    else some out
  | fuel + 1, out =>
    if out.w > dotdot then do
      let c ← out.index out.w
      if !windowsIsPathSeparator c then
        backtrackLoop dotdot fuel { out with w := out.w - 1 }
      else some out
    else some out

/-- The loop `for ; r < n && !sep(path[r]); r++ { out.append(path[r]) }`. -/
def copyElemLoop (path : List Nat) (n : Nat) : Nat → Nat → lazybuf → Option (Nat × lazybuf)
  | 0, r, out =>
    if r < n then do
      let c ← path[r]?
      if !windowsIsPathSeparator c then none else some (r, out)
    else some (r, out)
  | fuel + 1, r, out =>
    if r < n then do
      let c ← path[r]?
      if !windowsIsPathSeparator c then do
        let out ← out.append c
        copyElemLoop path n fuel (r + 1) out
      else some (r, out)
    else some (r, out)

/-- The loop variables of `windowsClean`. -/
structure cleanState where
  r : Nat
  dotdot : Nat
  out : lazybuf
deriving DecidableEq, Repr

/-- One iteration of the `for r < n` loop of `windowsClean` (the `switch`). -/
def cleanStep (path : List Nat) (n : Nat) (rooted : Bool) (st : cleanState) :
    Option cleanState := do
  let c ← path[st.r]?
  if windowsIsPathSeparator c then
    -- empty path element
    some { st with r := st.r + 1 }
  else if ← isDotElem path n st.r then
    -- . element
    some { st with r := st.r + 1 }
  else if ← isDotDotElem path n st.r then
    -- .. element: remove to last separator
    let r := st.r + 2
    if st.out.w > st.dotdot then do
      -- can backtrack
      let out ← backtrackLoop st.dotdot st.out.w { st.out with w := st.out.w - 1 }
      some { r := r, dotdot := st.dotdot, out := out }
    else if !rooted then do
      -- cannot backtrack, but not rooted, so append .. element.
      let out ← if st.out.w > 0 then st.out.append WindowsSeparator else some st.out
      let out ← out.append 46
      let out ← out.append 46
      some { r := r, dotdot := out.w, out := out }
    else some { r := r, dotdot := st.dotdot, out := st.out }
  else do
    -- real path element; add slash if needed
    let out ←
      if (rooted && st.out.w != 1) || (!rooted && st.out.w != 0) then
        st.out.append WindowsSeparator
      else some st.out
    -- copy element
    let (r, out) ← copyElemLoop path n n st.r out
    some { r := r, dotdot := st.dotdot, out := out }

/-- The loop `for r < n { ... }` of `windowsClean`. -/
def cleanLoop (path : List Nat) (n : Nat) (rooted : Bool) : Nat → cleanState → Option cleanState
  | 0, st => if st.r < n then none else some st
  | fuel + 1, st =>
    if st.r < n then do
      let st ← cleanStep path n rooted st
      cleanLoop path n rooted fuel st
    else some st

/-- The `for _, c := range out.buf` scan of `windowsPostClean`: does a `:`
occur before the first separator? -/
def colonInFirstElem : List Nat → Bool
  | [] => false
  | c :: cs =>
    if windowsIsPathSeparator c then false
    else if c = 58 then true
    else colonInFirstElem cs

/-- The condition
`len(buf) >= 3 && sep(buf[0]) && buf[1] == '?' && buf[2] == '?'`. -/
def startsLikeRootLocalDevice (buf : List Nat) : Option Bool :=
  if buf.length ≥ 3 then do
    let b0 ← buf[0]?
    if windowsIsPathSeparator b0 then do
      let b1 ← buf[1]?
      if b1 = 63 then do
        let b2 ← buf[2]?
        some (b2 == 63)
      else some false
    else some false
  else some false

def windowsPostClean (out : lazybuf) : Option lazybuf :=
  match out.buf with
  | none => some out
  | some buf =>
    if out.volLen != 0 then some out
    else if colonInFirstElem buf then
      some (out.prepend [46, WindowsSeparator])
    else do
      if ← startsLikeRootLocalDevice buf then
        some (out.prepend [WindowsSeparator, 46])
      else some out

/-- The loop variables of `windowsClean` on entry to the loop:
`out := lazybuf{...}; r, dotdot := 0, 0; if rooted { out.append(sep); r, dotdot = 1, 1 }`. -/
def cleanInit (path originalPath : List Nat) (volLen : Nat) (rooted : Bool) :
    Option cleanState :=
  let out : lazybuf :=
    { path := path, buf := none, w := 0, volAndPath := originalPath, volLen := volLen }
  if rooted then do
    let out ← out.append WindowsSeparator
    some { r := 1, dotdot := 1, out := out }
  else some { r := 0, dotdot := 0, out := out }

/-- The loop variables of `windowsClean` after `k` iterations of its loop (or
at its exit, if that comes first). -/
def cleanIter (path : List Nat) (n : Nat) (rooted : Bool) : Nat → cleanState → Option cleanState
  | 0, st => some st
  | k + 1, st =>
    if st.r < n then do
      let st ← cleanStep path n rooted st
      cleanIter path n rooted k st
    else some st

def windowsClean (path : List Nat) : Option (List Nat) := do
  let originalPath := path
  let volLen ← windowsVolumeNameLen path
  let path ← sliceFrom path volLen
  if path = [] then
    if ← startsWithTwoSeparators volLen originalPath then
      -- should be UNC
      some (FromSlash originalPath WindowsSeparator)
    else some (originalPath ++ [46])
  else do
    let p0 ← path[0]?
    let rooted := windowsIsPathSeparator p0
    let n := path.length
    let st ← cleanInit path originalPath volLen rooted
    let st ← cleanLoop path n rooted n st
    -- Turn empty string into "."
    let out ← if st.out.w = 0 then st.out.append 46 else some st.out
    let out ← windowsPostClean out
    let s ← out.string
    some (FromSlash s WindowsSeparator)

/-- The loop variables of `windowsClean path` after `k` iterations of its loop;
`none` when the remainder after the volume is empty (the loop is not reached)
or a step fails. -/
def cleanStateAfter (path : List Nat) (k : Nat) : Option cleanState := do
  let volLen ← windowsVolumeNameLen path
  let rest ← sliceFrom path volLen
  let p0 ← rest[0]?
  let st ← cleanInit rest path volLen (windowsIsPathSeparator p0)
  cleanIter rest rest.length (windowsIsPathSeparator p0) k st

/-- The lazy buffer of `windowsClean path` after `windowsPostClean`, as
`out.string()` reads it; `none` when the remainder after the volume is empty
(no buffer is made) or a step fails. -/
def cleanedBuf (path : List Nat) : Option lazybuf := do
  let volLen ← windowsVolumeNameLen path
  let rest ← sliceFrom path volLen
  let p0 ← rest[0]?
  let st ← cleanInit rest path volLen (windowsIsPathSeparator p0)
  let st ← cleanLoop rest rest.length (windowsIsPathSeparator p0) rest.length st
  let out ← if st.out.w = 0 then st.out.append 46 else some st.out
  windowsPostClean out

def windowsIsAbs (path : List Nat) : Option Bool := do
  let l ← windowsVolumeNameLen path
  if l = 0 then some false
  else do
    let p0 ← path[0]?
    let p1 ← if windowsIsPathSeparator p0 then path[1]? else some 0
    -- If the volume name starts with a double slash, this is an absolute path.
    if windowsIsPathSeparator p0 && windowsIsPathSeparator p1 then some true
    else do
      let path ← sliceFrom path l
      if path = [] then some false
      else do
        let c ← path[0]?
        some (windowsIsPathSeparator c)

/-- The loop `for len(e) > 0 && sep(e[0]) { e = e[1:] }` of `windowsJoin`. -/
def stripLeadingSeparators : List Nat → List Nat
  | [] => []
  | c :: cs => if windowsIsPathSeparator c then stripLeadingSeparators cs else c :: cs

/-- The condition
`strings.HasPrefix(e, "??") && (len(e) == len("??") || sep(e[2]))`. -/
def startsWithQuestionMarks (e : List Nat) : Option Bool :=
  if [63, 63].isPrefixOf e then
    if e.length = 2 then some true
    else do
      let c ← e[2]?
      some (windowsIsPathSeparator c)
  else some false

/-- The state of the loop of `windowsJoin`: the builder and `lastChar`. -/
structure joinState where
  b : List Nat
  lastChar : Nat
deriving DecidableEq, Repr

/-- One iteration of `for _, e := range elem` in `windowsJoin`. -/
def joinStep (st : joinState) (e : List Nat) : Option joinState := do
  let (st, e) ←
    if st.b.length = 0 then
      -- Add the first non-empty path element unchanged.
      some (st, e)
    else if windowsIsPathSeparator st.lastChar then do
      let e := stripLeadingSeparators e
      if st.b.length = 1 then
        if ← startsWithQuestionMarks e then
          some ({ st with b := st.b ++ [46, 92] }, e)
        else some (st, e)
      else some (st, e)
    else if st.lastChar = 58 then
      some (st, e)
    else
      -- In all other cases, add a separator between elements.
      some ({ b := st.b ++ [92], lastChar := 92 }, e)
  if e.length > 0 then do
    let last ← e[e.length - 1]?
    some { b := st.b ++ e, lastChar := last }
  else some st

/-- The loop of `windowsJoin`: the builder contents before the final clean. -/
def joinLoop : joinState → List (List Nat) → Option joinState
  | st, [] => some st
  | st, e :: es => do
    let st ← joinStep st e
    joinLoop st es

def windowsJoin (elem : List (List Nat)) : Option (List Nat) := do
  let st ← joinLoop { b := [], lastChar := 0 } elem
  if st.b.length = 0 then some []
  else windowsClean st.b

def WindowsAbs (wd path : List Nat) : Option (List Nat) := do
  if ← windowsIsAbs path then windowsClean path
  else windowsJoin [wd, path]

/-! ## pseudo.go: the lock-file search command

`fmt.Sprintf`, `strings.Join` and `strings.ReplaceAll` belong to the Go
standard library; they are embedded for the verbs and arguments the code uses.
-/

/-- The two lower-case hexadecimal digits of a byte. -/
def hexDigits (c : Nat) : List Nat :=
  let d := fun n => if n < 10 then 48 + n else 87 + n
  [d (c / 16 % 16), d (c % 16)]

/-- The escape of one byte under Go's `%q` (`strconv.Quote`), exact for ASCII
input. Bytes from 128 on are kept as they are, which is what Go does for
printable runes in valid UTF-8 only: Go escapes a non-printable rune (`\u00a0`)
and a byte that is not valid UTF-8 (`\xff`), so for such text the embedding
gives another command text than the program. -/
def quoteByte (c : Nat) : List Nat :=
  if c = 34 then [92, 34]
  else if c = 92 then [92, 92]
  else if c = 7 then [92, 97]
  else if c = 8 then [92, 98]
  else if c = 12 then [92, 102]
  else if c = 10 then [92, 110]
  else if c = 13 then [92, 114]
  else if c = 9 then [92, 116]
  else if c = 11 then [92, 118]
  else if c < 32 ∨ c = 127 then [92, 120] ++ hexDigits c
  else [c]

/-- Go's `strconv.Quote`: the text in double quotes, with `"` and `\` escaped. -/
def strconvQuote (s : List Nat) : List Nat :=
  [34] ++ (s.map quoteByte).flatten ++ [34]

/-- Go's `fmt.Sprintf` for string arguments and the verbs `%s`, `%q`, `%%`.
For any other verb and for a wrong number of arguments the result is `none`:
Go does not fail there but writes a marker such as `%!x(MISSING)` into the
text, so `none` means that the format is outside the embedding, not that the
program stops. -/
def sprintf : List Nat → List (List Nat) → Option (List Nat)
  | [], [] => some []
  | [], _ :: _ => none
  | 37 :: 115 :: fmt, a :: args => (sprintf fmt args).map (fun t => a ++ t)
  | 37 :: 113 :: fmt, a :: args => (sprintf fmt args).map (fun t => strconvQuote a ++ t)
  | 37 :: 37 :: fmt, args => (sprintf fmt args).map (fun t => 37 :: t)
  | 37 :: _, _ => none
  | c :: fmt, args => (sprintf fmt args).map (fun t => c :: t)

/-- Go's `strings.Join`. -/
def stringsJoin (ss : List (List Nat)) (sep : List Nat) : List Nat :=
  sep.intercalate ss

/-- Go's `strings.ReplaceAll(s, "\"", "\\\"")`: every `"` becomes `\"`. -/
def escapeDoubleQuotes (s : List Nat) : List Nat :=
  (s.map (fun c => if c = 34 then [92, 34] else [c])).flatten

/-- Go's `strings.HasSuffix`. -/
def hasSuffix (s suf : List Nat) : Bool := suf.isSuffixOf s

/-- Applies `f` to every entry in turn (`for _, x := range xs { ss = append(ss, f(x)) }`). -/
def mapM? (f : List Nat → Option (List Nat)) : List (List Nat) → Option (List (List Nat))
  | [] => some []
  | x :: xs => do
    let y ← f x
    let ys ← mapM? f xs
    some (y :: ys)

/-- The format of the PowerShell listing, shared by the `cmd.exe` and
`powershell` branches. -/
def getChildItemFormat : List Nat :=
  ascii ("Get-ChildItem -Path %s -Recurse -File -ErrorAction SilentlyContinue " ++
    "| Where-Object \x7b $_.Name -in @(%s) \x7d | Select-Object -ExpandProperty FullName")

/-- The closure `cmd := func() string { switch shell { ... } }()` of
`scanLibraries`; `FindLockDirs` is `o.ServerInfo.FindLockDirs` and
`FindLockFiles` is `models.FindLockFiles`. -/
def findLockCmd (shell : List Nat) (FindLockDirs FindLockFiles : List (List Nat)) :
    Option (List Nat) :=
  if shell = ascii "cmd.exe" then do
    let dir ←
      if FindLockDirs.length = 0 then some (ascii "C:\\")
      else do
        let ss ← mapM? (fun d => do
          let d ← if hasSuffix d (ascii "\\") then sprintf (ascii "%s\\") [d] else some d
          sprintf (ascii "\\\"%s\\\"") [d]) FindLockDirs
        some (stringsJoin ss (ascii ","))
    let ss ← mapM? (fun filename => sprintf (ascii "\\\"%s\\\"") [filename]) FindLockFiles
    let findopt := stringsJoin ss (ascii ", ")
    let inner ← sprintf getChildItemFormat [dir, findopt]
    sprintf (ascii "powershell.exe -NoProfile -NonInteractive %q") [escapeDoubleQuotes inner]
  else if shell = ascii "powershell" then do
    let dir ←
      if FindLockDirs.length = 0 then some (ascii "C:\\")
      else do
        let ss ← mapM? (fun d => sprintf (ascii "%q") [d]) FindLockDirs
        some (stringsJoin ss (ascii ","))
    let ss ← mapM? (fun filename => sprintf (ascii "%q") [filename]) FindLockFiles
    let findopt := stringsJoin ss (ascii ", ")
    sprintf getChildItemFormat [dir, findopt]
  else do
    let dir :=
      if FindLockDirs.length = 0 then ascii "/"
      else stringsJoin FindLockDirs (ascii " ")
    let ss ← mapM? (fun filename => sprintf (ascii "-name %q") [filename]) FindLockFiles
    let findopt := stringsJoin ss (ascii " -o ")
    -- findopt[:len(findopt)-3]
    let cut ← if 3 ≤ findopt.length then sliceTo findopt (findopt.length - 3) else none
    sprintf (ascii "find %s -type f -and \\( " ++ cut ++ ascii " \\) 2>&1 | grep -v \"find: \"") [dir]

/-! ## pseudo.go: `scanLibraries`

The remote host, the local file system and the library analyser are outside
the embedded code: they are the fields of `Collaborators`, and every call to
one of them is recorded, in order, in a trace of `Event`s.
-/

/-- The result of a remote command (`execResult`): its output and exit status. -/
structure execResult where
  Stdout : List Nat
  ExitStatus : Int
deriving DecidableEq, Repr

/-- The part of `o.ServerInfo` that `scanLibraries` reads. -/
structure ServerInfo where
  Lockfiles : List (List Nat)
  FindLock : Bool
  FindLockDirs : List (List Nat)
  /-- `Mode.IsFastRoot()` -/
  IsFastRoot : Bool
  /-- `Mode.IsDeep()` -/
  IsDeep : Bool
  /-- `Mode.IsOffline()` -/
  IsOffline : Bool
deriving DecidableEq, Repr

/-- The calls `scanLibraries` makes to its collaborators. -/
inductive Event where
  /-- `o.exec(cmd, priv)` and `exec(o.ServerInfo, cmd, priv)` -/
  | exec (cmd : List Nat) (priv : Bool)
  /-- `os.Stat(abspath)` -/
  | stat (abspath : List Nat)
  /-- `os.ReadFile(abspath)` -/
  | readFile (abspath : List Nat)
  /-- `AnalyzeLibrary(ctx, abspath, contents, filemode, offline)` -/
  | analyze (abspath contents : List Nat) (filemode : Nat) (offline : Bool)
  /-- `o.log.Warn(err)` after a failed stat or read of `abspath` -/
  | warn (abspath : List Nat)
deriving DecidableEq, Repr

/-- The collaborators of `scanLibraries`, and the declarations it uses from
other packages; `L` is `models.LibraryScanner`. -/
structure Collaborators (L : Type) where
  /-- The remote command execution: command and privilege (`true` for `sudo`). -/
  exec : List Nat → Bool → execResult
  /-- `r.isSuccess()` -/
  isSuccess : execResult → Bool
  /-- `os.Stat(abspath)`: the permission bits, `none` for an error. -/
  stat : List Nat → Option Nat
  /-- `os.ReadFile(abspath)`: the contents, `none` for an error. -/
  readFile : List Nat → Option (List Nat)
  /-- `AnalyzeLibrary`: the library scanners, or an error. -/
  AnalyzeLibrary : List Nat → List Nat → Nat → Bool → Except (List Nat) (List L)
  /-- `ufilepath.UnixAbs(wd, path)` -/
  UnixAbs : List Nat → List Nat → List Nat
  /-- `strings.TrimSpace` -/
  TrimSpace : List Nat → List Nat
  /-- `models.FindLockFiles` -/
  FindLockFiles : List (List Nat)

/-- The errors `scanLibraries` returns: `"Failed to find lock files"` and
`"Failed to analyze library. err: %w, filepath: %s"`. -/
inductive scanError where
  | findLockFailed
  | analyzeFailed (err : List Nat) (filepath : List Nat)
deriving DecidableEq, Repr

/-- The state `scanLibraries` works on: `o.LibraryScanners`, and the trace of
the calls made so far. -/
structure scanState (L : Type) where
  LibraryScanners : List L
  trace : List Event
deriving DecidableEq

/-- Go's `strings.Split(s, sep)` for a one-byte separator. -/
def splitByte (sep : Nat) : List Nat → List (List Nat)
  | [] => [[]]
  | c :: cs =>
    if c = sep then [] :: splitByte sep cs
    else
      match splitByte sep cs with
      | [] => [[c]]
      | e :: es => (c :: e) :: es

/-- One remote command: its result, and the trace with the call added. -/
def runCmd {L : Type} (env : Collaborators L) (cmd : List Nat) (priv : Bool)
    (tr : List Event) : execResult × List Event :=
  (env.exec cmd priv, tr ++ [Event.exec cmd priv])

/-- The closure `shell := func() string { ... }()` of `scanLibraries`. -/
def detectShell {L : Type} (env : Collaborators L) (tr : List Event) :
    List Nat × List Event :=
  let (r, tr) := runCmd env (ascii "uname") false tr
  if env.isSuccess r then (ascii "linux/unix", tr)
  else
    let (r, tr) := runCmd env (ascii "echo $env:OS") false tr
    if env.isSuccess r then
      if env.TrimSpace r.Stdout = ascii "$env:OS" then (ascii "cmd.exe", tr)
      else if env.TrimSpace r.Stdout = ascii "Windows_NT" then (ascii "powershell", tr)
      else
        let (r, tr) := runCmd env (ascii "Get-ChildItem env:OS") false tr
        if env.isSuccess r then (ascii "powershell", tr)
        else (ascii "unknown", tr)
    else (ascii "unknown", tr)

/-- The closure `wd := func() string { switch shell { ... } }()` of
`scanLibraries`. -/
def workingDir {L : Type} (env : Collaborators L) (shell : List Nat) (tr : List Event) :
    List Nat × List Event :=
  if shell = ascii "cmd.exe" then
    let (r, tr) := runCmd env
      (ascii ("powershell.exe -NoProfile -NonInteractive " ++
        "\"Get-Location | Select-object -ExpandProperty Path\"")) false tr
    if env.isSuccess r then (env.TrimSpace r.Stdout, tr) else (ascii "C:\\", tr)
  else if shell = ascii "powershell" then
    let (r, tr) := runCmd env (ascii "Get-Location | Select-object -ExpandProperty Path")
      false tr
    if env.isSuccess r then (env.TrimSpace r.Stdout, tr) else (ascii "C:\\", tr)
  else
    let (r, tr) := runCmd env (ascii "pwd") false tr
    if env.isSuccess r then (env.TrimSpace r.Stdout, tr) else (ascii "/", tr)

/-- The closure `abspath := func() string { switch shell { ... } }()` of the
loop of `scanLibraries`. -/
def absPath {L : Type} (env : Collaborators L) (shell wd path : List Nat) :
    Option (List Nat) :=
  if shell = ascii "cmd.exe" ∨ shell = ascii "powershell" then WindowsAbs wd path
  else some (env.UnixAbs wd path)

/-- The closure that stats and reads `abspath`: the permission bits and the
contents, or `none` when either call fails. -/
def fetchFile {L : Type} (env : Collaborators L) (abspath : List Nat) (tr : List Event) :
    Option (Nat × List Nat) × List Event :=
  match env.stat abspath with
  | none => (none, tr ++ [Event.stat abspath])
  | some filemode =>
    match env.readFile abspath with
    | none => (none, tr ++ [Event.stat abspath, Event.readFile abspath])
    | some contents =>
      (some (filemode, contents), tr ++ [Event.stat abspath, Event.readFile abspath])

/-- The loop `for _, path := range detectFiles { ... }` of `scanLibraries`;
`found` holds the keys of the map `found`. -/
def scanLoop {L : Type} (env : Collaborators L) (info : ServerInfo) (shell wd : List Nat) :
    List (List Nat) → List (List Nat) → scanState L → Option (Option scanError × scanState L)
  | [], _, st => some (none, st)
  | path :: rest, found, st =>
    if path = [] then scanLoop env info shell wd rest found st
    else
      match absPath env shell wd path with
      | none => none
      | some abspath =>
        if abspath ∈ found then scanLoop env info shell wd rest found st
        else
          match fetchFile env abspath st.trace with
          | (none, tr) =>
            -- o.log.Warn(err); continue
            scanLoop env info shell wd rest (abspath :: found)
              { st with trace := tr ++ [Event.warn abspath] }
          | (some (filemode, contents), tr) =>
            match env.AnalyzeLibrary abspath contents filemode info.IsOffline with
            | Except.error err =>
              some (some (scanError.analyzeFailed err abspath),
                { st with
                  trace := tr ++ [Event.analyze abspath contents filemode info.IsOffline] })
            | Except.ok libraryScanners =>
              scanLoop env info shell wd rest (abspath :: found)
                { LibraryScanners := st.LibraryScanners ++ libraryScanners,
                  trace := tr ++ [Event.analyze abspath contents filemode info.IsOffline] }

/-- The block `if o.ServerInfo.FindLock { ... }` of `scanLibraries`: the error,
or the files to inspect. -/
def searchLockfiles {L : Type} (env : Collaborators L) (info : ServerInfo) (shell : List Nat)
    (tr : List Event) : Option (Except scanError (List (List Nat)) × List Event) :=
  let detectFiles := info.Lockfiles
  let priv := info.IsFastRoot || info.IsDeep
  if info.FindLock then
    match findLockCmd shell info.FindLockDirs env.FindLockFiles with
    | none => none
    | some cmd =>
      let (r, tr) := runCmd env cmd priv tr
      if r.ExitStatus ≠ 0 ∧ r.ExitStatus ≠ 1 then
        some (Except.error scanError.findLockFailed, tr)
      else some (Except.ok (detectFiles ++ splitByte 10 r.Stdout), tr)
  else some (Except.ok detectFiles, tr)

def scanLibraries {L : Type} (env : Collaborators L) (info : ServerInfo) (st : scanState L) :
    Option (Option scanError × scanState L) :=
  if st.LibraryScanners.length > 0 then some (none, st)
  -- library scan for servers need lockfiles
  else if info.Lockfiles.length = 0 && !info.FindLock then some (none, st)
  else
    let (shell, tr) := detectShell env st.trace
    match searchLockfiles env info shell tr with
    | none => none
    | some (Except.error err, tr) => some (some err, { st with trace := tr })
    | some (Except.ok detectFiles, tr) =>
      let (wd, tr) := workingDir env shell tr
      scanLoop env info shell wd detectFiles [] { st with trace := tr }

/-! ## The eager builder

The specification allows an eager builder in place of `lazybuf`: a buffer that
holds exactly the bytes written so far. `eagerClean` is `windowsClean` with
that builder: the same loop, the same guards, every `out.w` read as the length
of the buffer, and the buffer cut at the end of each backtrack.
-/

/-- The eager builder. `buf` is the output written so far, no more;
`allocated` is what `out.buf == nil` tests on a `lazybuf`: whether some byte was
written that is not the byte of the input at its position. -/
structure eagerbuf where
  path : List Nat
  buf : List Nat
  allocated : Bool
  volAndPath : List Nat
  volLen : Nat
deriving DecidableEq, Repr

namespace eagerbuf

def w (b : eagerbuf) : Nat := b.buf.length

def index (b : eagerbuf) (i : Nat) : Option Nat := b.buf[i]?

def append (b : eagerbuf) (c : Nat) : eagerbuf :=
  { b with
    buf := b.buf ++ [c]
    allocated := b.allocated || (b.path[b.buf.length]? != some c) }

/-- Cuts the buffer to its first `w` bytes. -/
def truncate (b : eagerbuf) (w : Nat) : eagerbuf := { b with buf := b.buf.take w }

def prepend (b : eagerbuf) (pre : List Nat) : eagerbuf :=
  { b with buf := pre ++ b.buf, allocated := true }

def string (b : eagerbuf) : Option (List Nat) := do
  let v ← sliceTo b.volAndPath b.volLen
  some (v ++ b.buf)

end eagerbuf

/-- The loop `for w > dotdot && !sep(out.index(w)) { w-- }` on the eager
builder: the index the buffer is cut at. -/
def eagerBacktrackLoop (dotdot : Nat) (out : eagerbuf) : Nat → Nat → Option Nat
  | 0, w =>
    if w > dotdot then do
      let c ← out.index w
      if !windowsIsPathSeparator c then none else some w
    else some w
  | fuel + 1, w =>
    if w > dotdot then do
      let c ← out.index w
      if !windowsIsPathSeparator c then eagerBacktrackLoop dotdot out fuel (w - 1)
      else some w
    else some w

/-- The copy loop of an element on the eager builder. -/
def eagerCopyElemLoop (path : List Nat) (n : Nat) : Nat → Nat → eagerbuf → Option (Nat × eagerbuf)
  | 0, r, out =>
    if r < n then do
      let c ← path[r]?
      if !windowsIsPathSeparator c then none else some (r, out)
    else some (r, out)
  | fuel + 1, r, out =>
    if r < n then do
      let c ← path[r]?
      if !windowsIsPathSeparator c then
        eagerCopyElemLoop path n fuel (r + 1) (out.append c)
      else some (r, out)
    else some (r, out)

/-- The loop variables of `eagerClean`. -/
structure eagerState where
  r : Nat
  dotdot : Nat
  out : eagerbuf
deriving DecidableEq, Repr

/-- One iteration of the loop of `windowsClean`, on the eager builder. -/
def eagerCleanStep (path : List Nat) (n : Nat) (rooted : Bool) (st : eagerState) :
    Option eagerState := do
  let c ← path[st.r]?
  if windowsIsPathSeparator c then
    some { st with r := st.r + 1 }
  else if ← isDotElem path n st.r then
    some { st with r := st.r + 1 }
  else if ← isDotDotElem path n st.r then
    let r := st.r + 2
    if st.out.w > st.dotdot then do
      let w ← eagerBacktrackLoop st.dotdot st.out st.out.w (st.out.w - 1)
      some { r := r, dotdot := st.dotdot, out := st.out.truncate w }
    else if !rooted then
      let out := if st.out.w > 0 then st.out.append WindowsSeparator else st.out
      let out := out.append 46
      let out := out.append 46
      some { r := r, dotdot := out.w, out := out }
    else some { r := r, dotdot := st.dotdot, out := st.out }
  else do
    let out :=
      if (rooted && st.out.w != 1) || (!rooted && st.out.w != 0) then
        st.out.append WindowsSeparator
      else st.out
    let (r, out) ← eagerCopyElemLoop path n n st.r out
    some { r := r, dotdot := st.dotdot, out := out }

/-- The loop of `windowsClean`, on the eager builder. -/
def eagerCleanLoop (path : List Nat) (n : Nat) (rooted : Bool) :
    Nat → eagerState → Option eagerState
  | 0, st => if st.r < n then none else some st
  | fuel + 1, st =>
    if st.r < n then do
      let st ← eagerCleanStep path n rooted st
      eagerCleanLoop path n rooted fuel st
    else some st

/-- The guards of `windowsPostClean`, on the eager builder: they read the
output and nothing else. -/
def eagerPostClean (out : eagerbuf) : Option eagerbuf :=
  if out.volLen != 0 || !out.allocated then some out
  else if colonInFirstElem out.buf then
    some (out.prepend [46, WindowsSeparator])
  else do
    if ← startsLikeRootLocalDevice out.buf then
      some (out.prepend [WindowsSeparator, 46])
    else some out

/-- The algorithm of `windowsClean` run with the eager builder. -/
def eagerClean (path : List Nat) : Option (List Nat) := do
  let originalPath := path
  let volLen ← windowsVolumeNameLen path
  let path ← sliceFrom path volLen
  if path = [] then
    if ← startsWithTwoSeparators volLen originalPath then
      some (FromSlash originalPath WindowsSeparator)
    else some (originalPath ++ [46])
  else do
    let p0 ← path[0]?
    let rooted := windowsIsPathSeparator p0
    let n := path.length
    let out : eagerbuf :=
      { path := path, buf := [], allocated := false, volAndPath := originalPath,
        volLen := volLen }
    let st : eagerState :=
      if rooted then { r := 1, dotdot := 1, out := out.append WindowsSeparator }
      else { r := 0, dotdot := 0, out := out }
    let st ← eagerCleanLoop path n rooted n st
    let out := if st.out.w = 0 then st.out.append 46 else st.out
    let out ← eagerPostClean out
    let s ← out.string
    some (FromSlash s WindowsSeparator)

/-! ## Vocabulary of the statements and proofs -/

/-- Bytes that are not separators. -/
def notSep (c : Nat) : Bool := !windowsIsPathSeparator c

/-- The logical output of a `lazybuf`: the first `w` bytes of the buffer, or of
the input while nothing has been allocated. -/
def lazybuf.content (b : lazybuf) : List Nat := (b.buf.getD b.path).take b.w

/-- A `lazybuf` as `windowsClean` keeps it: the write index is within the
input, and an allocated buffer is as long as the input. -/
structure lazybuf.WF (b : lazybuf) : Prop where
  w_le : b.w ≤ b.path.length
  buf_len : ∀ buf, b.buf = some buf → buf.length = b.path.length

/-- The bytes a `lazybuf` reads through `index`. -/
def lazybuf.arr (b : lazybuf) : List Nat := b.buf.getD b.path

/-- The element that starts at index `r`: the bytes up to the next separator. -/
def elemAt (path : List Nat) (r : Nat) : List Nat := (path.drop r).takeWhile notSep

/-- The write index at which no separator precedes the next element: 1 after
the leading separator of a rooted path, 0 otherwise. -/
def baseIndex (rooted : Bool) : Nat := if rooted then 1 else 0

/-- The invariant of the loop of `windowsClean`, at the loop head. -/
structure CleanInv (orig path : List Nat) (v : Nat) (rooted : Bool) (st : cleanState) :
    Prop where
  wf : st.out.WF
  path_eq : st.out.path = path
  vol_eq : st.out.volAndPath = orig
  volLen_eq : st.out.volLen = v
  w_le_r : st.out.w ≤ st.r
  r_le : st.r ≤ path.length
  dotdot_le : st.dotdot ≤ st.out.w
  gap : st.out.w < st.r ∨ st.out.w = baseIndex rooted ∨ path.length ≤ st.r ∨
      ∃ c, path[st.r]? = some c ∧ windowsIsPathSeparator c = true

/-- What one iteration of the loop does to the logical output. -/
inductive StepRel (path : List Nat) (rooted : Bool) (st st' : cleanState) : Prop
  | skip (hr : st'.r = st.r + 1) (he : elemAt path st.r = [] ∨ elemAt path st.r = [46])
      (hc : st'.out.content = st.out.content) (hd : st'.dotdot = st.dotdot)
  | back (k : Nat) (hr : st'.r = st.r + 2) (he : elemAt path st.r = [46, 46])
      (hk1 : st.dotdot ≤ k) (hk2 : k < st.out.w)
      (hsep : st.dotdot < k →
        ∃ c, st.out.content[k]? = some c ∧ windowsIsPathSeparator c = true)
      (hno : ∀ j, k < j → j < st.out.w →
        ∃ c, st.out.content[j]? = some c ∧ windowsIsPathSeparator c = false)
      (hc : st'.out.content = st.out.content.take k) (hd : st'.dotdot = st.dotdot)
  | dots (hr : st'.r = st.r + 2) (he : elemAt path st.r = [46, 46])
      (hroot : rooted = false) (hw : st.out.w ≤ st.dotdot)
      (hc : st'.out.content =
        st.out.content ++ (if st.out.w > 0 then [92] else []) ++ [46, 46])
      (hd : st'.dotdot = st'.out.w)
  | stay (hr : st'.r = st.r + 2) (he : elemAt path st.r = [46, 46])
      (hroot : rooted = true) (hw : st.out.w ≤ st.dotdot)
      (hc : st'.out.content = st.out.content) (hd : st'.dotdot = st.dotdot)
  | elem (hr : st'.r = st.r + (elemAt path st.r).length)
      (h0 : elemAt path st.r ≠ []) (h1 : elemAt path st.r ≠ [46])
      (h2 : elemAt path st.r ≠ [46, 46])
      (hc : st'.out.content =
        st.out.content ++ (if st.out.w = baseIndex rooted then [] else [92]) ++
          elemAt path st.r)
      (hd : st'.dotdot = st.dotdot)

/-- The bytes `windowsPostClean` puts in front of the output. -/
def postCleanPrefix (out : lazybuf) : List Nat :=
  match out.buf with
  | none => []
  | some buf =>
    if out.volLen != 0 then []
    else if colonInFirstElem buf then [46, 92]
    else if startsLikeRootLocalDevice buf = some true then [92, 46]
    else []

/-- The builder of `windowsJoin` after an element, as the `switch` of the loop
body puts it together. -/
def joinedElem (st : joinState) (e : List Nat) : List Nat :=
  if st.b.length = 0 then e
  else if windowsIsPathSeparator st.lastChar then
    (if st.b.length = 1 ∧ startsWithQuestionMarks (stripLeadingSeparators e) = some true
      then [46, 92] else []) ++ stripLeadingSeparators e
  else if st.lastChar = 58 then e
  else 92 :: e

/-- The path elements of a string: the runs of bytes between separators. -/
def pathElems : List Nat → List (List Nat)
  | [] => [[]]
  | c :: cs =>
    if windowsIsPathSeparator c then [] :: pathElems cs
    else
      match pathElems cs with
      | [] => [[c]]
      | e :: es => (c :: e) :: es

/-- What the loop keeps true of the output of a rooted path: it starts with the
one `\`, holds no `/`, and none of its elements is `..`. -/
def RootedOut (st : cleanState) : Prop :=
  st.dotdot = 1 ∧ ∃ rest, st.out.content = 92 :: rest ∧ 47 ∉ rest ∧ [46, 46] ∉ pathElems rest

/-- The `\??` test of `windowsVolumeNameLen` on a path of at least two bytes. -/
def isRootLocalDevice (a b : Nat) (t : List Nat) : Bool :=
  windowsIsPathSeparator a && (b == 63) &&
    (match t with
      | [] => false
      | [c] => c == 63
      | c :: s :: _ => c == 63 && windowsIsPathSeparator s)

/-- A rooted output without its last element: the bytes after the last
separator go, and so does that separator unless it is the leading one. -/
def popElem (content : List Nat) : List Nat :=
  let kept := content.rdropWhile notSep
  if kept.length ≤ 1 then kept else kept.dropLast

/-- What one path element does to the output of a rooted path: an empty element
and `.` nothing, `..` removes the last element (none at the root), any other
element is added after a separator. -/
def rootedStep (content e : List Nat) : List Nat :=
  if e = [] ∨ e = [46] then content
  else if e = [46, 46] then
    if content.length ≤ 1 then content else popElem content
  else content ++ (if content.length = 1 then [] else [92]) ++ e

/-- The output of the loop of `windowsClean` on the rooted remainder `rest`,
element by element. -/
def rootedContent (rest : List Nat) : List Nat :=
  (pathElems rest).foldl rootedStep [92]

/-- The three shapes of a path that `windowsIsAbs` accepts: two leading
separators; a byte, a colon and a separator; `\??\`, a component and a
separator. -/
inductive AbsShape : List Nat → Prop
  | unc (a b : Nat) (t : List Nat) (ha : windowsIsPathSeparator a = true)
      (hb : windowsIsPathSeparator b = true) : AbsShape (a :: b :: t)
  | drive (a s : Nat) (t : List Nat) (hs : windowsIsPathSeparator s = true) :
      AbsShape (a :: 58 :: s :: t)
  | device (a s c : Nat) (comp tail : List Nat) (ha : windowsIsPathSeparator a = true)
      (hs : windowsIsPathSeparator s = true)
      (hcomp : ∀ x ∈ comp, windowsIsPathSeparator x = false)
      (hc : windowsIsPathSeparator c = true) :
      AbsShape (a :: 63 :: 63 :: s :: (comp ++ c :: tail))

/-- The two basenames of the comments in `scanLibraries`. -/
def sampleLockFiles : List (List Nat) := [ascii "package-lock.json", ascii "yarn.lock"]

/-- The white space of the sample hosts. -/
def isSampleSpace (c : Nat) : Bool := c == 32 || c == 9 || c == 10 || c == 13

/-- A host for the examples. Its shell is POSIX: `uname` prints `Linux`, `pwd`
prints `/home/u`, and every other command, the search among them, ends with
`findStatus` and prints `findStdout`. Every file has the mode 0644 and the
contents `{}`; the files of `unreadable` cannot be read, and the analyser
fails on the files of `unanalysable`. -/
def sampleHost (findStatus : Int) (findStdout : List Nat)
    (unreadable unanalysable : List (List Nat)) : Collaborators Nat where
  exec := fun cmd _ =>
    if cmd = ascii "uname" then { Stdout := ascii "Linux\n", ExitStatus := 0 }
    else if cmd = ascii "pwd" then { Stdout := ascii "/home/u\n", ExitStatus := 0 }
    else { Stdout := findStdout, ExitStatus := findStatus }
  isSuccess := fun r => r.ExitStatus == 0
  stat := fun _ => some 420
  readFile := fun p => if p ∈ unreadable then none else some (ascii "\x7b\x7d")
  AnalyzeLibrary := fun p _ _ _ =>
    if p ∈ unanalysable then Except.error (ascii "parse error") else Except.ok [p.length]
  UnixAbs := fun wd p => if p.head? = some 47 then p else wd ++ 47 :: p
  TrimSpace := fun s =>
    ((s.dropWhile isSampleSpace).reverse.dropWhile isSampleSpace).reverse
  FindLockFiles := sampleLockFiles

/-- A host on which every probe fails, with the same files as `sampleHost`. -/
def silentHost : Collaborators Nat where
  exec := fun _ _ => { Stdout := [], ExitStatus := 127 }
  isSuccess := fun r => r.ExitStatus == 0
  stat := fun _ => some 420
  readFile := fun _ => some (ascii "\x7b\x7d")
  AnalyzeLibrary := fun p _ _ _ => Except.ok [p.length]
  UnixAbs := fun wd p => if p.head? = some 47 then p else wd ++ 47 :: p
  TrimSpace := fun s => s
  FindLockFiles := sampleLockFiles

/-- The paths of the `os.Stat` calls of a trace, in order. -/
def statPaths (evs : List Event) : List (List Nat) :=
  evs.filterMap (fun e => match e with | Event.stat p => some p | _ => none)

/-- The paths handed to `AnalyzeLibrary` in a trace, in order. -/
def analyzePaths (evs : List Event) : List (List Nat) :=
  evs.filterMap (fun e => match e with | Event.analyze p _ _ _ => some p | _ => none)

/-- The paths of the warnings logged in a trace, in order. -/
def warnPaths (evs : List Event) : List (List Nat) :=
  evs.filterMap (fun e => match e with | Event.warn p => some p | _ => none)

/-- The paths of the `os.ReadFile` calls of a trace, in order. -/
def readPaths (evs : List Event) : List (List Nat) :=
  evs.filterMap (fun e => match e with | Event.readFile p => some p | _ => none)

/-- Whether an event is a remote command. -/
def isExec : Event → Bool
  | Event.exec _ _ => true
  | _ => false

/-- The canonical paths of the non-empty candidates, in candidate order. -/
def canonicalPaths {L : Type} (env : Collaborators L) (shell wd : List Nat)
    (cands : List (List Nat)) : List (List Nat) :=
  (cands.filter (fun p => p ≠ [])).filterMap (absPath env shell wd)

/-- The entries of a list of keys that are not in `seen` and not earlier in the
list: each key at the position of its first occurrence. -/
def firstOccurrences : List (List Nat) → List (List Nat) → List (List Nat)
  | [], _ => []
  | k :: ks, seen =>
    if k ∈ seen then firstOccurrences ks seen else k :: firstOccurrences ks (k :: seen)

/-- What stat and read give for `abspath`. -/
def fetched {L : Type} (env : Collaborators L) (abspath : List Nat) : Option (Nat × List Nat) :=
  (fetchFile env abspath []).1

/-- What the analyser answers on `abspath`, when the file can be fetched. -/
def analysis {L : Type} (env : Collaborators L) (info : ServerInfo) (abspath : List Nat) :
    Option (Except (List Nat) (List L)) :=
  (fetched env abspath).map
    (fun mc => env.AnalyzeLibrary abspath mc.2 mc.1 info.IsOffline)

/-- The events one pass of the loop body adds for a key it has not seen: the
stat and read calls, then the warning or the call of the analyser. -/
def keyEvents {L : Type} (env : Collaborators L) (info : ServerInfo) (abspath : List Nat) :
    List Event :=
  (fetchFile env abspath []).2 ++
    match fetched env abspath with
    | none => [Event.warn abspath]
    | some (filemode, contents) => [Event.analyze abspath contents filemode info.IsOffline]

/-- The dialect `scanLibraries` detects on the host. -/
def hostShell {L : Type} (env : Collaborators L) : List Nat := (detectShell env []).1

/-- The working directory `scanLibraries` resolves the candidates from. -/
def hostWd {L : Type} (env : Collaborators L) : List Nat :=
  (workingDir env (hostShell env) []).1

/-- Whether the analyser fails on `abspath` (false when the file cannot be
fetched: the analyser is then not called). -/
def analyzerFails {L : Type} (env : Collaborators L) (info : ServerInfo) (abspath : List Nat) :
    Bool :=
  match analysis env info abspath with
  | some (Except.error _) => true
  | _ => false

/-- A server with the declared lock files `lockfiles`, no search directories
and the normal scan mode. -/
def sampleServer (lockfiles : List (List Nat)) (findLock : Bool) : ServerInfo where
  Lockfiles := lockfiles
  FindLock := findLock
  FindLockDirs := []
  IsFastRoot := false
  IsDeep := false
  IsOffline := false

/-! ## Volume prefix: totality and shape -/

theorem getElem?_some_of_lt {l : List Nat} {i : Nat} (h : i < l.length) :
    ∃ c, l[i]? = some c := ⟨l[i], List.getElem?_eq_getElem h⟩

theorem pathHasPrefixFoldLoop_total (s pre : List Nat) (h : pre.length ≤ s.length) :
    ∀ fuel i, pre.length ≤ i + fuel → ∃ b, pathHasPrefixFoldLoop s pre fuel i = some b := by
  intro fuel
  induction fuel with
  | zero =>
    intro i hi
    have hi' : ¬ i < pre.length := by omega
    unfold pathHasPrefixFoldLoop
    simp only [hi', if_false]
    split
    · rename_i hlt
      obtain ⟨c, hc⟩ := getElem?_some_of_lt (l := s) (i := pre.length) hlt
      simp [hc]
    · exact ⟨_, rfl⟩
  | succ fuel ih =>
    intro i hi
    unfold pathHasPrefixFoldLoop
    by_cases hlt : i < pre.length
    · obtain ⟨pc, hpc⟩ := getElem?_some_of_lt hlt
      obtain ⟨sc, hsc⟩ := getElem?_some_of_lt (l := s) (i := i) (by omega)
      obtain ⟨b, hb⟩ := ih (i + 1) (by omega)
      simp only [hlt, if_true, hpc, hsc, Option.bind_eq_bind, Option.some_bind, hb]
      split <;> split <;> simp
    · simp only [hlt, if_false]
      split
      · rename_i hlt2
        obtain ⟨c, hc⟩ := getElem?_some_of_lt (l := s) (i := pre.length) hlt2
        simp [hc]
      · exact ⟨_, rfl⟩

theorem pathHasPrefixFold_total (s pre : List Nat) : ∃ b, pathHasPrefixFold s pre = some b := by
  unfold pathHasPrefixFold
  split
  · exact ⟨_, rfl⟩
  · exact pathHasPrefixFoldLoop_total s pre (by omega) _ _ (by omega)

theorem uncLenLoop_spec (path : List Nat) :
    ∀ fuel i count, path.length ≤ i + fuel →
      ∃ v, uncLenLoop path fuel i count = some v ∧ v ≤ path.length ∧
        min i path.length ≤ v := by
  intro fuel
  induction fuel with
  | zero =>
    intro i count hi
    have hi' : ¬ i < path.length := by omega
    exact ⟨path.length, by simp [uncLenLoop, hi'], le_refl _, by omega⟩
  | succ fuel ih =>
    intro i count hi
    unfold uncLenLoop
    by_cases hlt : i < path.length
    · obtain ⟨c, hc⟩ := getElem?_some_of_lt hlt
      simp only [hlt, if_true, hc, Option.bind_eq_bind, Option.some_bind]
      by_cases hs : windowsIsPathSeparator c = true
      · simp only [hs, if_true]
        by_cases h2 : count + 1 = 2
        · simp only [h2, if_true]
          exact ⟨i, rfl, by omega, by omega⟩
        · simp only [h2, if_false]
          obtain ⟨v, hv, h1, h3⟩ := ih (i + 1) (count + 1) (by omega)
          exact ⟨v, hv, h1, by omega⟩
      · simp only [hs]
        obtain ⟨v, hv, h1, h3⟩ := ih (i + 1) count (by omega)
        exact ⟨v, by simpa using hv, h1, by omega⟩
    · simp only [hlt, if_false]
      exact ⟨path.length, rfl, le_refl _, by omega⟩

theorem uncLen_spec (path : List Nat) (k : Nat) :
    ∃ v, uncLen path k = some v ∧ v ≤ path.length ∧ min k path.length ≤ v :=
  uncLenLoop_spec path _ _ _ (by omega)

theorem takeWhile_of_prefix (p : Nat → Bool) :
    ∀ (l : List Nat) (i : Nat), i ≤ l.length →
      (∀ j, j < i → ∀ c, l[j]? = some c → p c = true) →
      l.takeWhile p = l.take i ++ (l.drop i).takeWhile p := by
  intro l
  induction l with
  | nil => intro i _ _; simp
  | cons a l ih =>
    intro i hi h
    cases i with
    | zero => simp
    | succ i =>
      have ha : p a = true := h 0 (by omega) a (by simp)
      have := ih i (by simpa using hi) (fun j hj c hc => h (j + 1) (by omega) c (by simpa using hc))
      simp [List.takeWhile_cons, ha, this]

theorem drop_eq_cons_of_getElem? {l : List Nat} {i c : Nat} (h : l[i]? = some c) :
    l.drop i = c :: l.drop (i + 1) := by
  induction l generalizing i with
  | nil => simp at h
  | cons a l ih =>
    cases i with
    | zero => simp at h; simp [h]
    | succ i => simp at h; simpa using ih h

theorem cutPathLoop_spec (path : List Nat) :
    ∀ fuel i, i ≤ path.length → path.length ≤ i + fuel →
      (∀ j, j < i → ∀ c, path[j]? = some c → notSep c = true) →
      cutPathLoop path fuel i =
        some (if (path.takeWhile notSep).length < path.length then
            (path.takeWhile notSep, path.drop ((path.takeWhile notSep).length + 1), true)
          else (path, [], false)) := by
  intro fuel
  induction fuel with
  | zero =>
    intro i hi hf h
    have hil : i = path.length := by omega
    have htw := takeWhile_of_prefix notSep path i hi h
    subst hil
    simp only [List.take_length, List.drop_length, List.takeWhile_nil, List.append_nil] at htw
    simp [cutPathLoop, htw]
  | succ fuel ih =>
    intro i hi hf h
    unfold cutPathLoop
    by_cases hlt : i < path.length
    · obtain ⟨c, hc⟩ := getElem?_some_of_lt hlt
      have htw := takeWhile_of_prefix notSep path i hi h
      rw [drop_eq_cons_of_getElem? hc] at htw
      simp only [hlt, if_true, hc, Option.bind_eq_bind, Option.some_bind]
      by_cases hs : windowsIsPathSeparator c = true
      · have hns : notSep c = false := by simp [notSep, hs]
        simp only [List.takeWhile_cons, hns] at htw
        simp only [Bool.false_eq_true, if_false, List.append_nil] at htw
        have hlen : (path.takeWhile notSep).length = i := by
          rw [htw]; simp; omega
        rw [hlen, htw]
        have h1 : i + 1 ≤ path.length := by omega
        simp [hs, sliceTo, sliceFrom, hi, h1, hlt]
      · simp only [hs]
        have hns : notSep c = true := by simp [notSep, hs]
        have := ih (i + 1) (by omega) (by omega) (fun j hj d hd => by
          by_cases hji : j < i
          · exact h j hji d hd
          · have : j = i := by omega
            subst this
            rw [hc] at hd; cases hd; exact hns)
        simpa using this
    · have hil : i = path.length := by omega
      have htw := takeWhile_of_prefix notSep path i hi h
      subst hil
      simp only [List.take_length, List.drop_length, List.takeWhile_nil, List.append_nil] at htw
      simp [htw]

theorem cutPath_spec (path : List Nat) :
    cutPath path =
      some (if (path.takeWhile notSep).length < path.length then
          (path.takeWhile notSep, path.drop ((path.takeWhile notSep).length + 1), true)
        else (path, [], false)) :=
  cutPathLoop_spec path _ 0 (by omega) (by omega) (fun j hj => by omega)

theorem length_takeWhile_le (p : Nat → Bool) (l : List Nat) :
    (l.takeWhile p).length ≤ l.length :=
  (List.takeWhile_sublist p).length_le

theorem deviceVolumeLen_spec (path : List Nat) (h : 3 ≤ path.length) :
    deviceVolumeLen path =
      some (if path.length = 3 then 3
        else 4 + ((path.drop 4).takeWhile notSep).length) := by
  unfold deviceVolumeLen
  by_cases h3 : path.length = 3
  · simp [h3]
  · have h4 : 4 ≤ path.length := by omega
    have hk : ((path.drop 4).takeWhile notSep).length ≤ path.length - 4 := by
      have := length_takeWhile_le notSep (path.drop 4)
      simpa using this
    simp only [h3, if_false, sliceFrom, h4, if_true, Option.bind_eq_bind, Option.some_bind,
      cutPath_spec]
    by_cases hf : ((path.drop 4).takeWhile notSep).length < (path.drop 4).length
    · simp only [hf, if_true]
      simp at hf
      simp
      omega
    · simp only [hf, if_false]
      simp at hf
      simp
      omega

theorem deviceVolumeLen_bounds (path : List Nat) (h : 3 ≤ path.length) :
    ∃ v, deviceVolumeLen path = some v ∧ 3 ≤ v ∧ v ≤ path.length := by
  refine ⟨_, deviceVolumeLen_spec path h, ?_, ?_⟩
  · split <;> omega
  · have hk : ((path.drop 4).takeWhile notSep).length ≤ path.length - 4 := by
      have := length_takeWhile_le notSep (path.drop 4)
      simpa using this
    split <;> omega

theorem pathHasPrefixFold_length {s pre : List Nat} (h : pathHasPrefixFold s pre = some true) :
    pre.length ≤ s.length := by
  unfold pathHasPrefixFold at h
  by_cases hl : s.length < pre.length
  · simp [hl] at h
  · omega

theorem windowsVolumeNameLen_bounds (path : List Nat) :
    ∃ v, windowsVolumeNameLen path = some v ∧ v ≤ path.length ∧ (v = 0 ∨ 2 ≤ v) := by
  unfold windowsVolumeNameLen
  by_cases h1 : path.length ≥ 2 ∧ path[1]? = some 58
  · simp only [h1, and_self, if_true]
    exact ⟨2, rfl, h1.1, Or.inr (le_refl _)⟩
  · simp only [h1, if_false]
    by_cases h0 : path.length = 0
    · simp only [h0, if_true]; exact ⟨0, rfl, le_refl _, Or.inl rfl⟩
    · simp only [h0, if_false]
      obtain ⟨p0, hp0⟩ := getElem?_some_of_lt (l := path) (i := 0) (by omega)
      simp only [hp0, Option.bind_eq_bind, Option.some_bind]
      by_cases hs : windowsIsPathSeparator p0 = true
      · simp only [hs, Bool.not_true, Bool.false_eq_true, if_false]
        obtain ⟨b1, hb1⟩ := pathHasPrefixFold_total path [92, 92, 46, 92, 85, 78, 67]
        obtain ⟨b2, hb2⟩ := pathHasPrefixFold_total path [92, 92, 46]
        obtain ⟨b3, hb3⟩ := pathHasPrefixFold_total path [92, 92, 63]
        obtain ⟨b4, hb4⟩ := pathHasPrefixFold_total path [92, 63, 63]
        simp only [hb1, hb2, hb3, hb4, Option.some_bind]
        cases b1
        · simp only [Bool.false_eq_true, if_false]
          cases b2
          · simp only [Bool.false_eq_true, if_false]
            cases b3
            · simp only [Bool.false_eq_true, if_false]
              cases b4
              · simp only [Bool.false_eq_true, if_false]
                by_cases h2 : path.length ≥ 2
                · simp only [h2, if_true]
                  obtain ⟨p1, hp1⟩ := getElem?_some_of_lt (l := path) (i := 1) (by omega)
                  simp only [hp1, Option.some_bind]
                  split
                  · obtain ⟨v, hv, hle, hge⟩ := uncLen_spec path 2
                    exact ⟨v, hv, hle, Or.inr (by omega)⟩
                  · exact ⟨0, rfl, by omega, Or.inl rfl⟩
                · simp only [h2, if_false]; exact ⟨0, rfl, by omega, Or.inl rfl⟩
              · obtain ⟨v, hv, hge, hle⟩ :=
                  deviceVolumeLen_bounds path (pathHasPrefixFold_length hb4)
                exact ⟨v, by simpa using hv, hle, Or.inr (by omega)⟩
            · obtain ⟨v, hv, hge, hle⟩ :=
                deviceVolumeLen_bounds path (pathHasPrefixFold_length hb3)
              exact ⟨v, by simpa using hv, hle, Or.inr (by omega)⟩
          · obtain ⟨v, hv, hge, hle⟩ :=
              deviceVolumeLen_bounds path (pathHasPrefixFold_length hb2)
            exact ⟨v, by simpa using hv, hle, Or.inr (by omega)⟩
        · obtain ⟨v, hv, hle, hge⟩ := uncLen_spec path 8
          have := pathHasPrefixFold_length hb1
          simp only [List.length_cons, List.length_nil] at this
          exact ⟨v, by simpa using hv, hle, Or.inr (by omega)⟩
      · simp only [hs]
        exact ⟨0, by simp, by omega, Or.inl rfl⟩

theorem windowsVolumeNameLen_total (path : List Nat) :
    ∃ v, windowsVolumeNameLen path = some v ∧ v ≤ path.length := by
  obtain ⟨v, hv, hle, _⟩ := windowsVolumeNameLen_bounds path
  exact ⟨v, hv, hle⟩

/-! ## The lazy buffer -/

theorem take_succ_set (l : List Nat) (w x : Nat) (h : w < l.length) :
    (l.set w x).take (w + 1) = l.take w ++ [x] := by
  induction l generalizing w with
  | nil => simp at h
  | cons a l ih =>
    cases w with
    | zero => simp
    | succ w => simp at h; simp [ih w h]

theorem take_succ_of_getElem? {l : List Nat} {w x : Nat} (h : l[w]? = some x) :
    l.take (w + 1) = l.take w ++ [x] := by
  rw [List.take_succ, h]; rfl

theorem lazybuf.content_length (b : lazybuf) (h : b.WF) : b.content.length = b.w := by
  unfold lazybuf.content
  cases hb : b.buf with
  | none => simp [h.w_le]
  | some buf => simp [h.buf_len buf hb, h.w_le]

theorem lazybuf.append_spec (b : lazybuf) (x : Nat) (hwf : b.WF) (hw : b.w < b.path.length) :
    ∃ b', b.append x = some b' ∧ b'.WF ∧ b'.w = b.w + 1 ∧
      b'.content = b.content ++ [x] ∧ b'.path = b.path ∧
      b'.volAndPath = b.volAndPath ∧ b'.volLen = b.volLen := by
  unfold lazybuf.append
  cases hb : b.buf with
  | none =>
    by_cases hx : b.path[b.w]? = some x
    · simp only [hw, hx, and_self, if_true]
      refine ⟨_, rfl, ⟨by simpa using hw, ?_⟩, rfl, ?_, rfl, rfl, rfl⟩
      · intro buf hbuf; simp at hbuf
      · simp [lazybuf.content, hb, take_succ_of_getElem? hx]
    · have hle : b.w ≤ b.path.length := hwf.w_le
      have hlen : (List.take b.w b.path ++
          List.replicate (b.path.length - (List.take b.w b.path).length) 0).length
            = b.path.length := by
        simp
      simp only [hx, and_false, if_false, sliceTo, hle, if_true, Option.bind_eq_bind,
        Option.some_bind, hlen, hw]
      refine ⟨_, rfl, ⟨by simpa using hw, ?_⟩, rfl, ?_, rfl, rfl, rfl⟩
      · intro buf hbuf
        simp at hbuf
        rw [← hbuf]; simp
      · simp only [lazybuf.content, hb, Option.getD_some, Option.getD_none]
        rw [take_succ_set _ _ _ (by rw [hlen]; exact hw)]
        simp [List.take_append_eq_append_take, hle]
  | some buf =>
    have hlen := hwf.buf_len buf hb
    simp only [hlen, hw, if_true]
    refine ⟨_, rfl, ⟨by simpa using hw, ?_⟩, rfl, ?_, rfl, rfl, rfl⟩
    · intro buf' hbuf
      simp at hbuf
      rw [← hbuf]; simp [hlen]
    · simp only [lazybuf.content, hb, Option.getD_some]
      exact take_succ_set _ _ _ (by rw [hlen]; exact hw)

theorem lazybuf.index_eq (b : lazybuf) (i : Nat) : b.index i = b.arr[i]? := by
  unfold lazybuf.index lazybuf.arr
  cases b.buf <;> rfl

theorem lazybuf.arr_length (b : lazybuf) (h : b.WF) : b.arr.length = b.path.length := by
  unfold lazybuf.arr
  cases hb : b.buf with
  | none => rfl
  | some buf => simpa using h.buf_len buf hb

theorem backtrackLoop_spec (dotdot : Nat) :
    ∀ (fuel : Nat) (b : lazybuf), b.w < b.arr.length → b.w - dotdot ≤ fuel →
      ∃ k, backtrackLoop dotdot fuel b = some { b with w := k } ∧ k ≤ b.w ∧
        (dotdot ≤ b.w → dotdot ≤ k) ∧
        (dotdot < k → ∃ c, b.arr[k]? = some c ∧ windowsIsPathSeparator c = true) ∧
        (∀ j, k < j → j ≤ b.w → ∃ c, b.arr[j]? = some c ∧ windowsIsPathSeparator c = false) := by
  intro fuel
  induction fuel with
  | zero =>
    intro b hlt hf
    have hle : ¬ b.w > dotdot := by omega
    exact ⟨b.w, by simp [backtrackLoop, hle], le_refl _, fun h => h, fun h => by omega,
      fun j h1 h2 => by omega⟩
  | succ fuel ih =>
    intro b hlt hf
    unfold backtrackLoop
    by_cases hgt : b.w > dotdot
    · obtain ⟨c, hc⟩ := getElem?_some_of_lt hlt
      simp only [hgt, if_true, lazybuf.index_eq, hc, Option.bind_eq_bind, Option.some_bind]
      by_cases hs : windowsIsPathSeparator c = true
      · simp only [hs, Bool.not_true, Bool.false_eq_true, if_false]
        exact ⟨b.w, rfl, le_refl _, fun h => h, fun _ => ⟨c, hc, hs⟩, fun j h1 h2 => by omega⟩
      · simp only [hs]
        have hs' : windowsIsPathSeparator c = false := by simpa using hs
        obtain ⟨k, hk, h1, h2, h3, h4⟩ := ih { b with w := b.w - 1 }
          (by show b.w - 1 < b.arr.length; omega) (by show b.w - 1 - dotdot ≤ fuel; omega)
        refine ⟨k, by simpa using hk, ?_, ?_, h3, ?_⟩
        · have : k ≤ b.w - 1 := h1
          omega
        · intro _
          exact h2 (by show dotdot ≤ b.w - 1; omega)
        · intro j hj1 hj2
          by_cases hjw : j = b.w
          · subst hjw; exact ⟨c, hc, hs'⟩
          · exact h4 j hj1 (by show j ≤ b.w - 1; omega)
    · simp only [hgt, if_false]
      exact ⟨b.w, rfl, le_refl _, fun h => h, fun h => by omega, fun j h1 h2 => by omega⟩

theorem takeWhile_drop_cons {l : List Nat} {r c : Nat} (p : Nat → Bool)
    (h : l[r]? = some c) :
    (l.drop r).takeWhile p = if p c then c :: (l.drop (r + 1)).takeWhile p else [] := by
  rw [drop_eq_cons_of_getElem? h, List.takeWhile_cons]

theorem copyElemLoop_spec (path : List Nat) :
    ∀ (fuel r : Nat) (out : lazybuf), out.WF → out.path = path → out.w ≤ r →
      r ≤ path.length → path.length - r ≤ fuel →
      ∃ out', copyElemLoop path path.length fuel r out =
          some (r + ((path.drop r).takeWhile notSep).length, out') ∧
        out'.WF ∧ out'.w = out.w + ((path.drop r).takeWhile notSep).length ∧
        out'.content = out.content ++ (path.drop r).takeWhile notSep ∧
        out'.path = out.path ∧ out'.volAndPath = out.volAndPath ∧
        out'.volLen = out.volLen := by
  intro fuel
  induction fuel with
  | zero =>
    intro r out hwf hp hw hr hf
    have hrn : ¬ r < path.length := by omega
    have hd : path.drop r = [] := by simp; omega
    exact ⟨out, by simp [copyElemLoop, hrn, hd], hwf, by simp [hd], by simp [hd], rfl, rfl, rfl⟩
  | succ fuel ih =>
    intro r out hwf hp hw hr hf
    unfold copyElemLoop
    by_cases hrn : r < path.length
    · obtain ⟨c, hc⟩ := getElem?_some_of_lt hrn
      simp only [hrn, if_true, hc, Option.bind_eq_bind, Option.some_bind]
      rw [takeWhile_drop_cons notSep hc]
      by_cases hs : windowsIsPathSeparator c = true
      · have hns : notSep c = false := by simp [notSep, hs]
        simp only [hs, hns, Bool.not_true, Bool.false_eq_true, if_false]
        exact ⟨out, by simp, hwf, by simp, by simp, rfl, rfl, rfl⟩
      · have hns : notSep c = true := by simp [notSep, hs]
        simp only [hs, hns, if_true]
        obtain ⟨o1, ho1, hwf1, hw1, hc1, hp1, hv1, hl1⟩ :=
          lazybuf.append_spec out c hwf (by rw [hp]; omega)
        obtain ⟨o2, ho2, hwf2, hw2, hc2, hp2, hv2, hl2⟩ :=
          ih (r + 1) o1 hwf1 (by rw [hp1, hp]) (by omega) (by omega) (by omega)
        refine ⟨o2, ?_, hwf2, ?_, ?_, by rw [hp2, hp1], by rw [hv2, hv1], by rw [hl2, hl1]⟩
        · simp [ho1, ho2]; omega
        · rw [hw2, hw1]; simp; omega
        · rw [hc2, hc1]; simp
    · have hd : path.drop r = [] := by simp; omega
      simp only [hrn, if_false, hd]
      exact ⟨out, by simp, hwf, by simp, by simp, rfl, rfl, rfl⟩

/-! ## The cleaning loop -/

theorem takeWhile_stop (p : Nat → Bool) (l : List Nat) :
    (l.takeWhile p).length = l.length ∨
      ∃ c, l[(l.takeWhile p).length]? = some c ∧ p c = false := by
  induction l with
  | nil => simp
  | cons a l ih =>
    by_cases ha : p a = true
    · simp only [List.takeWhile_cons, ha, if_true, List.length_cons]
      rcases ih with h | ⟨c, hc, hp⟩
      · left; omega
      · right; exact ⟨c, by simpa using hc, hp⟩
    · right
      refine ⟨a, by simp [List.takeWhile_cons, ha], by simpa using ha⟩

theorem elemAt_length_le (path : List Nat) (r : Nat) :
    r + (elemAt path r).length ≤ max r path.length := by
  have := length_takeWhile_le notSep (path.drop r)
  simp only [List.length_drop] at this
  unfold elemAt
  omega

theorem elemAt_stop (path : List Nat) (r : Nat) :
    path.length ≤ r + (elemAt path r).length ∨
      ∃ c, path[r + (elemAt path r).length]? = some c ∧ windowsIsPathSeparator c = true := by
  rcases takeWhile_stop notSep (path.drop r) with h | ⟨c, hc, hp⟩
  · left
    unfold elemAt
    rw [h]; simp; omega
  · right
    refine ⟨c, ?_, by simpa [notSep] using hp⟩
    rw [List.getElem?_drop] at hc
    exact hc

theorem elemAt_noSep (path : List Nat) (r : Nat) :
    ∀ c ∈ elemAt path r, windowsIsPathSeparator c = false := by
  intro c hc
  have := List.mem_takeWhile_imp hc
  simpa [notSep] using this

theorem elemAt_cons {path : List Nat} {r c : Nat} (h : path[r]? = some c) :
    elemAt path r = if notSep c then c :: elemAt path (r + 1) else [] :=
  takeWhile_drop_cons notSep h

theorem elemAt_of_length_le (path : List Nat) (r : Nat) (h : path.length ≤ r) :
    elemAt path r = [] := by
  unfold elemAt
  rw [List.drop_eq_nil_of_le h]; rfl

theorem notSep_46 : notSep 46 = true := by decide

theorem isDotElem_spec (path : List Nat) (r : Nat) (hr : r < path.length) :
    isDotElem path path.length r = some (decide (elemAt path r = [46])) := by
  obtain ⟨c, hc⟩ := getElem?_some_of_lt hr
  unfold isDotElem
  simp only [hc, Option.bind_eq_bind, Option.some_bind, elemAt_cons hc]
  by_cases h46 : c = 46
  · subst h46
    simp only [if_true, notSep_46]
    by_cases hn : r + 1 = path.length
    · rw [elemAt_of_length_le path (r + 1) (by omega)]
      simp [hn]
    · obtain ⟨d, hd⟩ := getElem?_some_of_lt (l := path) (i := r + 1) (by omega)
      simp only [hn, if_false, hd, Option.some_bind, elemAt_cons hd]
      by_cases hs : windowsIsPathSeparator d = true
      · simp [hs, notSep]
      · simp [hs, notSep]
  · simp only [h46, if_false]
    by_cases hs : notSep c = true
    · simp [hs, h46]
    · simp [hs]

theorem isDotDotElem_spec (path : List Nat) (r : Nat) (hr : r < path.length)
    (hdot : elemAt path r ≠ [46]) :
    isDotDotElem path path.length r = some (decide (elemAt path r = [46, 46])) := by
  obtain ⟨c, hc⟩ := getElem?_some_of_lt hr
  unfold isDotDotElem
  rw [elemAt_cons hc] at hdot
  simp only [hc, Option.bind_eq_bind, Option.some_bind, elemAt_cons hc]
  by_cases h46 : c = 46
  · subst h46
    simp only [if_true, notSep_46] at hdot ⊢
    have hn : r + 1 < path.length := by
      by_contra hcon
      exact hdot (by rw [elemAt_of_length_le path (r + 1) (by omega)])
    obtain ⟨d, hd⟩ := getElem?_some_of_lt hn
    rw [elemAt_cons hd] at hdot ⊢
    simp only [hd, Option.some_bind]
    by_cases hd46 : d = 46
    · subst hd46
      simp only [if_true, notSep_46]
      by_cases hn2 : r + 2 = path.length
      · rw [elemAt_of_length_le path (r + 1 + 1) (by omega)]
        simp [hn2]
      · obtain ⟨e, he⟩ := getElem?_some_of_lt (l := path) (i := r + 2) (by omega)
        have he' : path[r + 1 + 1]? = some e := he
        simp only [hn2, if_false, he, Option.some_bind, elemAt_cons he']
        by_cases hs : windowsIsPathSeparator e = true
        · simp [hs, notSep]
        · simp [hs, notSep]
    · simp only [hd46, if_false]
      by_cases hs : notSep d = true
      · simp [hs, hd46]
      · simp [hs] at hdot
  · simp only [h46, if_false]
    by_cases hs : notSep c = true
    · simp [hs, h46]
    · simp [hs]

theorem lazybuf.content_truncate (b : lazybuf) (k : Nat) (hk : k ≤ b.w) :
    ({ b with w := k } : lazybuf).content = b.content.take k := by
  simp [lazybuf.content, List.take_take, hk]

theorem lazybuf.content_getElem? (b : lazybuf) (k : Nat) (hk : k < b.w) :
    b.content[k]? = b.arr[k]? := by
  simp [lazybuf.content, lazybuf.arr, List.getElem?_take, hk]

theorem cleanStep_spec (orig path : List Nat) (v : Nat) (rooted : Bool) (st : cleanState)
    (hinv : CleanInv orig path v rooted st) (hr : st.r < path.length) :
    ∃ st', cleanStep path path.length rooted st = some st' ∧
      CleanInv orig path v rooted st' ∧ st.r < st'.r ∧ StepRel path rooted st st' := by
  obtain ⟨c, hc⟩ := getElem?_some_of_lt hr
  have hwn : st.out.w < st.out.path.length := by
    rw [hinv.path_eq]; have := hinv.w_le_r; omega
  unfold cleanStep
  simp only [hc, Option.bind_eq_bind, Option.some_bind]
  by_cases hs : windowsIsPathSeparator c = true
  · -- empty path element
    simp only [hs, if_true]
    refine ⟨_, rfl, ⟨hinv.wf, hinv.path_eq, hinv.vol_eq, hinv.volLen_eq, ?_, ?_, hinv.dotdot_le,
      ?_⟩, ?_, ?_⟩
    · have := hinv.w_le_r; show st.out.w ≤ st.r + 1; omega
    · show st.r + 1 ≤ path.length; omega
    · left; have := hinv.w_le_r; show st.out.w < st.r + 1; omega
    · show st.r < st.r + 1; omega
    · refine StepRel.skip rfl (Or.inl ?_) rfl rfl
      rw [elemAt_cons hc]; simp [notSep, hs]
  · have hns : notSep c = true := by simp [notSep, hs]
    have he0 : elemAt path st.r ≠ [] := by rw [elemAt_cons hc]; simp [hns]
    have hgap : st.out.w < st.r ∨ st.out.w = baseIndex rooted := by
      rcases hinv.gap with h | h | h | ⟨d, hd, hds⟩
      · exact Or.inl h
      · exact Or.inr h
      · omega
      · rw [hc] at hd; cases hd; exact absurd hds hs
    simp only [hs, if_false, isDotElem_spec path st.r hr]
    by_cases hd : elemAt path st.r = [46]
    · -- . element
      simp only [hd, decide_True, if_true]
      refine ⟨_, rfl, ⟨hinv.wf, hinv.path_eq, hinv.vol_eq, hinv.volLen_eq, ?_, ?_,
        hinv.dotdot_le, ?_⟩, ?_, ?_⟩
      · have := hinv.w_le_r; show st.out.w ≤ st.r + 1; omega
      · show st.r + 1 ≤ path.length; omega
      · left; have := hinv.w_le_r; show st.out.w < st.r + 1; omega
      · show st.r < st.r + 1; omega
      · exact StepRel.skip rfl (Or.inr hd) rfl rfl
    · simp only [hd, decide_False, Bool.false_eq_true, if_false,
        isDotDotElem_spec path st.r hr hd]
      have hstop := elemAt_stop path st.r
      have hlen := elemAt_length_le path st.r
      by_cases hdd : elemAt path st.r = [46, 46]
      · -- .. element
        simp only [hdd, decide_True, if_true]
        rw [hdd] at hstop hlen
        simp only [List.length_cons, List.length_nil] at hstop hlen
        have hr2 : st.r + 2 ≤ path.length := by omega
        by_cases hback : st.out.w > st.dotdot
        · -- can backtrack
          simp only [hback, if_true]
          have harr : ({ st.out with w := st.out.w - 1 } : lazybuf).arr = st.out.arr := rfl
          obtain ⟨k, hk, hk1, hk2, hk3, hk4⟩ := backtrackLoop_spec st.dotdot st.out.w
            { st.out with w := st.out.w - 1 }
            (by rw [harr, lazybuf.arr_length _ hinv.wf]; show st.out.w - 1 < _; omega)
            (by show st.out.w - 1 - st.dotdot ≤ st.out.w; omega)
          have hk1' : k ≤ st.out.w - 1 := hk1
          have hk2' : st.dotdot ≤ k := hk2 (by show st.dotdot ≤ st.out.w - 1; omega)
          simp only [hk, Option.some_bind]
          refine ⟨_, rfl, ⟨⟨?_, hinv.wf.buf_len⟩, hinv.path_eq, hinv.vol_eq, hinv.volLen_eq,
            ?_, hr2, hk2', ?_⟩, ?_, ?_⟩
          · show k ≤ st.out.path.length; omega
          · have := hinv.w_le_r; show k ≤ st.r + 2; omega
          · left; have := hinv.w_le_r; show k < st.r + 2; omega
          · show st.r < st.r + 2; omega
          · refine StepRel.back k rfl hdd hk2' (by omega) ?_ ?_ ?_ rfl
            · intro hlt
              obtain ⟨d, hd1, hd2⟩ := hk3 hlt
              exact ⟨d, by rw [lazybuf.content_getElem? _ _ (by omega)]; exact hd1, hd2⟩
            · intro j hj1 hj2
              obtain ⟨d, hd1, hd2⟩ := hk4 j hj1 (by show j ≤ st.out.w - 1; omega)
              exact ⟨d, by rw [lazybuf.content_getElem? _ _ hj2]; exact hd1, hd2⟩
            · exact lazybuf.content_truncate st.out k (by omega)
        · simp only [hback, if_false]
          cases hroot : rooted with
          | false =>
            -- cannot backtrack, but not rooted, so append .. element.
            simp only [Bool.not_false, if_true]
            have hbase : baseIndex rooted = 0 := by simp [baseIndex, hroot]
            by_cases hw0 : st.out.w > 0
            · have hwr : st.out.w < st.r := by omega
              obtain ⟨o1, ho1, hwf1, hw1, hc1, hp1, hv1, hl1⟩ :=
                lazybuf.append_spec st.out WindowsSeparator hinv.wf hwn
              obtain ⟨o2, ho2, hwf2, hw2, hc2, hp2, hv2, hl2⟩ :=
                lazybuf.append_spec o1 46 hwf1 (by rw [hp1, hinv.path_eq]; omega)
              obtain ⟨o3, ho3, hwf3, hw3, hc3, hp3, hv3, hl3⟩ :=
                lazybuf.append_spec o2 46 hwf2 (by rw [hp2, hp1, hinv.path_eq]; omega)
              simp only [hw0, if_true, ho1, ho2, ho3, Option.some_bind]
              refine ⟨_, rfl, ⟨hwf3, by rw [hp3, hp2, hp1, hinv.path_eq],
                by rw [hv3, hv2, hv1, hinv.vol_eq], by rw [hl3, hl2, hl1, hinv.volLen_eq],
                ?_, hr2, le_refl _, ?_⟩, ?_, ?_⟩
              · show o3.w ≤ st.r + 2; omega
              · right; right
                rcases hstop with h | h
                · left; exact h
                · right; exact h
              · show st.r < st.r + 2; omega
              · refine StepRel.dots rfl hdd rfl (by omega) ?_ rfl
                show o3.content = _
                rw [hc3, hc2, hc1]; simp [hw0, WindowsSeparator]
            · have hw0' : st.out.w = 0 := by omega
              obtain ⟨o2, ho2, hwf2, hw2, hc2, hp2, hv2, hl2⟩ :=
                lazybuf.append_spec st.out 46 hinv.wf hwn
              obtain ⟨o3, ho3, hwf3, hw3, hc3, hp3, hv3, hl3⟩ :=
                lazybuf.append_spec o2 46 hwf2 (by rw [hp2, hinv.path_eq]; omega)
              simp only [hw0, if_false, ho2, ho3, Option.some_bind]
              refine ⟨_, rfl, ⟨hwf3, by rw [hp3, hp2, hinv.path_eq],
                by rw [hv3, hv2, hinv.vol_eq], by rw [hl3, hl2, hinv.volLen_eq],
                ?_, hr2, le_refl _, ?_⟩, ?_, ?_⟩
              · show o3.w ≤ st.r + 2; omega
              · right; right
                rcases hstop with h | h
                · left; exact h
                · right; exact h
              · show st.r < st.r + 2; omega
              · refine StepRel.dots rfl hdd rfl (by omega) ?_ rfl
                show o3.content = _
                rw [hc3, hc2]; simp [hw0]
          | true =>
            simp only [Bool.not_true, Bool.false_eq_true, if_false]
            refine ⟨_, rfl, ⟨hinv.wf, hinv.path_eq, hinv.vol_eq, hinv.volLen_eq, ?_, hr2,
              hinv.dotdot_le, ?_⟩, ?_, ?_⟩
            · have := hinv.w_le_r; show st.out.w ≤ st.r + 2; omega
            · left; have := hinv.w_le_r; show st.out.w < st.r + 2; omega
            · show st.r < st.r + 2; omega
            · exact StepRel.stay rfl hdd rfl (by omega) rfl rfl
      · -- real path element
        simp only [hdd, decide_False, Bool.false_eq_true, if_false]
        have hcond : ((rooted && st.out.w != 1) || (!rooted && st.out.w != 0)) =
            !decide (st.out.w = baseIndex rooted) := by
          cases rooted <;> simp only [baseIndex, Bool.true_and, Bool.false_and, Bool.not_true,
            Bool.not_false, Bool.or_false, Bool.false_or, if_true, Bool.false_eq_true, if_false]
          · by_cases h : st.out.w = 0 <;> simp [h]
          · by_cases h : st.out.w = 1 <;> simp [h]
        rw [hcond]
        have hpos : 0 < (elemAt path st.r).length := List.length_pos.mpr he0
        have hrmax : st.r + (elemAt path st.r).length ≤ path.length := by omega
        by_cases hwb : st.out.w = baseIndex rooted
        · simp only [hwb, decide_True, Bool.not_true, Bool.false_eq_true, if_false,
            Option.some_bind]
          obtain ⟨o2, ho2, hwf2, hw2, hc2, hp2, hv2, hl2⟩ :=
            copyElemLoop_spec path path.length st.r st.out hinv.wf hinv.path_eq hinv.w_le_r
              (by omega) (by omega)
          simp only [ho2, Option.some_bind]
          refine ⟨_, rfl, ⟨hwf2, by rw [hp2, hinv.path_eq], by rw [hv2, hinv.vol_eq],
            by rw [hl2, hinv.volLen_eq], ?_, hrmax, ?_, ?_⟩, ?_, ?_⟩
          · have := hinv.w_le_r
            show o2.w ≤ st.r + ((path.drop st.r).takeWhile notSep).length; omega
          · have := hinv.dotdot_le; show st.dotdot ≤ o2.w; omega
          · right; right; exact hstop
          · show st.r < st.r + (elemAt path st.r).length; omega
          · refine StepRel.elem rfl he0 hd hdd ?_ rfl
            show o2.content = _
            rw [hc2]; simp [hwb, elemAt]
        · have hwr : st.out.w < st.r := by omega
          obtain ⟨o1, ho1, hwf1, hw1, hc1, hp1, hv1, hl1⟩ :=
            lazybuf.append_spec st.out WindowsSeparator hinv.wf hwn
          obtain ⟨o2, ho2, hwf2, hw2, hc2, hp2, hv2, hl2⟩ :=
            copyElemLoop_spec path path.length st.r o1 hwf1 (by rw [hp1, hinv.path_eq])
              (by omega) (by omega) (by omega)
          simp only [hwb, decide_False, Bool.not_false, if_true, ho1, ho2, Option.some_bind]
          refine ⟨_, rfl, ⟨hwf2, by rw [hp2, hp1, hinv.path_eq], by rw [hv2, hv1, hinv.vol_eq],
            by rw [hl2, hl1, hinv.volLen_eq], ?_, hrmax, ?_, ?_⟩, ?_, ?_⟩
          · show o2.w ≤ st.r + ((path.drop st.r).takeWhile notSep).length; omega
          · have := hinv.dotdot_le; show st.dotdot ≤ o2.w; omega
          · right; right; exact hstop
          · show st.r < st.r + (elemAt path st.r).length; omega
          · refine StepRel.elem rfl he0 hd hdd ?_ rfl
            show o2.content = _
            rw [hc2, hc1]; simp [hwb, elemAt, WindowsSeparator]

theorem cleanInit_spec (orig path : List Nat) (v : Nat) (rooted : Bool) (hn : path ≠ []) :
    ∃ st, cleanInit path orig v rooted = some st ∧ CleanInv orig path v rooted st ∧
      st.out.content = (if rooted then [92] else []) ∧ st.dotdot = baseIndex rooted ∧
      st.out.w = baseIndex rooted ∧ st.r = baseIndex rooted := by
  have hlen : 0 < path.length := List.length_pos.mpr hn
  have hwf0 : ({ path := path, buf := none, w := 0, volAndPath := orig, volLen := v } :
      lazybuf).WF := ⟨Nat.zero_le _, fun buf h => by simp at h⟩
  unfold cleanInit
  cases rooted with
  | false =>
    refine ⟨_, rfl, ⟨hwf0, rfl, rfl, rfl, le_refl _, Nat.zero_le _, le_refl _, Or.inr (Or.inl rfl)⟩,
      ?_, rfl, rfl, rfl⟩
    simp [lazybuf.content]
  | true =>
    obtain ⟨o1, ho1, hwf1, hw1, hc1, hp1, hv1, hl1⟩ :=
      lazybuf.append_spec _ WindowsSeparator hwf0 hlen
    simp only [if_true, ho1, Option.bind_eq_bind, Option.some_bind]
    have hw1' : o1.w = 1 := by rw [hw1]
    refine ⟨_, rfl, ⟨hwf1, hp1, hv1, hl1, ?_, ?_, ?_, ?_⟩, ?_, rfl, ?_, rfl⟩
    · show o1.w ≤ 1; omega
    · show 1 ≤ path.length; omega
    · show 1 ≤ o1.w; omega
    · right; left; show o1.w = 1; exact hw1'
    · show o1.content = [92]
      rw [hc1]; simp [lazybuf.content, WindowsSeparator]
    · exact hw1'

theorem cleanLoop_spec (orig path : List Nat) (v : Nat) (rooted : Bool)
    (P : cleanState → Prop)
    (hstep : ∀ st st', CleanInv orig path v rooted st → st.r < path.length →
      StepRel path rooted st st' → P st → P st') :
    ∀ (fuel : Nat) (st : cleanState), CleanInv orig path v rooted st → P st →
      path.length - st.r ≤ fuel →
      ∃ st', cleanLoop path path.length rooted fuel st = some st' ∧
        CleanInv orig path v rooted st' ∧ P st' ∧ st'.r = path.length := by
  intro fuel
  induction fuel with
  | zero =>
    intro st hinv hP hf
    have hr := hinv.r_le
    have : ¬ st.r < path.length := by omega
    exact ⟨st, by simp [cleanLoop, this], hinv, hP, by omega⟩
  | succ fuel ih =>
    intro st hinv hP hf
    unfold cleanLoop
    by_cases hr : st.r < path.length
    · obtain ⟨st1, h1, hinv1, hlt, hrel⟩ := cleanStep_spec orig path v rooted st hinv hr
      obtain ⟨st2, h2, hinv2, hP2, hr2⟩ :=
        ih st1 hinv1 (hstep st st1 hinv hr hrel hP) (by omega)
      exact ⟨st2, by simp [hr, h1, h2], hinv2, hP2, hr2⟩
    · have := hinv.r_le
      exact ⟨st, by simp [hr], hinv, hP, by omega⟩

theorem cleanIter_inv (orig path : List Nat) (v : Nat) (rooted : Bool) :
    ∀ (k : Nat) (st st' : cleanState), CleanInv orig path v rooted st →
      cleanIter path path.length rooted k st = some st' → CleanInv orig path v rooted st' := by
  intro k
  induction k with
  | zero =>
    intro st st' hinv h
    simp [cleanIter] at h
    rw [← h]; exact hinv
  | succ k ih =>
    intro st st' hinv h
    unfold cleanIter at h
    by_cases hr : st.r < path.length
    · obtain ⟨st1, h1, hinv1, _, _⟩ := cleanStep_spec orig path v rooted st hinv hr
      simp only [hr, if_true, h1, Option.bind_eq_bind, Option.some_bind] at h
      exact ih st1 st' hinv1 h
    · simp only [hr, if_false] at h
      cases h; exact hinv

theorem startsLikeRootLocalDevice_total (buf : List Nat) :
    ∃ b, startsLikeRootLocalDevice buf = some b := by
  unfold startsLikeRootLocalDevice
  by_cases h : buf.length ≥ 3
  · obtain ⟨b0, h0⟩ := getElem?_some_of_lt (l := buf) (i := 0) (by omega)
    obtain ⟨b1, h1⟩ := getElem?_some_of_lt (l := buf) (i := 1) (by omega)
    obtain ⟨b2, h2⟩ := getElem?_some_of_lt (l := buf) (i := 2) (by omega)
    simp only [h, if_true, h0, h1, h2, Option.bind_eq_bind, Option.some_bind]
    split
    · split
      · exact ⟨_, rfl⟩
      · exact ⟨_, rfl⟩
    · exact ⟨_, rfl⟩
  · simp only [h, if_false]; exact ⟨_, rfl⟩

theorem postCleanPrefix_cases (out : lazybuf) :
    postCleanPrefix out = [] ∨
      (out.volLen = 0 ∧ (postCleanPrefix out = [46, 92] ∨ postCleanPrefix out = [92, 46])) := by
  unfold postCleanPrefix
  cases out.buf with
  | none => exact Or.inl rfl
  | some buf =>
    by_cases hv : out.volLen = 0
    · simp only [hv, bne_self_eq_false, Bool.false_eq_true, if_false]
      split
      · exact Or.inr ⟨trivial, Or.inl rfl⟩
      · split
        · exact Or.inr ⟨trivial, Or.inr rfl⟩
        · exact Or.inl rfl
    · have : (out.volLen != 0) = true := by simpa using hv
      simp [this]

theorem lazybuf.string_spec (out : lazybuf) (hwf : out.WF)
    (hp : out.path = out.volAndPath.drop out.volLen)
    (hv : out.volLen ≤ out.volAndPath.length) :
    out.string = some (out.volAndPath.take out.volLen ++ out.content) := by
  have hw := hwf.w_le
  rw [hp, List.length_drop] at hw
  unfold lazybuf.string lazybuf.content
  cases hb : out.buf with
  | none =>
    have h1 : out.volLen + out.w ≤ out.volAndPath.length := by omega
    simp only [sliceTo, h1, if_true, Option.getD_none, hp]
    rw [List.take_add]
  | some buf =>
    have hbl := hwf.buf_len buf hb
    rw [hp, List.length_drop] at hbl
    have h1 : out.w ≤ buf.length := by omega
    simp [sliceTo, hv, h1]

theorem windowsPostClean_spec (out : lazybuf) (hwf : out.WF)
    (hp : out.path = out.volAndPath.drop out.volLen)
    (hv : out.volLen ≤ out.volAndPath.length) :
    ∃ out', windowsPostClean out = some out' ∧
      out'.string =
        some (out.volAndPath.take out.volLen ++ postCleanPrefix out ++ out.content) := by
  have hstr := lazybuf.string_spec out hwf hp hv
  unfold windowsPostClean postCleanPrefix
  cases hb : out.buf with
  | none => exact ⟨out, rfl, by simpa using hstr⟩
  | some buf =>
    have hbl := hwf.buf_len buf hb
    have hw := hwf.w_le
    have hpre : ∀ pre : List Nat, (out.prepend pre).string =
        some (out.volAndPath.take out.volLen ++ pre ++ out.content) := by
      intro pre
      have h1 : out.w + pre.length ≤ (pre ++ buf).length := by
        simp only [List.length_append]; omega
      simp only [lazybuf.string, lazybuf.prepend, hb, Option.getD_some, sliceTo, hv, if_true,
        h1, Option.bind_eq_bind, Option.some_bind, lazybuf.content]
      rw [List.take_append_eq_append_take]
      simp [List.take_of_length_le, Nat.add_sub_cancel]
    by_cases hvl : out.volLen = 0
    · simp only [hvl, bne_self_eq_false, Bool.false_eq_true, if_false]
      by_cases hcol : colonInFirstElem buf = true
      · simp only [hcol, if_true]
        exact ⟨_, rfl, by rw [hpre, hvl]; rfl⟩
      · simp only [hcol, if_false]
        obtain ⟨b, hb'⟩ := startsLikeRootLocalDevice_total buf
        cases b with
        | true =>
          simp only [hb', Option.bind_eq_bind, Option.some_bind, if_true]
          exact ⟨_, rfl, by rw [hpre, hvl]; simp [WindowsSeparator]⟩
        | false =>
          simp only [hb', Option.bind_eq_bind, Option.some_bind, Bool.false_eq_true, if_false]
          refine ⟨out, rfl, ?_⟩
          rw [hstr, hvl]; simp
    · have : (out.volLen != 0) = true := by simpa using hvl
      simp only [this, if_true]
      exact ⟨out, rfl, by simpa using hstr⟩

/-- The run of `windowsClean` on a path with a non-empty remainder after the
volume: the loop ends in a state that satisfies the invariant and any property
`P` the iterations preserve, and the result is made of the volume, the
post-clean prefix and the logical output. -/
theorem windowsClean_run (p : List Nat) (v c : Nat) (hv : windowsVolumeNameLen p = some v)
    (hc : (p.drop v)[0]? = some c) (P : cleanState → Prop)
    (hinit : ∀ st, cleanInit (p.drop v) p v (windowsIsPathSeparator c) = some st →
      CleanInv p (p.drop v) v (windowsIsPathSeparator c) st →
      st.out.content = (if windowsIsPathSeparator c then [92] else []) →
      st.dotdot = baseIndex (windowsIsPathSeparator c) → P st)
    (hstep : ∀ st st', CleanInv p (p.drop v) v (windowsIsPathSeparator c) st →
      st.r < (p.drop v).length → StepRel (p.drop v) (windowsIsPathSeparator c) st st' →
      P st → P st') :
    ∃ st0 st out, CleanInv p (p.drop v) v (windowsIsPathSeparator c) st ∧ P st ∧
      st.r = (p.drop v).length ∧
      cleanInit (p.drop v) p v (windowsIsPathSeparator c) = some st0 ∧
      cleanLoop (p.drop v) (p.drop v).length (windowsIsPathSeparator c) (p.drop v).length st0
        = some st ∧
      ((st.out.w ≠ 0 ∧ out = st.out) ∨
        (st.out.w = 0 ∧ st.out.append 46 = some out ∧ out.content = [46])) ∧
      out.volLen = v ∧
      windowsClean p =
        some (FromSlash (p.take v ++ postCleanPrefix out ++ out.content) WindowsSeparator) := by
  obtain ⟨v', hv', hvle⟩ := windowsVolumeNameLen_total p
  rw [hv] at hv'; cases hv'
  have hne : p.drop v ≠ [] := by
    intro h; rw [h] at hc; simp at hc
  obtain ⟨st0, h0, hinv0, hc0, hd0, hw0, hr0⟩ :=
    cleanInit_spec p (p.drop v) v (windowsIsPathSeparator c) hne
  obtain ⟨st, hl, hinv, hP, hr⟩ :=
    cleanLoop_spec p (p.drop v) v (windowsIsPathSeparator c) P hstep (p.drop v).length st0 hinv0
      (hinit st0 h0 hinv0 hc0 hd0) (by omega)
  have hfin : ∃ out, (if st.out.w = 0 then st.out.append 46 else some st.out) = some out ∧
      ((st.out.w ≠ 0 ∧ out = st.out) ∨
        (st.out.w = 0 ∧ st.out.append 46 = some out ∧ out.content = [46])) ∧
      out.WF ∧ out.path = p.drop v ∧ out.volAndPath = p ∧ out.volLen = v := by
    by_cases hw : st.out.w = 0
    · obtain ⟨o1, ho1, hwf1, hw1, hc1, hp1, hv1, hl1⟩ :=
        lazybuf.append_spec st.out 46 hinv.wf (by
          rw [hinv.path_eq, hw]; exact List.length_pos.mpr hne)
      refine ⟨o1, by simp [hw, ho1], Or.inr ⟨hw, ho1, ?_⟩, hwf1, by rw [hp1, hinv.path_eq],
        by rw [hv1, hinv.vol_eq], by rw [hl1, hinv.volLen_eq]⟩
      rw [hc1]
      have : st.out.content = [] := by
        apply List.eq_nil_of_length_eq_zero
        rw [lazybuf.content_length _ hinv.wf, hw]
      rw [this]; rfl
    · exact ⟨st.out, by simp [hw], Or.inl ⟨hw, rfl⟩, hinv.wf, hinv.path_eq, hinv.vol_eq,
        hinv.volLen_eq⟩
  obtain ⟨out, hout, hcase, hwf, hpath, hvol, hvl⟩ := hfin
  obtain ⟨out', hpc, hstr⟩ := windowsPostClean_spec out hwf (by rw [hpath, hvol, hvl])
    (by rw [hvol, hvl]; exact hvle)
  refine ⟨st0, st, out, hinv, hP, hr, h0, hl, hcase, hvl, ?_⟩
  unfold windowsClean
  simp only [hv, Option.bind_eq_bind, Option.some_bind, sliceFrom, hvle, if_true, hne, if_false,
    hc, h0, hl]
  rcases hcase with ⟨hw, hoe⟩ | ⟨hw, hoa, _⟩
  · subst hoe
    simp only [hw, if_false, hpc, hstr, hvol, hvl, Option.some_bind]
  · simp only [hw, if_true, hoa, hpc, hstr, hvol, hvl, Option.some_bind]

/-! ## Totality -/

theorem startsWithTwoSeparators_total (v : Nat) (p : List Nat) (hv : v ≤ p.length) :
    ∃ b, startsWithTwoSeparators v p = some b := by
  unfold startsWithTwoSeparators
  by_cases h : v > 1
  · obtain ⟨o0, h0⟩ := getElem?_some_of_lt (l := p) (i := 0) (by omega)
    obtain ⟨o1, h1⟩ := getElem?_some_of_lt (l := p) (i := 1) (by omega)
    simp only [h, if_true, h0, h1, Option.bind_eq_bind, Option.some_bind]
    split
    · exact ⟨_, rfl⟩
    · exact ⟨_, rfl⟩
  · simp only [h, if_false]; exact ⟨_, rfl⟩

theorem windowsClean_total (p : List Nat) : ∃ s, windowsClean p = some s := by
  obtain ⟨v, hv, hvle⟩ := windowsVolumeNameLen_total p
  by_cases hne : p.drop v = []
  · obtain ⟨b, hb⟩ := startsWithTwoSeparators_total v p hvle
    unfold windowsClean
    simp only [hv, Option.bind_eq_bind, Option.some_bind, sliceFrom, hvle, if_true, hne, hb]
    split
    · exact ⟨_, rfl⟩
    · exact ⟨_, rfl⟩
  · obtain ⟨c, hc⟩ := getElem?_some_of_lt (l := p.drop v) (i := 0) (List.length_pos.mpr hne)
    obtain ⟨_, _, out, _, _, _, _, _, _, _, h⟩ :=
      windowsClean_run p v c hv hc (fun _ => True) (fun _ _ _ _ _ => trivial)
        (fun _ _ _ _ _ _ => trivial)
    exact ⟨_, h⟩

theorem windowsIsAbs_total (p : List Nat) : ∃ b, windowsIsAbs p = some b := by
  obtain ⟨l, hl, hle, h2⟩ := windowsVolumeNameLen_bounds p
  unfold windowsIsAbs
  simp only [hl, Option.bind_eq_bind, Option.some_bind]
  by_cases h0 : l = 0
  · simp only [h0, if_true]; exact ⟨_, rfl⟩
  · obtain ⟨p0, hp0⟩ := getElem?_some_of_lt (l := p) (i := 0) (by omega)
    obtain ⟨p1, hp1⟩ := getElem?_some_of_lt (l := p) (i := 1) (by omega)
    have htail : ∃ b, (if p.drop l = [] then some false
        else (p.drop l)[0]?.bind fun c => some (windowsIsPathSeparator c)) = some b := by
      by_cases hd : p.drop l = []
      · simp only [hd, if_true]; exact ⟨_, rfl⟩
      · obtain ⟨c, hc⟩ := getElem?_some_of_lt (l := p.drop l) (i := 0) (List.length_pos.mpr hd)
        simp only [hd, if_false, hc, Option.some_bind]
        exact ⟨_, rfl⟩
    obtain ⟨t, ht⟩ := htail
    simp only [h0, if_false, hp0, Option.some_bind, sliceFrom, hle, if_true]
    cases hs0 : windowsIsPathSeparator p0 with
    | true =>
      simp only [if_true, hp1, Option.some_bind, Bool.true_and, ht]
      split
      · exact ⟨_, rfl⟩
      · exact ⟨_, rfl⟩
    | false =>
      simp only [Bool.false_eq_true, if_false, Option.some_bind, Bool.false_and, ht]
      exact ⟨_, rfl⟩

theorem startsWithQuestionMarks_total (e : List Nat) :
    ∃ b, startsWithQuestionMarks e = some b := by
  unfold startsWithQuestionMarks
  split
  · rename_i h
    split
    · exact ⟨_, rfl⟩
    · rename_i h2
      have hlen : 2 ≤ e.length := by
        have := (List.isPrefixOf_iff_prefix.mp h).length_le
        simpa using this
      obtain ⟨c, hc⟩ := getElem?_some_of_lt (l := e) (i := 2) (by omega)
      simp only [hc, Option.bind_eq_bind, Option.some_bind]
      exact ⟨_, rfl⟩
  · exact ⟨_, rfl⟩

theorem joinStep_spec (st : joinState) (e : List Nat) :
    ∃ st', joinStep st e = some st' ∧ st'.b = st.b ++ joinedElem st e := by
  have hlast : ∀ (b : List Nat) (lc : Nat) (e : List Nat),
      ∃ st', (if e.length > 0 then
          (e[e.length - 1]?).bind fun last => some ({ b := b ++ e, lastChar := last } : joinState)
        else some { b := b, lastChar := lc }) = some st' ∧ st'.b = b ++ e := by
    intro b lc e
    by_cases he : e.length > 0
    · obtain ⟨c, hc⟩ := getElem?_some_of_lt (l := e) (i := e.length - 1) (by omega)
      simp only [he, if_true, hc, Option.some_bind]
      exact ⟨_, rfl, rfl⟩
    · have : e = [] := List.eq_nil_of_length_eq_zero (by omega)
      subst this
      exact ⟨{ b := b, lastChar := lc }, by simp, by simp⟩
  unfold joinStep joinedElem
  by_cases h0 : st.b.length = 0
  · simp only [h0, if_true, Option.bind_eq_bind, Option.some_bind]
    obtain ⟨st', h1, h2⟩ := hlast st.b st.lastChar e
    exact ⟨st', h1, h2⟩
  · simp only [h0, if_false]
    by_cases hs : windowsIsPathSeparator st.lastChar = true
    · simp only [hs, if_true]
      obtain ⟨q, hq⟩ := startsWithQuestionMarks_total (stripLeadingSeparators e)
      by_cases h1 : st.b.length = 1
      · simp only [h1, if_true, hq, Option.bind_eq_bind, Option.some_bind, true_and]
        cases q with
        | true =>
          simp only [if_true, Option.some_bind]
          obtain ⟨st', h1, h2⟩ := hlast (st.b ++ [46, 92]) st.lastChar (stripLeadingSeparators e)
          exact ⟨st', h1, by rw [h2]; simp⟩
        | false =>
          simp only [Bool.false_eq_true, if_false, Option.some_bind]
          obtain ⟨st', h1, h2⟩ := hlast st.b st.lastChar (stripLeadingSeparators e)
          refine ⟨st', h1, by rw [h2]; simp⟩
      · simp only [h1, if_false, Option.bind_eq_bind, Option.some_bind, false_and]
        obtain ⟨st', h1, h2⟩ := hlast st.b st.lastChar (stripLeadingSeparators e)
        exact ⟨st', h1, by rw [h2]; simp⟩
    · simp only [hs, if_false]
      by_cases hc : st.lastChar = 58
      · simp only [hc, if_true, Option.bind_eq_bind, Option.some_bind]
        obtain ⟨st', h1, h2⟩ := hlast st.b st.lastChar e
        refine ⟨st', ?_, h2⟩
        rw [← h1]
        simp
      · simp only [hc, if_false, Option.bind_eq_bind, Option.some_bind]
        obtain ⟨st', h1, h2⟩ := hlast (st.b ++ [92]) 92 e
        exact ⟨st', h1, by rw [h2]; simp⟩

theorem joinLoop_total : ∀ (es : List (List Nat)) (st : joinState),
    ∃ st', joinLoop st es = some st' := by
  intro es
  induction es with
  | nil => intro st; exact ⟨st, rfl⟩
  | cons e es ih =>
    intro st
    obtain ⟨st1, h1, _⟩ := joinStep_spec st e
    obtain ⟨st2, h2⟩ := ih st1
    exact ⟨st2, by simp [joinLoop, h1, h2]⟩

theorem windowsJoin_total (elem : List (List Nat)) : ∃ s, windowsJoin elem = some s := by
  obtain ⟨st, hst⟩ := joinLoop_total elem { b := [], lastChar := 0 }
  unfold windowsJoin
  simp only [hst, Option.bind_eq_bind, Option.some_bind]
  split
  · exact ⟨_, rfl⟩
  · exact windowsClean_total _

theorem WindowsAbs_total (wd p : List Nat) : ∃ s, WindowsAbs wd p = some s := by
  obtain ⟨b, hb⟩ := windowsIsAbs_total p
  unfold WindowsAbs
  simp only [hb, Option.bind_eq_bind, Option.some_bind]
  split
  · exact windowsClean_total _
  · exact windowsJoin_total _

/-! ## Rooted paths -/

theorem pathElems_ne_nil (l : List Nat) : pathElems l ≠ [] := by
  cases l with
  | nil => simp [pathElems]
  | cons c cs =>
    unfold pathElems
    split
    · simp
    · split <;> simp

theorem pathElems_append_sep (a b : List Nat) (s : Nat) (hs : windowsIsPathSeparator s = true) :
    pathElems (a ++ s :: b) = pathElems a ++ pathElems b := by
  induction a with
  | nil => simp [pathElems, hs]
  | cons c a ih =>
    have e1 : ∀ cs, pathElems (c :: cs) =
        if windowsIsPathSeparator c then [] :: pathElems cs
        else
          match pathElems cs with
          | [] => [[c]]
          | e :: es => (c :: e) :: es := fun _ => rfl
    rw [List.cons_append, e1, e1, ih]
    by_cases hc : windowsIsPathSeparator c = true
    · simp [hc]
    · simp only [hc, if_false]
      cases hpa : pathElems a with
      | nil => exact absurd hpa (pathElems_ne_nil a)
      | cons e es => simp

theorem pathElems_noSep (e : List Nat) (h : ∀ c ∈ e, windowsIsPathSeparator c = false) :
    pathElems e = [e] := by
  induction e with
  | nil => rfl
  | cons c e ih =>
    have hc : windowsIsPathSeparator c = false := h c (by simp)
    have := ih (fun d hd => h d (by simp [hd]))
    simp [pathElems, hc, this]

theorem FromSlash_eq_map (s : List Nat) :
    FromSlash s WindowsSeparator = s.map (fun c => if c = 47 then 92 else c) := by
  unfold FromSlash replaceStringByte WindowsSeparator
  simp only [show ¬ (92 : Nat) = 47 by decide, if_false]
  split
  · rename_i h
    have : ∀ c ∈ s, (if c = 47 then 92 else c) = id c := by
      intro c hc
      have : c ≠ 47 := fun h47 => h (h47 ▸ hc)
      simp [this]
    rw [List.map_congr_left this, List.map_id]
  · rfl

theorem FromSlash_append (a b : List Nat) :
    FromSlash (a ++ b) WindowsSeparator =
      FromSlash a WindowsSeparator ++ FromSlash b WindowsSeparator := by
  simp [FromSlash_eq_map]

theorem FromSlash_of_not_mem (s : List Nat) (h : 47 ∉ s) : FromSlash s WindowsSeparator = s := by
  rw [FromSlash_eq_map]
  have : ∀ c ∈ s, (if c = 47 then 92 else c) = id c := by
    intro c hc
    have : c ≠ 47 := fun h47 => h (h47 ▸ hc)
    simp [this]
  rw [List.map_congr_left this, List.map_id]

theorem not_mem_47_of_noSep (e : List Nat) (h : ∀ c ∈ e, windowsIsPathSeparator c = false) :
    47 ∉ e := by
  intro h47
  have := h 47 h47
  simp [windowsIsPathSeparator] at this

theorem RootedOut_step (orig path : List Nat) (v : Nat) (st st' : cleanState)
    (hinv : CleanInv orig path v true st) (hrel : StepRel path true st st')
    (h : RootedOut st) : RootedOut st' := by
  obtain ⟨hdd, rest, hcont, h47, hno⟩ := h
  have hlen : st.out.w = rest.length + 1 := by
    rw [← lazybuf.content_length _ hinv.wf, hcont]; rfl
  cases hrel with
  | skip hr he hc hd => exact ⟨by rw [hd, hdd], rest, by rw [hc, hcont], h47, hno⟩
  | stay hr he hroot hw hc hd => exact ⟨by rw [hd, hdd], rest, by rw [hc, hcont], h47, hno⟩
  | dots hr he hroot hw hc hd => cases hroot
  | back k hr he hk1 hk2 hsep hnosep hc hd =>
    rw [hdd] at hk1 hsep
    obtain ⟨k', rfl⟩ : ∃ k', k = k' + 1 := ⟨k - 1, by omega⟩
    refine ⟨by rw [hd, hdd], rest.take k', by rw [hc, hcont]; rfl, ?_, ?_⟩
    · exact fun hm => h47 (List.mem_of_mem_take hm)
    · by_cases hk0 : k' = 0
      · subst hk0; simp [pathElems]
      · obtain ⟨c, hc1, hc2⟩ := hsep (by omega)
        rw [hcont] at hc1
        simp only [List.getElem?_cons_succ] at hc1
        have hsplit : rest = rest.take k' ++ c :: rest.drop (k' + 1) := by
          rw [← drop_eq_cons_of_getElem? hc1, List.take_append_drop]
        rw [hsplit, pathElems_append_sep _ _ _ hc2] at hno
        exact fun hm => hno (List.mem_append_left _ hm)
  | elem hr h0 h1 h2 hc hd =>
    have hns := elemAt_noSep path st.r
    have he47 := not_mem_47_of_noSep _ hns
    by_cases hw : st.out.w = baseIndex true
    · have hrest : rest = [] := by
        apply List.eq_nil_of_length_eq_zero
        simp only [baseIndex, if_true] at hw
        omega
      subst hrest
      refine ⟨by rw [hd, hdd], elemAt path st.r, ?_, he47, ?_⟩
      · rw [hc, hcont]; simp [hw]
      · rw [pathElems_noSep _ hns]; simpa using Ne.symm h2
    · refine ⟨by rw [hd, hdd], rest ++ 92 :: elemAt path st.r, ?_, ?_, ?_⟩
      · rw [hc, hcont]; simp [hw]
      · simp only [List.mem_append, List.mem_cons, not_or]
        exact ⟨h47, by decide, he47⟩
      · rw [pathElems_append_sep _ _ _ (by decide), pathElems_noSep _ hns]
        simp only [List.mem_append, List.mem_singleton, not_or]
        exact ⟨hno, Ne.symm h2⟩

theorem postCleanPrefix_rooted (out : lazybuf) (rest : List Nat)
    (h : out.content = 92 :: rest) : postCleanPrefix out ≠ [46, 92] := by
  unfold postCleanPrefix
  cases hb : out.buf with
  | none => simp
  | some buf =>
    simp only [lazybuf.content, hb, Option.getD_some] at h
    cases buf with
    | nil => simp at h
    | cons b0 buf' =>
      cases hw : out.w with
      | zero => rw [hw] at h; simp at h
      | succ w =>
        rw [hw] at h
        simp only [List.take_succ_cons, List.cons.injEq] at h
        obtain ⟨rfl, _⟩ := h
        have hcol : colonInFirstElem (92 :: buf') = false := by
          simp [colonInFirstElem, windowsIsPathSeparator]
        simp only [hcol, Bool.false_eq_true, if_false]
        split
        · simp
        · split <;> simp

theorem windowsClean_rooted_shape (p : List Nat) (v c : Nat)
    (hv : windowsVolumeNameLen p = some v) (hc : p[v]? = some c)
    (hs : windowsIsPathSeparator c = true) :
    ∃ pre rest, windowsClean p =
        some (FromSlash (p.take v) WindowsSeparator ++ pre ++ 92 :: rest) ∧
      47 ∉ rest ∧ [46, 46] ∉ pathElems rest ∧ (pre = [] ∨ (v = 0 ∧ pre = [92, 46])) := by
  have hc' : (p.drop v)[0]? = some c := by rw [List.getElem?_drop]; exact hc
  obtain ⟨st0, st, out, hinv, hP, hr, _, _, hcase, hvl, hres⟩ :=
    windowsClean_run p v c hv hc' RootedOut
      (fun st _ _ hcont hdd => by
        rw [hs] at hcont hdd
        exact ⟨hdd, [], by simpa using hcont, by simp, by simp [pathElems]⟩)
      (fun st st' hi _ hrel h => by
        rw [hs] at hi hrel
        exact RootedOut_step p (p.drop v) v st st' hi hrel h)
  obtain ⟨_, rest, hcont, h47, hno⟩ := hP
  rw [hs] at hinv
  have hw : st.out.w ≠ 0 := by
    rw [← lazybuf.content_length _ hinv.wf, hcont]; simp
  have hout : out = st.out := by
    rcases hcase with ⟨_, h⟩ | ⟨h, _⟩
    · exact h
    · exact absurd h hw
  subst hout
  have hpre : postCleanPrefix st.out = [] ∨ (v = 0 ∧ postCleanPrefix st.out = [92, 46]) := by
    rcases postCleanPrefix_cases st.out with h | ⟨h0, h | h⟩
    · exact Or.inl h
    · exact absurd h (postCleanPrefix_rooted _ rest hcont)
    · exact Or.inr ⟨by rw [← hvl]; exact h0, h⟩
  refine ⟨postCleanPrefix st.out, rest, ?_, h47, hno, hpre⟩
  have h47' : 47 ∉ postCleanPrefix st.out ++ 92 :: rest := by
    rcases hpre with h | ⟨_, h⟩ <;> rw [h] <;> simp [h47]
  rw [hres, hcont, List.append_assoc, FromSlash_append, FromSlash_of_not_mem _ h47',
    List.append_assoc]

/-! ## Absolute paths -/

theorem toUpper_eq_63 (b : Nat) : toUpper 63 = toUpper b ↔ b = 63 := by
  unfold toUpper
  split <;> split <;> omega

/-- A prefix that starts with two separators does not match a string whose
second byte is not a separator. -/
theorem pathHasPrefixFold_two_seps (a b : Nat) (t pre : List Nat)
    (hb : windowsIsPathSeparator b = false) :
    pathHasPrefixFold (a :: b :: t) (92 :: 92 :: pre) = some false := by
  have hsep92 : windowsIsPathSeparator 92 = true := by decide
  unfold pathHasPrefixFold
  split
  · rfl
  · simp only [List.length_cons, pathHasPrefixFoldLoop]
    simp [hsep92, hb]

theorem pathHasPrefixFold_qq (a b : Nat) (t : List Nat) :
    pathHasPrefixFold (a :: b :: t) [92, 63, 63] =
      some (windowsIsPathSeparator a && (b == 63) &&
        (match t with
          | [] => false
          | [c] => c == 63
          | c :: s :: _ => c == 63 && windowsIsPathSeparator s)) := by
  have hsep92 : windowsIsPathSeparator 92 = true := by decide
  have hsep63 : windowsIsPathSeparator 63 = false := by decide
  cases t with
  | nil => simp [pathHasPrefixFold]
  | cons c t =>
    cases t with
    | nil =>
      simp only [pathHasPrefixFold, List.length_cons, List.length_nil, pathHasPrefixFoldLoop]
      simp [hsep92, hsep63, toUpper_eq_63]
      cases windowsIsPathSeparator a <;> by_cases hb : b = 63 <;> by_cases hc : c = 63 <;>
        simp [hb, hc]
    | cons s t =>
      simp only [pathHasPrefixFold, List.length_cons, List.length_nil, pathHasPrefixFoldLoop]
      simp [hsep92, hsep63, toUpper_eq_63]
      cases windowsIsPathSeparator a <;> by_cases hb : b = 63 <;> by_cases hc : c = 63 <;>
        simp [hb, hc]

theorem windowsVolumeNameLen_drive (a : Nat) (t : List Nat) :
    windowsVolumeNameLen (a :: 58 :: t) = some 2 := by
  simp [windowsVolumeNameLen]

theorem windowsVolumeNameLen_of_second_not_sep (a b : Nat) (t : List Nat) (h58 : b ≠ 58)
    (hb : windowsIsPathSeparator b = false) :
    windowsVolumeNameLen (a :: b :: t) =
      if isRootLocalDevice a b t then deviceVolumeLen (a :: b :: t) else some 0 := by
  have hqq : pathHasPrefixFold (a :: b :: t) [92, 63, 63] = some (isRootLocalDevice a b t) :=
    pathHasPrefixFold_qq a b t
  unfold windowsVolumeNameLen
  simp only [List.length_cons, List.getElem?_cons_succ, List.getElem?_cons_zero,
    Option.some.injEq, h58, and_false, if_false, Nat.add_one_ne_zero, Option.bind_eq_bind,
    Option.some_bind, pathHasPrefixFold_two_seps a b t _ hb, Bool.false_eq_true, hqq, hb]
  by_cases ha : windowsIsPathSeparator a = true
  · simp only [ha, Bool.not_true, Bool.false_eq_true, if_false]
    split
    · rfl
    · simp
  · have : isRootLocalDevice a b t = false := by simp [isRootLocalDevice, ha]
    simp [ha, this]

theorem windowsVolumeNameLen_two_seps (a b : Nat) (t : List Nat)
    (ha : windowsIsPathSeparator a = true) (hb : windowsIsPathSeparator b = true) :
    ∃ v, windowsVolumeNameLen (a :: b :: t) = some v ∧ 2 ≤ v ∧ v ≤ (a :: b :: t).length := by
  have h58 : b ≠ 58 := by
    intro h; subst h; simp [windowsIsPathSeparator] at hb
  obtain ⟨b1, hb1⟩ := pathHasPrefixFold_total (a :: b :: t) [92, 92, 46, 92, 85, 78, 67]
  obtain ⟨b2, hb2⟩ := pathHasPrefixFold_total (a :: b :: t) [92, 92, 46]
  obtain ⟨b3, hb3⟩ := pathHasPrefixFold_total (a :: b :: t) [92, 92, 63]
  obtain ⟨b4, hb4⟩ := pathHasPrefixFold_total (a :: b :: t) [92, 63, 63]
  unfold windowsVolumeNameLen
  simp only [List.length_cons, List.getElem?_cons_succ, List.getElem?_cons_zero,
    Option.some.injEq, h58, and_false, if_false, Nat.add_one_ne_zero, Option.bind_eq_bind,
    Option.some_bind, ha, hb, Bool.not_true, Bool.false_eq_true, hb1, hb2, hb3, hb4]
  cases b1
  · simp only [Bool.false_eq_true, if_false]
    cases b2
    · simp only [Bool.false_eq_true, if_false]
      cases b3
      · simp only [Bool.false_eq_true, if_false]
        cases b4
        · simp only [Bool.false_eq_true, if_false]
          obtain ⟨v, hv, hle, hge⟩ := uncLen_spec (a :: b :: t) 2
          simp only [List.length_cons] at hle hge
          refine ⟨v, by simpa using hv, by omega, by simpa using hle⟩
        · obtain ⟨v, hv, hge, hle⟩ :=
            deviceVolumeLen_bounds (a :: b :: t) (pathHasPrefixFold_length hb4)
          exact ⟨v, by simpa using hv, by omega, by simpa using hle⟩
      · obtain ⟨v, hv, hge, hle⟩ :=
          deviceVolumeLen_bounds (a :: b :: t) (pathHasPrefixFold_length hb3)
        exact ⟨v, by simpa using hv, by omega, by simpa using hle⟩
    · obtain ⟨v, hv, hge, hle⟩ :=
        deviceVolumeLen_bounds (a :: b :: t) (pathHasPrefixFold_length hb2)
      exact ⟨v, by simpa using hv, by omega, by simpa using hle⟩
  · obtain ⟨v, hv, hle, hge⟩ := uncLen_spec (a :: b :: t) 8
    have := pathHasPrefixFold_length hb1
    simp only [List.length_cons, List.length_nil] at this hle hge
    exact ⟨v, by simpa using hv, by omega, by simpa using hle⟩

theorem takeWhile_append_sep (comp tail : List Nat) (c : Nat)
    (hcomp : ∀ x ∈ comp, windowsIsPathSeparator x = false)
    (hc : windowsIsPathSeparator c = true) :
    (comp ++ c :: tail).takeWhile notSep = comp := by
  induction comp with
  | nil => simp [List.takeWhile_cons, notSep, hc]
  | cons x comp ih =>
    have hx : notSep x = true := by simp [notSep, hcomp x (by simp)]
    simp [List.takeWhile_cons, hx, ih (fun y hy => hcomp y (by simp [hy]))]

theorem windowsVolumeNameLen_device (a s c : Nat) (comp tail : List Nat)
    (ha : windowsIsPathSeparator a = true) (hs : windowsIsPathSeparator s = true)
    (hcomp : ∀ x ∈ comp, windowsIsPathSeparator x = false)
    (hc : windowsIsPathSeparator c = true) :
    windowsVolumeNameLen (a :: 63 :: 63 :: s :: (comp ++ c :: tail)) =
      some (4 + comp.length) := by
  rw [windowsVolumeNameLen_of_second_not_sep a 63 _ (by decide) (by decide)]
  have hq : isRootLocalDevice a 63 (63 :: s :: (comp ++ c :: tail)) = true := by
    simp [isRootLocalDevice, ha, hs]
  rw [hq, if_pos rfl, deviceVolumeLen_spec _ (by simp)]
  simp [takeWhile_append_sep comp tail c hcomp hc]

theorem windowsIsAbs_of_shape (p : List Nat) (h : AbsShape p) : windowsIsAbs p = some true := by
  cases h with
  | unc a b t ha hb =>
    obtain ⟨v, hv, h2, _⟩ := windowsVolumeNameLen_two_seps a b t ha hb
    have hv0 : v ≠ 0 := by omega
    simp [windowsIsAbs, hv, hv0, ha, hb]
  | drive a s t hs =>
    have h58 : windowsIsPathSeparator 58 = false := by decide
    simp [windowsIsAbs, windowsVolumeNameLen_drive, h58, sliceFrom, hs]
  | device a s c comp tail ha hs hcomp hc =>
    have h63 : windowsIsPathSeparator 63 = false := by decide
    have hlen : 4 + comp.length ≤ comp.length + (tail.length + 1) + 1 + 1 + 1 + 1 := by omega
    have hd : List.drop (4 + comp.length) (a :: 63 :: 63 :: s :: (comp ++ c :: tail)) =
        c :: tail := by
      rw [Nat.add_comm]
      simp
    simp only [windowsIsAbs, windowsVolumeNameLen_device a s c comp tail ha hs hcomp hc,
      Option.bind_eq_bind, Option.some_bind, List.getElem?_cons_zero, ha, if_true,
      List.getElem?_cons_succ, h63, Bool.and_false, Bool.false_eq_true, if_false, sliceFrom,
      List.length_cons, List.length_append, hlen, hd]
    simp [hc]

theorem shape_of_windowsIsAbs (p : List Nat) (h : windowsIsAbs p = some true) : AbsShape p := by
  obtain ⟨l, hl, hle, h2⟩ := windowsVolumeNameLen_bounds p
  unfold windowsIsAbs at h
  simp only [hl, Option.bind_eq_bind, Option.some_bind] at h
  by_cases h0 : l = 0
  · simp [h0] at h
  · have hlen : 2 ≤ p.length := by omega
    obtain ⟨a, b, t, rfl⟩ : ∃ a b t, p = a :: b :: t := by
      match p, hlen with
      | a :: b :: t, _ => exact ⟨a, b, t, rfl⟩
    by_cases hab : windowsIsPathSeparator a = true ∧ windowsIsPathSeparator b = true
    · exact AbsShape.unc a b t hab.1 hab.2
    · have hnot : (windowsIsPathSeparator a && windowsIsPathSeparator b) = false := by
        cases ha : windowsIsPathSeparator a <;> cases hb : windowsIsPathSeparator b <;>
          simp_all
      have htail : ∃ c rest, List.drop l (a :: b :: t) = c :: rest ∧
          windowsIsPathSeparator c = true := by
        simp only [h0, if_false, List.getElem?_cons_zero, List.getElem?_cons_succ,
          Option.some_bind, sliceFrom, hle, if_true] at h
        cases ha : windowsIsPathSeparator a with
        | true =>
          have hb : windowsIsPathSeparator b = false := by
            cases hb : windowsIsPathSeparator b
            · rfl
            · exact absurd ⟨ha, hb⟩ hab
          simp only [ha, if_true, Option.some_bind, hb, Bool.and_false, Bool.false_eq_true,
            if_false] at h
          cases hd : List.drop l (a :: b :: t) with
          | nil => simp [hd] at h
          | cons c rest =>
            simp only [hd, List.getElem?_cons_zero, Option.some_bind] at h
            simp at h
            exact ⟨c, rest, rfl, h⟩
        | false =>
          simp only [ha, Bool.false_eq_true, if_false, Option.some_bind, Bool.false_and] at h
          cases hd : List.drop l (a :: b :: t) with
          | nil => simp [hd] at h
          | cons c rest =>
            simp only [hd, List.getElem?_cons_zero, Option.some_bind] at h
            simp at h
            exact ⟨c, rest, rfl, h⟩
      obtain ⟨c, rest, hd, hc⟩ := htail
      by_cases h58 : b = 58
      · subst h58
        rw [windowsVolumeNameLen_drive] at hl
        cases hl
        simp only [List.drop_succ_cons, List.drop_zero] at hd
        subst hd
        exact AbsShape.drive a c rest hc
      · by_cases hb : windowsIsPathSeparator b = true
        · -- then `a` is not a separator, and the volume is empty
          have ha : windowsIsPathSeparator a = false := by
            cases ha : windowsIsPathSeparator a
            · rfl
            · exact absurd ⟨ha, hb⟩ hab
          have : windowsVolumeNameLen (a :: b :: t) = some 0 := by
            simp [windowsVolumeNameLen, h58, ha]
          rw [this] at hl
          cases hl
          exact absurd rfl h0
        · have hb' : windowsIsPathSeparator b = false := by simpa using hb
          rw [windowsVolumeNameLen_of_second_not_sep a b t h58 hb'] at hl
          by_cases hq : isRootLocalDevice a b t = true
          · simp only [hq, if_true] at hl
            simp only [isRootLocalDevice, Bool.and_eq_true, beq_iff_eq] at hq
            obtain ⟨⟨ha, rfl⟩, ht⟩ := hq
            match t, ht, hl, hd with
            | [c1], _, hl, hd =>
              rw [deviceVolumeLen_spec _ (by simp)] at hl
              simp at hl
              subst hl
              simp at hd
            | c1 :: s :: t', ht, hl, hd =>
              rw [deviceVolumeLen_spec _ (by simp)] at hl
              simp only [Bool.and_eq_true, beq_iff_eq] at ht
              obtain ⟨rfl, hs⟩ := ht
              simp only [List.length_cons, List.drop_succ_cons, List.drop_zero,
                Option.some.injEq] at hl
              have hne : ¬ (t'.length + 1 + 1 + 1 + 1 = 3) := by omega
              simp only [hne, if_false] at hl
              subst hl
              rw [Nat.add_comm] at hd
              simp only [List.drop_succ_cons, ← List.drop_drop, List.drop_zero] at hd
              have hsplit : t' = t'.takeWhile notSep ++ c :: rest := by
                have := List.take_append_drop (t'.takeWhile notSep).length t'
                rw [hd] at this
                have htk : t'.take (t'.takeWhile notSep).length = t'.takeWhile notSep := by
                  have hpre := List.takeWhile_prefix notSep (l := t')
                  exact (List.prefix_iff_eq_take.mp hpre).symm
                rw [htk] at this
                exact this.symm
              rw [hsplit]
              exact AbsShape.device a s c _ rest ha hs
                (fun x hx => by
                  have := List.mem_takeWhile_imp hx
                  simpa [notSep] using this) hc
          · simp only [hq, Bool.false_eq_true, if_false, Option.some.injEq] at hl
            exact absurd hl.symm h0

theorem sep_fromSlash_byte (a : Nat) (ha : windowsIsPathSeparator a = true) :
    windowsIsPathSeparator (if a = 47 then 92 else a) = true := by
  split
  · decide
  · exact ha

theorem notSep_fromSlash_byte (a : Nat) (ha : windowsIsPathSeparator a = false) :
    (if a = 47 then 92 else a) = a := by
  split
  · rename_i h; subst h; simp [windowsIsPathSeparator] at ha
  · rfl

theorem AbsShape_append (wd x : List Nat) (h : AbsShape wd) : AbsShape (wd ++ x) := by
  cases h with
  | unc a b t ha hb => exact AbsShape.unc a b (t ++ x) ha hb
  | drive a s t hs => exact AbsShape.drive a s (t ++ x) hs
  | device a s c comp tail ha hs hcomp hc =>
    have : a :: 63 :: 63 :: s :: (comp ++ c :: tail) ++ x =
        a :: 63 :: 63 :: s :: (comp ++ c :: (tail ++ x)) := by simp
    rw [this]
    exact AbsShape.device a s c comp (tail ++ x) ha hs hcomp hc

theorem windowsClean_abs (p : List Nat) (h : AbsShape p) :
    ∃ r, windowsClean p = some r ∧ AbsShape r := by
  cases h with
  | unc a b t ha hb =>
    obtain ⟨v, hv, h2, hle⟩ := windowsVolumeNameLen_two_seps a b t ha hb
    obtain ⟨v', rfl⟩ : ∃ v', v = v' + 2 := ⟨v - 2, by omega⟩
    by_cases hne : (a :: b :: t).drop (v' + 2) = []
    · have hst : startsWithTwoSeparators (v' + 2) (a :: b :: t) = some true := by
        simp [startsWithTwoSeparators, ha, hb]
      refine ⟨FromSlash (a :: b :: t) WindowsSeparator, ?_, ?_⟩
      · unfold windowsClean
        simp only [hv, Option.bind_eq_bind, Option.some_bind, sliceFrom, hle, if_true, hne, hst]
      · rw [FromSlash_eq_map]
        exact AbsShape.unc _ _ _ (sep_fromSlash_byte a ha) (sep_fromSlash_byte b hb)
    · obtain ⟨c, hc⟩ := getElem?_some_of_lt (l := (a :: b :: t).drop (v' + 2)) (i := 0)
        (List.length_pos.mpr hne)
      obtain ⟨_, _, out, _, _, _, _, _, _, _, hres⟩ :=
        windowsClean_run (a :: b :: t) (v' + 2) c hv hc (fun _ => True)
          (fun _ _ _ _ _ => trivial) (fun _ _ _ _ _ _ => trivial)
      refine ⟨_, hres, ?_⟩
      rw [FromSlash_eq_map]
      simp only [List.take_succ_cons, List.cons_append, List.map_cons]
      exact AbsShape.unc _ _ _ (sep_fromSlash_byte a ha) (sep_fromSlash_byte b hb)
  | drive a s t hs =>
    obtain ⟨pre, rest, hres, _, _, hpre⟩ :=
      windowsClean_rooted_shape (a :: 58 :: s :: t) 2 s (windowsVolumeNameLen_drive a _)
        (by simp) hs
    have hpre' : pre = [] := by
      rcases hpre with h | ⟨h, _⟩
      · exact h
      · omega
    subst hpre'
    refine ⟨_, hres, ?_⟩
    rw [FromSlash_eq_map]
    simp only [List.take_succ_cons, List.take_zero, List.map_cons, List.map_nil,
      List.append_nil, List.cons_append, List.nil_append]
    exact AbsShape.drive _ 92 rest (by decide)
  | device a s c comp tail ha hs hcomp hc =>
    have hv := windowsVolumeNameLen_device a s c comp tail ha hs hcomp hc
    have hidx : (a :: 63 :: 63 :: s :: (comp ++ c :: tail))[4 + comp.length]? = some c := by
      rw [Nat.add_comm]
      simp only [List.getElem?_cons_succ]
      rw [List.getElem?_append_right (le_refl _)]
      simp
    obtain ⟨pre, rest, hres, _, _, hpre⟩ :=
      windowsClean_rooted_shape _ (4 + comp.length) c hv hidx hc
    have hpre' : pre = [] := by
      rcases hpre with h | ⟨h, _⟩
      · exact h
      · omega
    subst hpre'
    refine ⟨_, hres, ?_⟩
    have htake : List.take (4 + comp.length) (a :: 63 :: 63 :: s :: (comp ++ c :: tail)) =
        a :: 63 :: 63 :: s :: comp := by
      rw [Nat.add_comm]
      simp
    have hmap : comp.map (fun c => if c = 47 then 92 else c) = comp := by
      have : ∀ x ∈ comp, (if x = 47 then 92 else x) = id x :=
        fun x hx => notSep_fromSlash_byte x (hcomp x hx)
      rw [List.map_congr_left this, List.map_id]
    rw [htake, FromSlash_eq_map]
    simp only [List.map_cons, hmap, List.append_nil, List.cons_append]
    have h63 : (if (63 : Nat) = 47 then 92 else 63) = 63 := by decide
    rw [h63]
    exact AbsShape.device _ _ 92 comp rest (sep_fromSlash_byte a ha) (sep_fromSlash_byte s hs)
      hcomp (by decide)

theorem joinLoop_two (wd p : List Nat) :
    ∃ st, joinLoop { b := [], lastChar := 0 } [wd, p] = some st ∧
      ∃ st1, joinStep { b := [], lastChar := 0 } wd = some st1 ∧ st1.b = wd ∧
        joinStep st1 p = some st ∧ st.b = wd ++ joinedElem st1 p := by
  obtain ⟨st1, h1, hb1⟩ := joinStep_spec { b := [], lastChar := 0 } wd
  obtain ⟨st2, h2, hb2⟩ := joinStep_spec st1 p
  have hb1' : st1.b = wd := by rw [hb1]; simp [joinedElem]
  refine ⟨st2, by simp [joinLoop, h1, h2], st1, h1, hb1', h2, by rw [hb2, hb1']⟩

theorem windowsPostClean_cases (out out' : lazybuf) (h : windowsPostClean out = some out') :
    out' = out ∨ ∃ buf pre, out.buf = some buf ∧ pre.length = 2 ∧ out' = out.prepend pre := by
  unfold windowsPostClean at h
  cases hb : out.buf with
  | none =>
    rw [hb] at h
    simp only [Option.some.injEq] at h
    exact Or.inl h.symm
  | some buf =>
    rw [hb] at h
    simp only at h
    by_cases hv : (out.volLen != 0) = true
    · simp only [hv, if_true, Option.some.injEq] at h
      exact Or.inl h.symm
    · simp only [hv, Bool.false_eq_true, if_false] at h
      by_cases hcol : colonInFirstElem buf = true
      · simp only [hcol, if_true, Option.some.injEq] at h
        exact Or.inr ⟨buf, [46, WindowsSeparator], rfl, rfl, h.symm⟩
      · obtain ⟨b, hb'⟩ := startsLikeRootLocalDevice_total buf
        simp only [hcol, Bool.false_eq_true, if_false, hb', Option.bind_eq_bind,
          Option.some_bind] at h
        cases b with
        | true =>
          simp only [if_true, Option.some.injEq] at h
          exact Or.inr ⟨buf, [WindowsSeparator, 46], rfl, rfl, h.symm⟩
        | false =>
          simp only [Bool.false_eq_true, if_false, Option.some.injEq] at h
          exact Or.inl h.symm

theorem cleanedBuf_bounds (p : List Nat) (out : lazybuf) (h : cleanedBuf p = some out) :
    out.w ≤ out.path.length + 2 ∧ ∀ buf, out.buf = some buf → out.w ≤ buf.length := by
  obtain ⟨v, hv, hvle⟩ := windowsVolumeNameLen_total p
  unfold cleanedBuf at h
  simp only [hv, Option.bind_eq_bind, Option.some_bind, sliceFrom, hvle, if_true] at h
  cases hc : (p.drop v)[0]? with
  | none => simp [hc] at h
  | some c =>
    obtain ⟨st0, st, o1, hinv, _, _, h0, hl, hcase, _, _⟩ :=
      windowsClean_run p v c hv hc (fun _ => True) (fun _ _ _ _ _ => trivial)
        (fun _ _ _ _ _ _ => trivial)
    have hpc : windowsPostClean o1 = some out := by
      simp only [hc, Option.some_bind, h0, hl] at h
      rcases hcase with ⟨hw, rfl⟩ | ⟨hw, ha, _⟩
      · simpa [hw] using h
      · simpa [hw, ha] using h
    have hwf1 : o1.WF := by
      rcases hcase with ⟨_, rfl⟩ | ⟨hw, ha, _⟩
      · exact hinv.wf
      · have hne : p.drop v ≠ [] := by
          intro hnil; rw [hnil] at hc; simp at hc
        obtain ⟨o, ho, hwf, _⟩ := lazybuf.append_spec st.out 46 hinv.wf (by
          rw [hinv.path_eq, hw]; exact List.length_pos.mpr hne)
        rw [ha] at ho; cases ho; exact hwf
    rcases windowsPostClean_cases o1 out hpc with rfl | ⟨buf, pre, hb, hpre, rfl⟩
    · exact ⟨by have := hwf1.w_le; omega, fun buf hb => by
        rw [hwf1.buf_len buf hb]; exact hwf1.w_le⟩
    · have hw := hwf1.w_le
      have hbl := hwf1.buf_len buf hb
      refine ⟨by show o1.w + pre.length ≤ o1.path.length + 2; omega, ?_⟩
      intro buf' hb'
      simp only [lazybuf.prepend, hb, Option.getD_some, Option.some.injEq] at hb'
      rw [← hb']
      show o1.w + pre.length ≤ (pre ++ buf).length
      rw [List.length_append]; omega

/-! ## The claims on the path canonicaliser -/

/-- C1. `windowsClean` is not idempotent: on `c\..\ab:\..\d` it returns `.\d`
(the post-clean scan reads the bytes `b:` that a `..` left in the buffer beyond
the write index), and cleaning `.\d` again gives `d`. -/
theorem windowsClean_twice_differs :
    windowsClean (ascii "c\\..\\ab:\\..\\d") = some (ascii ".\\d") ∧
      windowsClean (ascii ".\\d") = some (ascii "d") ∧
      windowsClean (ascii "\\??\\") = some (ascii "\\??\\.") ∧
      windowsClean (ascii "\\??\\.") = some (ascii "\\??\\..") := by
  decide

/-- C2. The output of the Windows dialect can contain `/`: for the volume-only
path `/??` the code returns the input with a `.` appended and does not pass it
through `FromSlash`; `WindowsAbs` with an empty working directory does the
same. -/
theorem windowsClean_keeps_slash :
    windowsClean (ascii "/??") = some (ascii "/??.") ∧
      WindowsAbs [] (ascii "/??") = some (ascii "/??.") ∧
      47 ∈ ascii "/??." := by
  decide

/-- C3. `..` never escapes a root or volume prefix: when the remainder of `p`
after its volume prefix of length `v` starts with a separator, `windowsClean p`
is the first `v` bytes of `p` with every `/` written as `\`, then `\`, then a
rest that has no `..` path element. -/
theorem windowsClean_keeps_root (p : List Nat) (v c : Nat)
    (hv : windowsVolumeNameLen p = some v) (hc : p[v]? = some c)
    (hs : windowsIsPathSeparator c = true) :
    ∃ rest, windowsClean p =
        some ((p.take v).map (fun b => if b = 47 then 92 else b) ++ 92 :: rest) ∧
      [46, 46] ∉ pathElems rest := by
  obtain ⟨pre, rest, hres, _, hno, hpre⟩ := windowsClean_rooted_shape p v c hv hc hs
  rw [FromSlash_eq_map] at hres
  rcases hpre with rfl | ⟨rfl, rfl⟩
  · exact ⟨rest, by simpa using hres, hno⟩
  · refine ⟨46 :: 92 :: rest, by simpa using hres, ?_⟩
    have : (46 :: 92 :: rest : List Nat) = [46] ++ 92 :: rest := rfl
    rw [this, pathElems_append_sep _ _ _ (by decide)]
    simp only [List.mem_append, not_or]
    exact ⟨by decide, hno⟩

/-- C3, at `C:\..\a` (and the two results the claim names). -/
theorem windowsClean_keeps_root_witness :
    (∃ rest, windowsClean (ascii "C:\\..\\a") =
        some (((ascii "C:\\..\\a").take 2).map (fun b => if b = 47 then 92 else b) ++
          92 :: rest) ∧ [46, 46] ∉ pathElems rest) ∧
      windowsClean (ascii "C:\\..\\a") = some (ascii "C:\\a") ∧
      windowsClean (ascii "\\\\host\\share\\..\\x") = some (ascii "\\\\host\\share\\x") :=
  ⟨windowsClean_keeps_root (ascii "C:\\..\\a") 2 92 (by decide) (by decide) (by decide),
    by decide, by decide⟩

/-- C4, as stated, fails in its last clause: on `ab:/c` the cleaning loop
consumes the five input bytes and writes five, and `windowsPostClean` then
prepends `.\`, so the lazy buffer ends with the write index 7, more than the
five input bytes; the result `.\ab:\c` is longer than the input. -/
theorem cleanedBuf_w_exceeds_input :
    (cleanedBuf (ascii "ab:/c")).map (fun out => (out.w, out.path.length)) = some (7, 5) ∧
      windowsClean (ascii "ab:/c") = some (ascii ".\\ab:\\c") ∧
      ¬ ∀ out, cleanedBuf (ascii "ab:/c") = some out → out.w ≤ out.path.length := by
  refine ⟨by decide, by decide, ?_⟩
  intro h
  have := h { path := ascii "ab:/c", buf := some (ascii ".\\ab:\\c"), w := 7,
              volAndPath := ascii "ab:/c", volLen := 0 } (by decide)
  exact absurd this (by decide)

/-- C4, amended. Resolve never fails: `WindowsAbs`, `windowsIsAbs`,
`windowsVolumeNameLen`, `windowsJoin` and `windowsClean` return a value on
every input (no index or slice of theirs, of the lazy buffer or of
`windowsPostClean` is out of range, and no loop outlives its bound); at every
head of the cleaning loop the write index is at most the number of input bytes
consumed, which is at most the length of the input; after `windowsPostClean`
the write index is at most the length of the input plus the two prepended
bytes, and within the buffer. -/
theorem WindowsAbs_never_fails (wd p : List Nat) :
    (∃ s, WindowsAbs wd p = some s) ∧ (∃ b, windowsIsAbs p = some b) ∧
      (∃ v, windowsVolumeNameLen p = some v ∧ v ≤ p.length) ∧
      (∃ s, windowsJoin [wd, p] = some s) ∧ (∃ s, windowsClean p = some s) ∧
      (∀ k st, cleanStateAfter p k = some st →
        st.out.w ≤ st.r ∧ st.r ≤ st.out.path.length) ∧
      ∀ out, cleanedBuf p = some out →
        out.w ≤ out.path.length + 2 ∧ ∀ buf, out.buf = some buf → out.w ≤ buf.length := by
  refine ⟨WindowsAbs_total wd p, windowsIsAbs_total p, windowsVolumeNameLen_total p,
    windowsJoin_total _, windowsClean_total p, ?_, cleanedBuf_bounds p⟩
  intro k st h
  obtain ⟨v, hv, hvle⟩ := windowsVolumeNameLen_total p
  unfold cleanStateAfter at h
  simp only [hv, Option.bind_eq_bind, Option.some_bind, sliceFrom, hvle, if_true] at h
  cases hc : (p.drop v)[0]? with
  | none => simp [hc] at h
  | some c =>
    have hne : p.drop v ≠ [] := by
      intro hnil; rw [hnil] at hc; simp at hc
    obtain ⟨st0, h0, hinv0, _⟩ := cleanInit_spec p (p.drop v) v (windowsIsPathSeparator c) hne
    simp only [hc, Option.some_bind, h0] at h
    have hinv := cleanIter_inv p (p.drop v) v (windowsIsPathSeparator c) k st0 st hinv0 h
    exact ⟨hinv.w_le_r, by rw [hinv.path_eq]; exact hinv.r_le⟩

/-- C4 amended, at the third loop head of `C:\a\..\b`. -/
theorem WindowsAbs_never_fails_witness :
    cleanStateAfter (ascii "C:\\a\\..\\b") 2 =
        some { r := 3, dotdot := 1,
               out := { path := ascii "\\a\\..\\b", buf := none, w := 2,
                        volAndPath := ascii "C:\\a\\..\\b", volLen := 2 } } ∧
      (2 ≤ 3 ∧ 3 ≤ (ascii "\\a\\..\\b").length) :=
  ⟨by decide,
    (WindowsAbs_never_fails [] (ascii "C:\\a\\..\\b")).2.2.2.2.2.1 2
      { r := 3, dotdot := 1,
        out := { path := ascii "\\a\\..\\b", buf := none, w := 2,
                 volAndPath := ascii "C:\\a\\..\\b", volLen := 2 } } (by decide)⟩

/-- C5. A canonical path is absolute: with an absolute working directory,
`WindowsAbs` returns an absolute path for every raw path. -/
theorem WindowsAbs_isAbs (wd p : List Nat) (hwd : windowsIsAbs wd = some true) :
    ∃ s, WindowsAbs wd p = some s ∧ windowsIsAbs s = some true := by
  have hshape := shape_of_windowsIsAbs wd hwd
  obtain ⟨b, hb⟩ := windowsIsAbs_total p
  unfold WindowsAbs
  simp only [hb, Option.bind_eq_bind, Option.some_bind]
  cases b with
  | true =>
    obtain ⟨r, hr, hsh⟩ := windowsClean_abs p (shape_of_windowsIsAbs p hb)
    exact ⟨r, by simpa using hr, windowsIsAbs_of_shape r hsh⟩
  | false =>
    obtain ⟨st, hst, st1, _, _, _, hbuf⟩ := joinLoop_two wd p
    have hsh : AbsShape st.b := by rw [hbuf]; exact AbsShape_append wd _ hshape
    have hwdne : wd ≠ [] := by cases hshape <;> simp
    have hne : st.b.length ≠ 0 := by
      rw [hbuf]; simp [hwdne]
    obtain ⟨r, hr, hshr⟩ := windowsClean_abs st.b hsh
    refine ⟨r, ?_, windowsIsAbs_of_shape r hshr⟩
    simp only [Bool.false_eq_true, if_false, windowsJoin, hst, Option.bind_eq_bind,
      Option.some_bind, hne, hr]

/-- C5, at the working directory `C:\Users\u` and the raw path
`..\..\pkg\yarn.lock`. -/
theorem WindowsAbs_isAbs_witness :
    windowsIsAbs (ascii "C:\\Users\\u") = some true ∧
      ∃ s, WindowsAbs (ascii "C:\\Users\\u") (ascii "..\\..\\pkg\\yarn.lock") = some s ∧
        windowsIsAbs s = some true :=
  ⟨by decide, WindowsAbs_isAbs _ _ (by decide)⟩

/-- C6. Cleaning can manufacture an absolute path: `\a\..\:\x` has no volume
and is not absolute, its clean form `\:\x` starts with the drive-like `\:`
followed by a separator and is absolute for `windowsIsAbs`; the post-clean
guards look for a colon only in a first element that does not start with a
separator. -/
theorem windowsClean_makes_abs :
    windowsIsAbs (ascii "\\a\\..\\:\\x") = some false ∧
      windowsClean (ascii "\\a\\..\\:\\x") = some (ascii "\\:\\x") ∧
      windowsIsAbs (ascii "\\:\\x") = some true := by
  decide

/-- C7, as stated, fails at two empty strings: `WindowsAbs("", "")` is the
empty string that `windowsJoin` returns for an empty builder, while
`windowsClean(windowsJoin("", ""))` is `.`. -/
theorem WindowsAbs_empty_differs :
    windowsIsAbs [] = some false ∧ WindowsAbs [] [] = some [] ∧
      (windowsJoin [[], []]).bind windowsClean = some (ascii ".") ∧
      WindowsAbs [] [] ≠ (windowsJoin [[], []]).bind windowsClean := by
  decide

/-- C7, amended. For a raw path that is not absolute, `WindowsAbs wd p` is
`windowsJoin [wd, p]`: the empty string when both are empty, and otherwise
`windowsClean` applied once to the builder of the join, which starts with
`wd`. -/
theorem WindowsAbs_of_not_abs (wd p : List Nat) (h : windowsIsAbs p = some false) :
    WindowsAbs wd p = windowsJoin [wd, p] ∧
      (wd = [] ∧ p = [] → WindowsAbs wd p = some []) ∧
      (¬ (wd = [] ∧ p = []) →
        ∃ st, joinLoop { b := [], lastChar := 0 } [wd, p] = some st ∧ st.b ≠ [] ∧
          wd <+: st.b ∧ WindowsAbs wd p = windowsClean st.b) := by
  have hj : WindowsAbs wd p = windowsJoin [wd, p] := by
    simp [WindowsAbs, h]
  refine ⟨hj, ?_, ?_⟩
  · rintro ⟨rfl, rfl⟩
    rw [hj]; decide
  · intro hne
    obtain ⟨st, hst, st1, _, hb1, _, hbuf⟩ := joinLoop_two wd p
    have hstne : st.b ≠ [] := by
      rw [hbuf]
      by_cases hwd : wd = []
      · have hp : p ≠ [] := fun hp => hne ⟨hwd, hp⟩
        have : joinedElem st1 p = p := by simp [joinedElem, hb1, hwd]
        simp [this, hp]
      · simp [hwd]
    refine ⟨st, hst, hstne, ⟨_, hbuf.symm⟩, ?_⟩
    have : st.b.length ≠ 0 := fun h0 => hstne (List.eq_nil_of_length_eq_zero h0)
    rw [hj]
    simp only [windowsJoin, hst, Option.bind_eq_bind, Option.some_bind, this, if_false]

/-- C7 amended, at `C:\Users\u` and `..\..\pkg\yarn.lock`. -/
theorem WindowsAbs_of_not_abs_witness :
    windowsIsAbs (ascii "..\\..\\pkg\\yarn.lock") = some false ∧
      WindowsAbs (ascii "C:\\Users\\u") (ascii "..\\..\\pkg\\yarn.lock") =
        windowsJoin [ascii "C:\\Users\\u", ascii "..\\..\\pkg\\yarn.lock"] ∧
      WindowsAbs (ascii "C:\\Users\\u") (ascii "..\\..\\pkg\\yarn.lock") =
        windowsClean (ascii "C:\\Users\\u\\..\\..\\pkg\\yarn.lock") :=
  ⟨by decide,
    (WindowsAbs_of_not_abs (ascii "C:\\Users\\u") (ascii "..\\..\\pkg\\yarn.lock")
      (by decide)).1,
    by decide⟩

/-- C8. Join+absolute invariance: for an absolute raw path the working
directory plays no part, `WindowsAbs wd1 p = WindowsAbs wd2 p = windowsClean p`,
and that is a string. -/
theorem WindowsAbs_of_abs (wd1 wd2 p : List Nat) (h : windowsIsAbs p = some true) :
    WindowsAbs wd1 p = WindowsAbs wd2 p ∧ WindowsAbs wd2 p = windowsClean p ∧
      ∃ s, windowsClean p = some s := by
  have h1 : ∀ wd, WindowsAbs wd p = windowsClean p := by
    intro wd; simp [WindowsAbs, h]
  exact ⟨by rw [h1, h1], h1 wd2, windowsClean_total p⟩

/-- C8, at `C:\a\..\b` with the working directories `C:\x` and `D:\y`. -/
theorem WindowsAbs_of_abs_witness :
    windowsIsAbs (ascii "C:\\a\\..\\b") = some true ∧
      WindowsAbs (ascii "C:\\x") (ascii "C:\\a\\..\\b") =
        WindowsAbs (ascii "D:\\y") (ascii "C:\\a\\..\\b") ∧
      WindowsAbs (ascii "D:\\y") (ascii "C:\\a\\..\\b") = some (ascii "C:\\b") :=
  ⟨by decide,
    (WindowsAbs_of_abs (ascii "C:\\x") (ascii "D:\\y") (ascii "C:\\a\\..\\b") (by decide)).1,
    by decide⟩

/-! ## The claims on the search command -/

set_option maxRecDepth 100000

/-- C9. The POSIX search command loses the end of its last name filter: the
filters are joined with ` -o ` (nothing trails the last one) and the code then
cuts three bytes off the joined text, so for the basenames `package-lock.json`
and `yarn.lock` the command ends its filter list with `-name "yarn.lo`; it is
not the command of the comment in the code, and `-name "yarn.lock"` does not
occur in it. -/
theorem findLockCmd_posix_cuts_last_name :
    findLockCmd (ascii "linux/unix") [] sampleLockFiles =
        some (ascii
          ("find / -type f -and \\( -name \"package-lock.json\" " ++
            "-o -name \"yarn.lo \\) 2>&1 | grep -v \"find: \"")) ∧
      findLockCmd (ascii "linux/unix") [] sampleLockFiles ≠
        some (ascii
          ("find / -type f -and \\( -name \"package-lock.json\" " ++
            "-o -name \"yarn.lock\" \\) 2>&1 | grep -v \"find: \"")) ∧
      ¬ (ascii "-name \"yarn.lock\"" <:+:
        (findLockCmd (ascii "linux/unix") [] sampleLockFiles).getD []) := by
  decide

/-- C10. The `cmd.exe` search command is not the PowerShell command wrapped
once: the names are written with `\"`, `strings.ReplaceAll` escapes their
quotes again, and `%q` then escapes every backslash and quote of the result,
so the root is written `C:\\` and every name is surrounded by five
backslashes and a quote; the command differs from the one in the comment of
the code. -/
theorem findLockCmd_cmd_escapes_thrice :
    findLockCmd (ascii "cmd.exe") [] sampleLockFiles =
        some (ascii
          ("powershell.exe -NoProfile -NonInteractive " ++
            "\"Get-ChildItem -Path C:\\\\ -Recurse -File " ++
            "-ErrorAction SilentlyContinue | Where-Object \x7b " ++
            "$_.Name -in @(\\\\\\\\\\\"package-lock.json\\\\\\\\\\\", " ++
            "\\\\\\\\\\\"yarn.lock\\\\\\\\\\\") \x7d | Select-Object " ++
            "-ExpandProperty FullName\"")) ∧
      findLockCmd (ascii "powershell") [] sampleLockFiles =
        some (ascii
          ("Get-ChildItem -Path C:\\ -Recurse -File " ++
            "-ErrorAction SilentlyContinue | Where-Object \x7b " ++
            "$_.Name -in @(\"package-lock.json\", \"yarn.lock\") " ++
            "\x7d | Select-Object -ExpandProperty FullName")) ∧
      findLockCmd (ascii "cmd.exe") [] sampleLockFiles ≠
        (findLockCmd (ascii "powershell") [] sampleLockFiles).map (fun e =>
          ascii "powershell.exe -NoProfile -NonInteractive \"" ++ escapeDoubleQuotes e ++
            ascii "\"") ∧
      (findLockCmd (ascii "powershell") [] sampleLockFiles).map (fun e =>
          ascii "powershell.exe -NoProfile -NonInteractive \"" ++ escapeDoubleQuotes e ++
            ascii "\"") =
        some (ascii
          ("powershell.exe -NoProfile -NonInteractive " ++
            "\"Get-ChildItem -Path C:\\ -Recurse -File " ++
            "-ErrorAction SilentlyContinue | Where-Object \x7b " ++
            "$_.Name -in @(\\\"package-lock.json\\\", " ++
            "\\\"yarn.lock\\\") \x7d | Select-Object -ExpandProperty " ++
            "FullName\"")) := by
  decide

/-! ## The loop of `scanLibraries` -/

theorem absPath_total {L : Type} (env : Collaborators L) (shell wd path : List Nat) :
    ∃ k, absPath env shell wd path = some k := by
  unfold absPath
  split
  · exact WindowsAbs_total wd path
  · exact ⟨_, rfl⟩

theorem canonicalPaths_nil {L : Type} (env : Collaborators L) (shell wd : List Nat) :
    canonicalPaths env shell wd [] = [] := rfl

theorem canonicalPaths_cons_empty {L : Type} (env : Collaborators L) (shell wd : List Nat)
    (rest : List (List Nat)) :
    canonicalPaths env shell wd ([] :: rest) = canonicalPaths env shell wd rest := by
  simp [canonicalPaths]

theorem canonicalPaths_cons {L : Type} (env : Collaborators L) (shell wd : List Nat)
    (p k : List Nat) (rest : List (List Nat)) (hp : p ≠ [])
    (hk : absPath env shell wd p = some k) :
    canonicalPaths env shell wd (p :: rest) = k :: canonicalPaths env shell wd rest := by
  simp [canonicalPaths, hp, hk]

theorem canonicalPaths_append {L : Type} (env : Collaborators L) (shell wd : List Nat)
    (a b : List (List Nat)) :
    canonicalPaths env shell wd (a ++ b) =
      canonicalPaths env shell wd a ++ canonicalPaths env shell wd b := by
  simp [canonicalPaths]

theorem fetchFile_eq {L : Type} (env : Collaborators L) (k : List Nat) (tr : List Event) :
    fetchFile env k tr = (fetched env k, tr ++ (fetchFile env k []).2) := by
  unfold fetched fetchFile
  cases env.stat k with
  | none => simp
  | some m =>
    cases env.readFile k with
    | none => simp
    | some c => simp

theorem statPaths_append (a b : List Event) :
    statPaths (a ++ b) = statPaths a ++ statPaths b := by
  simp [statPaths]

theorem analyzePaths_append (a b : List Event) :
    analyzePaths (a ++ b) = analyzePaths a ++ analyzePaths b := by
  simp [analyzePaths]

theorem warnPaths_append (a b : List Event) :
    warnPaths (a ++ b) = warnPaths a ++ warnPaths b := by
  simp [warnPaths]

theorem statPaths_keyEvents {L : Type} (env : Collaborators L) (info : ServerInfo)
    (k : List Nat) : statPaths (keyEvents env info k) = [k] := by
  unfold keyEvents fetched fetchFile
  cases env.stat k with
  | none => simp [statPaths]
  | some m =>
    cases env.readFile k with
    | none => simp [statPaths]
    | some c => simp [statPaths]

theorem analyzePaths_keyEvents {L : Type} (env : Collaborators L) (info : ServerInfo)
    (k : List Nat) :
    analyzePaths (keyEvents env info k) = if (fetched env k).isSome then [k] else [] := by
  unfold keyEvents fetched fetchFile
  cases env.stat k with
  | none => simp [analyzePaths]
  | some m =>
    cases env.readFile k with
    | none => simp [analyzePaths]
    | some c => simp [analyzePaths]

theorem warnPaths_keyEvents {L : Type} (env : Collaborators L) (info : ServerInfo)
    (k : List Nat) :
    warnPaths (keyEvents env info k) = if (fetched env k).isSome then [] else [k] := by
  unfold keyEvents fetched fetchFile
  cases env.stat k with
  | none => simp [warnPaths]
  | some m =>
    cases env.readFile k with
    | none => simp [warnPaths]
    | some c => simp [warnPaths]

theorem isExec_keyEvents {L : Type} (env : Collaborators L) (info : ServerInfo)
    (k : List Nat) : ∀ e ∈ keyEvents env info k, isExec e = false := by
  unfold keyEvents fetched fetchFile
  cases env.stat k with
  | none => simp [isExec]
  | some m =>
    cases env.readFile k with
    | none => simp [isExec]
    | some c => simp [isExec]

theorem statPaths_flatten {L : Type} (env : Collaborators L) (info : ServerInfo)
    (ks : List (List Nat)) : statPaths (ks.map (keyEvents env info)).flatten = ks := by
  induction ks with
  | nil => rfl
  | cons k ks ih =>
    rw [List.map_cons, List.flatten_cons, statPaths_append, statPaths_keyEvents, ih]
    rfl

theorem analyzePaths_flatten {L : Type} (env : Collaborators L) (info : ServerInfo)
    (ks : List (List Nat)) :
    analyzePaths (ks.map (keyEvents env info)).flatten =
      ks.filter (fun k => (fetched env k).isSome) := by
  induction ks with
  | nil => rfl
  | cons k ks ih =>
    rw [List.map_cons, List.flatten_cons, analyzePaths_append, analyzePaths_keyEvents, ih]
    cases h : (fetched env k).isSome <;> simp [h]

theorem warnPaths_flatten {L : Type} (env : Collaborators L) (info : ServerInfo)
    (ks : List (List Nat)) :
    warnPaths (ks.map (keyEvents env info)).flatten =
      ks.filter (fun k => (fetched env k).isNone) := by
  induction ks with
  | nil => rfl
  | cons k ks ih =>
    rw [List.map_cons, List.flatten_cons, warnPaths_append, warnPaths_keyEvents, ih]
    cases h : fetched env k <;> simp [h]

theorem isExec_flatten {L : Type} (env : Collaborators L) (info : ServerInfo)
    (ks : List (List Nat)) :
    ∀ e ∈ (ks.map (keyEvents env info)).flatten, isExec e = false := by
  intro e he
  simp only [List.mem_flatten, List.mem_map] at he
  obtain ⟨l, ⟨k, _, rfl⟩, hel⟩ := he
  exact isExec_keyEvents env info k e hel

theorem statPaths_of_exec (evs : List Event) (h : ∀ e ∈ evs, isExec e = true) :
    statPaths evs = [] ∧ analyzePaths evs = [] ∧ warnPaths evs = [] := by
  induction evs with
  | nil => exact ⟨rfl, rfl, rfl⟩
  | cons e evs ih =>
    have h1 := h e (List.mem_cons_self _ _)
    obtain ⟨i1, i2, i3⟩ := ih (fun e he => h e (List.mem_cons_of_mem _ he))
    cases e <;> simp_all [isExec, statPaths, analyzePaths, warnPaths]

theorem mem_firstOccurrences (ks : List (List Nat)) :
    ∀ (seen : List (List Nat)) (k : List Nat),
      k ∈ firstOccurrences ks seen ↔ k ∈ ks ∧ k ∉ seen := by
  induction ks with
  | nil => intro seen k; simp [firstOccurrences]
  | cons a ks ih =>
    intro seen k
    unfold firstOccurrences
    by_cases ha : a ∈ seen
    · simp only [ha, if_true, ih, List.mem_cons]
      constructor
      · rintro ⟨h1, h2⟩; exact ⟨Or.inr h1, h2⟩
      · rintro ⟨h1 | h1, h2⟩
        · subst h1; exact absurd ha h2
        · exact ⟨h1, h2⟩
    · simp only [ha, if_false, List.mem_cons, ih]
      constructor
      · rintro (h1 | ⟨h1, h2⟩)
        · subst h1; exact ⟨Or.inl rfl, ha⟩
        · exact ⟨Or.inr h1, fun h => h2 (Or.inr h)⟩
      · rintro ⟨h1 | h1, h2⟩
        · exact Or.inl h1
        · by_cases hk : k = a
          · exact Or.inl hk
          · exact Or.inr ⟨h1, fun h => h.elim hk h2⟩

theorem nodup_firstOccurrences (ks : List (List Nat)) :
    ∀ seen : List (List Nat), (firstOccurrences ks seen).Nodup := by
  induction ks with
  | nil => intro seen; simp [firstOccurrences]
  | cons a ks ih =>
    intro seen
    unfold firstOccurrences
    by_cases ha : a ∈ seen
    · simp only [ha, if_true]; exact ih seen
    · simp only [ha, if_false, List.nodup_cons]
      refine ⟨?_, ih _⟩
      rw [mem_firstOccurrences]
      simp

theorem firstOccurrences_sublist (ks : List (List Nat)) :
    ∀ seen : List (List Nat), (firstOccurrences ks seen).Sublist ks := by
  induction ks with
  | nil => intro seen; simp [firstOccurrences]
  | cons a ks ih =>
    intro seen
    unfold firstOccurrences
    by_cases ha : a ∈ seen
    · simp only [ha, if_true]; exact (ih seen).cons _
    · simp only [ha, if_false]; exact (ih _).cons₂ _

theorem firstOccurrences_of_nodup (ks : List (List Nat)) :
    ∀ seen : List (List Nat), ks.Nodup → (∀ k ∈ ks, k ∉ seen) →
      firstOccurrences ks seen = ks := by
  induction ks with
  | nil => intro seen _ _; rfl
  | cons a ks ih =>
    intro seen hnd hdis
    rw [List.nodup_cons] at hnd
    unfold firstOccurrences
    have ha : a ∉ seen := hdis a (List.mem_cons_self _ _)
    simp only [ha, if_false]
    rw [ih (a :: seen) hnd.2]
    intro k hk
    simp only [List.mem_cons, not_or]
    exact ⟨fun h => hnd.1 (h ▸ hk), hdis k (List.mem_cons_of_mem _ hk)⟩

/-- The loop of `scanLibraries` from any point: it returns; it adds to the trace
the events of the keys `ks` it fetched, which are the first occurrences of the
canonical paths not yet in `found`, all of them when the loop ends without an
error and those up to the file the analyser failed on otherwise. -/
theorem scanLoop_spec {L : Type} (env : Collaborators L) (info : ServerInfo)
    (shell wd : List Nat) (cands : List (List Nat)) :
    ∀ (found : List (List Nat)) (st : scanState L),
      ∃ err st' ks,
        scanLoop env info shell wd cands found st = some (err, st') ∧
        st'.trace = st.trace ++ (ks.map (keyEvents env info)).flatten ∧
        ks <+: firstOccurrences (canonicalPaths env shell wd cands) found ∧
        (err = none → ks = firstOccurrences (canonicalPaths env shell wd cands) found) ∧
        (∀ e, err = some e → ∃ msg k, e = scanError.analyzeFailed msg k ∧ k ∈ ks ∧
          analysis env info k = some (Except.error msg)) ∧
        (∀ k ∈ ks, ∀ msg, analysis env info k = some (Except.error msg) →
          err = some (scanError.analyzeFailed msg k)) := by
  induction cands with
  | nil =>
    intro found st
    refine ⟨none, st, [], rfl, by simp, ?_, ?_, ?_, ?_⟩
    · simp [canonicalPaths, firstOccurrences]
    · intro _; simp [canonicalPaths, firstOccurrences]
    · intro e he; cases he
    · intro k hk; cases hk
  | cons p rest ih =>
    intro found st
    by_cases hp : p = []
    · subst hp
      obtain ⟨err, st', ks, h1, h2, h3, h4, h5, h6⟩ := ih found st
      refine ⟨err, st', ks, ?_, h2, ?_, ?_, h5, h6⟩
      · rw [scanLoop]; simpa using h1
      · rw [canonicalPaths_cons_empty]; exact h3
      · rw [canonicalPaths_cons_empty]; exact h4
    · obtain ⟨k, hk⟩ := absPath_total env shell wd p
      rw [canonicalPaths_cons env shell wd p k rest hp hk]
      by_cases hf : k ∈ found
      · obtain ⟨err, st', ks, h1, h2, h3, h4, h5, h6⟩ := ih found st
        refine ⟨err, st', ks, ?_, h2, ?_, ?_, h5, h6⟩
        · rw [scanLoop]; simp only [hp, if_false, hk, hf, if_true]; exact h1
        · simp only [firstOccurrences, hf, if_true]; exact h3
        · simp only [firstOccurrences, hf, if_true]; exact h4
      · have hfo : firstOccurrences (k :: canonicalPaths env shell wd rest) found =
            k :: firstOccurrences (canonicalPaths env shell wd rest) (k :: found) := by
          simp only [firstOccurrences, hf, if_false]
        rw [hfo]
        cases hfe : fetched env k with
        | none =>
          have hke : keyEvents env info k = (fetchFile env k []).2 ++ [Event.warn k] := by
            simp only [keyEvents, hfe]
          have han : analysis env info k = none := by simp [analysis, hfe]
          obtain ⟨err, st', ks, h1, h2, h3, h4, h5, h6⟩ := ih (k :: found)
            { st with trace := (st.trace ++ (fetchFile env k []).2) ++ [Event.warn k] }
          refine ⟨err, st', k :: ks, ?_, ?_, ?_, ?_, ?_, ?_⟩
          · rw [scanLoop]
            simp only [hp, if_false, hk, hf, fetchFile_eq env k st.trace, hfe]
            exact h1
          · rw [h2, List.map_cons, List.flatten_cons, hke]
            simp only [List.append_assoc]
          · exact (List.prefix_cons_inj k).2 h3
          · intro he; rw [h4 he]
          · intro e he
            obtain ⟨msg, k', e1, e2, e3⟩ := h5 e he
            exact ⟨msg, k', e1, List.mem_cons_of_mem _ e2, e3⟩
          · intro k' hk' msg hm
            rcases List.mem_cons.1 hk' with h | h
            · subst h; rw [han] at hm; cases hm
            · exact h6 k' h msg hm
        | some mc =>
          obtain ⟨m, c⟩ := mc
          have hke : keyEvents env info k =
              (fetchFile env k []).2 ++ [Event.analyze k c m info.IsOffline] := by
            simp only [keyEvents, hfe]
          have han : analysis env info k =
              some (env.AnalyzeLibrary k c m info.IsOffline) := by simp [analysis, hfe]
          cases ha : env.AnalyzeLibrary k c m info.IsOffline with
          | error msg =>
            refine ⟨some (scanError.analyzeFailed msg k),
              { st with trace := (st.trace ++ (fetchFile env k []).2) ++
                  [Event.analyze k c m info.IsOffline] }, [k], ?_, ?_, ?_, ?_, ?_, ?_⟩
            · rw [scanLoop]
              simp only [hp, if_false, hk, hf, fetchFile_eq env k st.trace, hfe, ha]
            · simp [hke]
            · exact (List.prefix_cons_inj k).2 List.nil_prefix
            · intro he; cases he
            · intro e he
              cases he
              exact ⟨msg, k, rfl, List.mem_singleton_self k, by rw [han, ha]⟩
            · intro k' hk' msg' hm
              rw [List.mem_singleton] at hk'
              subst hk'
              rw [han, ha] at hm
              cases hm
              rfl
          | ok libs =>
            obtain ⟨err, st', ks, h1, h2, h3, h4, h5, h6⟩ := ih (k :: found)
              { LibraryScanners := st.LibraryScanners ++ libs,
                trace := (st.trace ++ (fetchFile env k []).2) ++
                  [Event.analyze k c m info.IsOffline] }
            refine ⟨err, st', k :: ks, ?_, ?_, ?_, ?_, ?_, ?_⟩
            · rw [scanLoop]
              simp only [hp, if_false, hk, hf, fetchFile_eq env k st.trace, hfe, ha]
              exact h1
            · rw [h2, List.map_cons, List.flatten_cons, hke]
              simp only [List.append_assoc]
            · exact (List.prefix_cons_inj k).2 h3
            · intro he; rw [h4 he]
            · intro e he
              obtain ⟨msg, k', e1, e2, e3⟩ := h5 e he
              exact ⟨msg, k', e1, List.mem_cons_of_mem _ e2, e3⟩
            · intro k' hk' msg hm
              rcases List.mem_cons.1 hk' with h | h
              · subst h; rw [han, ha] at hm; cases hm
              · exact h6 k' h msg hm

/-- What `scanLibraries` does once its two guards are passed and the search
block has given the files to inspect. -/
theorem scanLibraries_pass {L : Type} (env : Collaborators L) (info : ServerInfo)
    (st : scanState L) (h1 : st.LibraryScanners = [])
    (h2 : ¬ (info.Lockfiles = [] ∧ info.FindLock = false)) :
    scanLibraries env info st =
      match searchLockfiles env info (detectShell env st.trace).1 (detectShell env st.trace).2 with
      | none => none
      | some (Except.error err, tr) => some (some err, { st with trace := tr })
      | some (Except.ok detectFiles, tr) =>
        scanLoop env info (detectShell env st.trace).1
          (workingDir env (detectShell env st.trace).1 tr).1 detectFiles []
          { st with trace := (workingDir env (detectShell env st.trace).1 tr).2 } := by
  have g2 : (info.Lockfiles.length = 0 && !info.FindLock) = false := by
    cases hl : info.Lockfiles <;> cases hf : info.FindLock <;> simp_all
  unfold scanLibraries
  simp only [h1, List.length_nil, gt_iff_lt, lt_self_iff_false, if_false, g2,
    Bool.false_eq_true]

theorem detectShell_eq {L : Type} (env : Collaborators L) (tr : List Event) :
    detectShell env tr = (hostShell env, tr ++ (detectShell env []).2) := by
  simp only [hostShell, detectShell, runCmd, List.nil_append]
  split
  · simp
  · split
    · split
      · simp
      · split
        · simp
        · split <;> simp
    · simp

theorem detectShell_exec {L : Type} (env : Collaborators L) :
    ∀ e ∈ (detectShell env []).2, isExec e = true := by
  simp only [detectShell, runCmd, List.nil_append]
  split
  · simp [isExec]
  · split
    · split
      · simp [isExec]
      · split
        · simp [isExec]
        · split <;> simp [isExec]
    · simp [isExec]

theorem workingDir_eq {L : Type} (env : Collaborators L) (shell : List Nat) (tr : List Event) :
    workingDir env shell tr =
      ((workingDir env shell []).1, tr ++ (workingDir env shell []).2) := by
  simp only [workingDir, runCmd, List.nil_append]
  split
  · split <;> simp
  · split
    · split <;> simp
    · split <;> simp

theorem workingDir_exec {L : Type} (env : Collaborators L) (shell : List Nat) :
    ∀ e ∈ (workingDir env shell []).2, isExec e = true := by
  simp only [workingDir, runCmd, List.nil_append]
  split
  · split <;> simp [isExec]
  · split
    · split <;> simp [isExec]
    · split <;> simp [isExec]

/-- The search block without `FindLock`: the declared lock files, no command. -/
theorem searchLockfiles_off {L : Type} (env : Collaborators L) (info : ServerInfo)
    (shell : List Nat) (tr : List Event) (hf : info.FindLock = false) :
    searchLockfiles env info shell tr = some (Except.ok info.Lockfiles, tr) := by
  simp [searchLockfiles, hf]

/-- The search block with `FindLock`, once the command `cmd` is built: the
command is run once, and its exit status decides. -/
theorem searchLockfiles_on {L : Type} (env : Collaborators L) (info : ServerInfo)
    (shell : List Nat) (tr : List Event) (cmd : List Nat) (hf : info.FindLock = true)
    (hcmd : findLockCmd shell info.FindLockDirs env.FindLockFiles = some cmd) :
    searchLockfiles env info shell tr =
      if (env.exec cmd (info.IsFastRoot || info.IsDeep)).ExitStatus ≠ 0 ∧
          (env.exec cmd (info.IsFastRoot || info.IsDeep)).ExitStatus ≠ 1 then
        some (Except.error scanError.findLockFailed,
          tr ++ [Event.exec cmd (info.IsFastRoot || info.IsDeep)])
      else
        some (Except.ok (info.Lockfiles ++
            splitByte 10 (env.exec cmd (info.IsFastRoot || info.IsDeep)).Stdout),
          tr ++ [Event.exec cmd (info.IsFastRoot || info.IsDeep)]) := by
  simp only [searchLockfiles, hf, if_true, hcmd, runCmd]

/-- One pass of `scanLibraries` whose search block gives the candidates
`cands`: the pass returns, runs remote commands first and then the loop, from
the empty set of keys, on `cands`. -/
theorem scanLibraries_run {L : Type} (env : Collaborators L) (info : ServerInfo)
    (st : scanState L) (cands : List (List Nat)) (es : List Event)
    (h1 : st.LibraryScanners = [])
    (h2 : ¬ (info.Lockfiles = [] ∧ info.FindLock = false))
    (hs : searchLockfiles env info (hostShell env) [] = some (Except.ok cands, es))
    (hes : ∀ e ∈ es, isExec e = true) :
    ∃ err st' cmds ks,
      scanLibraries env info st = some (err, st') ∧
      st'.trace = st.trace ++ cmds ++ (ks.map (keyEvents env info)).flatten ∧
      (∀ e ∈ cmds, isExec e = true) ∧
      ks <+: firstOccurrences (canonicalPaths env (hostShell env) (hostWd env) cands) [] ∧
      (err = none →
        ks = firstOccurrences (canonicalPaths env (hostShell env) (hostWd env) cands) []) ∧
      (∀ e, err = some e → ∃ msg k, e = scanError.analyzeFailed msg k ∧ k ∈ ks ∧
        analysis env info k = some (Except.error msg)) ∧
      (∀ k ∈ ks, ∀ msg, analysis env info k = some (Except.error msg) →
        err = some (scanError.analyzeFailed msg k)) := by
  have hs1 : searchLockfiles env info (detectShell env st.trace).1 (detectShell env st.trace).2 =
      some (Except.ok cands, st.trace ++ (detectShell env []).2 ++ es) := by
    rw [detectShell_eq env st.trace]
    simp only
    by_cases hf : info.FindLock = true
    · cases hc : findLockCmd (hostShell env) info.FindLockDirs env.FindLockFiles with
      | none => simp [searchLockfiles, hf, hc] at hs
      | some cmd =>
        rw [searchLockfiles_on env info _ _ cmd hf hc] at hs ⊢
        split at hs
        · simp at hs
        · rename_i hst
          rw [if_neg hst]
          simp only [Option.some.injEq, Prod.mk.injEq, Except.ok.injEq, List.nil_append] at hs
          rw [← hs.1, ← hs.2]
    · have hf0 : info.FindLock = false := by simpa using hf
      rw [searchLockfiles_off env info _ _ hf0] at hs ⊢
      simp only [Option.some.injEq, Prod.mk.injEq, Except.ok.injEq] at hs
      rw [← hs.1, ← hs.2, List.append_nil]
  rw [scanLibraries_pass env info st h1 h2, hs1]
  simp only
  rw [workingDir_eq env (detectShell env st.trace).1, detectShell_eq env st.trace]
  simp only
  obtain ⟨err, st', ks, g1, g2, g3, g4, g5, g6⟩ :=
    scanLoop_spec env info (hostShell env) (hostWd env) cands []
      { st with trace := st.trace ++ (detectShell env []).2 ++ es ++
          (workingDir env (hostShell env) []).2 }
  refine ⟨err, st', (detectShell env []).2 ++ es ++ (workingDir env (hostShell env) []).2, ks,
    g1, ?_, ?_, g3, g4, g5, g6⟩
  · rw [g2]; simp only [List.append_assoc]
  · intro e he
    simp only [List.mem_append] at he
    rcases he with (he | he) | he
    · exact detectShell_exec env e he
    · exact hes e he
    · exact workingDir_exec env _ e he

theorem analyzerFails_iff {L : Type} (env : Collaborators L) (info : ServerInfo)
    (k : List Nat) :
    analyzerFails env info k = true ↔ ∃ msg, analysis env info k = some (Except.error msg) := by
  unfold analyzerFails
  cases h : analysis env info k with
  | none => simp
  | some r => cases r <;> simp

theorem searchLockfiles_exec {L : Type} (env : Collaborators L) (info : ServerInfo)
    (shell : List Nat) (r : Except scanError (List (List Nat))) (es : List Event)
    (hs : searchLockfiles env info shell [] = some (r, es)) : ∀ e ∈ es, isExec e = true := by
  by_cases hf : info.FindLock = true
  · cases hc : findLockCmd shell info.FindLockDirs env.FindLockFiles with
    | none => simp [searchLockfiles, hf, hc] at hs
    | some cmd =>
      rw [searchLockfiles_on env info _ _ cmd hf hc] at hs
      split at hs <;>
      · simp only [Option.some.injEq, Prod.mk.injEq, List.nil_append] at hs
        rw [← hs.2]
        simp [isExec]
  · have hf0 : info.FindLock = false := by simpa using hf
    rw [searchLockfiles_off env info _ _ hf0] at hs
    simp only [Option.some.injEq, Prod.mk.injEq] at hs
    rw [← hs.2]
    simp

theorem searchLockfiles_eq {L : Type} (env : Collaborators L) (info : ServerInfo)
    (shell : List Nat) (tr : List Event) (r : Except scanError (List (List Nat)))
    (es : List Event) (hs : searchLockfiles env info shell [] = some (r, es)) :
    searchLockfiles env info shell tr = some (r, tr ++ es) := by
  by_cases hf : info.FindLock = true
  · cases hc : findLockCmd shell info.FindLockDirs env.FindLockFiles with
    | none => simp [searchLockfiles, hf, hc] at hs
    | some cmd =>
      rw [searchLockfiles_on env info _ _ cmd hf hc] at hs ⊢
      split at hs
      · rename_i hst
        rw [if_pos hst]
        simp only [Option.some.injEq, Prod.mk.injEq, List.nil_append] at hs
        rw [← hs.1, ← hs.2]
      · rename_i hst
        rw [if_neg hst]
        simp only [Option.some.injEq, Prod.mk.injEq, List.nil_append] at hs
        rw [← hs.1, ← hs.2]
  · have hf0 : info.FindLock = false := by simpa using hf
    rw [searchLockfiles_off env info _ _ hf0] at hs ⊢
    simp only [Option.some.injEq, Prod.mk.injEq] at hs
    rw [← hs.1, ← hs.2, List.append_nil]

/-- A pass of `scanLibraries` whose search block fails returns that error right
after the search command. -/
theorem scanLibraries_search_error {L : Type} (env : Collaborators L) (info : ServerInfo)
    (st : scanState L) (err : scanError) (es : List Event)
    (h1 : st.LibraryScanners = [])
    (h2 : ¬ (info.Lockfiles = [] ∧ info.FindLock = false))
    (hs : searchLockfiles env info (hostShell env) [] = some (Except.error err, es)) :
    scanLibraries env info st =
      some (some err, { st with trace := st.trace ++ ((detectShell env []).2 ++ es) }) := by
  rw [scanLibraries_pass env info st h1 h2, detectShell_eq env st.trace]
  simp only
  rw [searchLockfiles_eq env info _ _ _ _ hs]
  simp only [List.append_assoc]

/-- A pass of `scanLibraries` whose search block gives the candidates `cands`
is the loop on `cands`, from the empty set of keys, with the dialect and the
working directory of the host. -/
theorem scanLibraries_eq_scanLoop {L : Type} (env : Collaborators L) (info : ServerInfo)
    (st : scanState L) (cands : List (List Nat)) (es : List Event)
    (h1 : st.LibraryScanners = [])
    (h2 : ¬ (info.Lockfiles = [] ∧ info.FindLock = false))
    (hs : searchLockfiles env info (hostShell env) [] = some (Except.ok cands, es)) :
    scanLibraries env info st =
      scanLoop env info (hostShell env) (hostWd env) cands []
        { st with trace := st.trace ++
            ((detectShell env []).2 ++ es ++ (workingDir env (hostShell env) []).2) } := by
  rw [scanLibraries_pass env info st h1 h2, detectShell_eq env st.trace]
  simp only
  rw [searchLockfiles_eq env info _ _ _ _ hs]
  simp only
  rw [workingDir_eq env (hostShell env)]
  simp only [hostWd, List.append_assoc]

theorem firstOccurrences_congr (ks : List (List Nat)) :
    ∀ s1 s2 : List (List Nat), (∀ x, x ∈ s1 ↔ x ∈ s2) →
      firstOccurrences ks s1 = firstOccurrences ks s2 := by
  induction ks with
  | nil => intro s1 s2 _; rfl
  | cons a ks ih =>
    intro s1 s2 h
    unfold firstOccurrences
    by_cases ha : a ∈ s1
    · have ha2 : a ∈ s2 := (h a).1 ha
      simp only [ha, ha2, if_true]
      exact ih s1 s2 h
    · have ha2 : a ∉ s2 := fun h2 => ha ((h a).2 h2)
      simp only [ha, ha2, if_false]
      rw [ih (a :: s1) (a :: s2)]
      intro x
      simp only [List.mem_cons, h x]

theorem firstOccurrences_cons (k : List Nat) (ks seen : List (List Nat)) :
    firstOccurrences (k :: ks) seen =
      if k ∈ seen then firstOccurrences ks seen else k :: firstOccurrences ks (k :: seen) := by
  rw [firstOccurrences]

theorem firstOccurrences_append (a : List (List Nat)) :
    ∀ (seen b : List (List Nat)),
      firstOccurrences (a ++ b) seen =
        firstOccurrences a seen ++ firstOccurrences b (a ++ seen) := by
  induction a with
  | nil => intro seen b; simp [firstOccurrences]
  | cons x a ih =>
    intro seen b
    rw [List.cons_append, firstOccurrences_cons x (a ++ b) seen, firstOccurrences_cons x a seen]
    by_cases hx : x ∈ seen
    · simp only [hx, if_true]
      rw [ih seen b]
      congr 1
      apply firstOccurrences_congr
      intro y
      simp only [List.mem_append, List.mem_cons]
      constructor
      · intro h; rcases h with h | h
        · exact Or.inl (Or.inr h)
        · exact Or.inr h
      · intro h; rcases h with (h | h) | h
        · subst h; exact Or.inr hx
        · exact Or.inl h
        · exact Or.inr h
    · simp only [hx, if_false]
      rw [ih (x :: seen) b, List.cons_append]
      congr 2
      apply firstOccurrences_congr
      intro y
      simp only [List.mem_append, List.mem_cons]
      tauto

theorem firstOccurrences_at_first (pre post : List (List Nat)) (k : List Nat)
    (hk : k ∉ pre) :
    firstOccurrences (pre ++ k :: post) [] =
      firstOccurrences pre [] ++ k :: firstOccurrences post (k :: (pre ++ [])) := by
  rw [firstOccurrences_append]
  congr 1
  have : k ∉ pre ++ [] := by simpa using hk
  simp only [firstOccurrences, this, if_false]

theorem mem_of_prefix_firstOccurrences {ks K : List (List Nat)}
    (h : ks <+: firstOccurrences K []) : ∀ k ∈ ks, k ∈ K := by
  intro k hk
  exact ((mem_firstOccurrences K [] k).1 (h.subset hk)).1

/-! ## The claims on `scanLibraries` -/

/-- C14. Dialect detection is the first-match decision table over the probes
`uname`, `echo $env:OS` and `Get-ChildItem env:OS`; every combination of probe
results gives one of the four dialect names, none an error. -/
theorem detectShell_table {L : Type} (env : Collaborators L) (tr : List Event) :
    (env.isSuccess (env.exec (ascii "uname") false) = true →
        (detectShell env tr).1 = ascii "linux/unix") ∧
      (env.isSuccess (env.exec (ascii "uname") false) = false →
        (env.isSuccess (env.exec (ascii "echo $env:OS") false) = false →
          (detectShell env tr).1 = ascii "unknown") ∧
        (env.isSuccess (env.exec (ascii "echo $env:OS") false) = true →
          (env.TrimSpace (env.exec (ascii "echo $env:OS") false).Stdout = ascii "$env:OS" →
            (detectShell env tr).1 = ascii "cmd.exe") ∧
          (env.TrimSpace (env.exec (ascii "echo $env:OS") false).Stdout = ascii "Windows_NT" →
            (detectShell env tr).1 = ascii "powershell") ∧
          (env.TrimSpace (env.exec (ascii "echo $env:OS") false).Stdout ≠ ascii "$env:OS" →
            env.TrimSpace (env.exec (ascii "echo $env:OS") false).Stdout ≠
              ascii "Windows_NT" →
            (env.isSuccess (env.exec (ascii "Get-ChildItem env:OS") false) = true →
              (detectShell env tr).1 = ascii "powershell") ∧
            (env.isSuccess (env.exec (ascii "Get-ChildItem env:OS") false) = false →
              (detectShell env tr).1 = ascii "unknown")))) ∧
      (detectShell env tr).1 ∈
        [ascii "linux/unix", ascii "cmd.exe", ascii "powershell", ascii "unknown"] := by
  have hne : ascii "Windows_NT" ≠ ascii "$env:OS" := by decide
  refine ⟨?_, ?_, ?_⟩
  · intro h; simp [detectShell, runCmd, h]
  · intro h
    refine ⟨?_, ?_⟩
    · intro h2; simp [detectShell, runCmd, h, h2]
    · intro h2
      refine ⟨?_, ?_, ?_⟩
      · intro h3; simp [detectShell, runCmd, h, h2, h3]
      · intro h3; simp [detectShell, runCmd, h, h2, h3, hne]
      · intro h3 h4
        refine ⟨?_, ?_⟩
        · intro h5; simp [detectShell, runCmd, h, h2, h3, h4, h5]
        · intro h5; simp [detectShell, runCmd, h, h2, h3, h4, h5]
  · simp only [detectShell, runCmd]
    split
    · simp
    · split
      · split
        · simp
        · split
          · simp
          · split <;> simp
      · simp

/-- C14, on a host where `uname` fails and `echo $env:OS` prints the text
unexpanded: the dialect is `cmd.exe`. -/
theorem detectShell_table_witness :
    (detectShell
      ({ silentHost with
          exec := fun cmd _ =>
            if cmd = ascii "echo $env:OS" then
              { Stdout := ascii "$env:OS", ExitStatus := 0 }
            else { Stdout := [], ExitStatus := 1 } } : Collaborators Nat) []).1 =
      ascii "cmd.exe" :=
  ((((detectShell_table
      ({ silentHost with
          exec := fun cmd _ =>
            if cmd = ascii "echo $env:OS" then
              { Stdout := ascii "$env:OS", ExitStatus := 0 }
            else { Stdout := [], ExitStatus := 1 } } : Collaborators Nat) []).2.1
    (by decide)).2 (by decide)).1 (by decide))

/-- C15. Already-populated guard: when `LibraryScanners` is not empty on
entry, or when no lock file is declared and `FindLock` is off, `scanLibraries`
returns nil and leaves the state as it was: no remote command, no stat, read
or analyse call, `LibraryScanners` unchanged. -/
theorem scanLibraries_guard {L : Type} (env : Collaborators L) (info : ServerInfo)
    (st : scanState L)
    (h : st.LibraryScanners ≠ [] ∨ (info.Lockfiles = [] ∧ info.FindLock = false)) :
    scanLibraries env info st = some (none, st) := by
  unfold scanLibraries
  by_cases h1 : st.LibraryScanners.length > 0
  · simp [h1]
  · have hnil : st.LibraryScanners = [] := List.eq_nil_of_length_eq_zero (by omega)
    rcases h with h | ⟨hl, hf⟩
    · exact absurd hnil h
    · simp [h1, hl, hf]

/-- C15, on the sample host with one library scanner already present. -/
theorem scanLibraries_guard_witness :
    scanLibraries (sampleHost 0 (ascii "/x/yarn.lock") [] []) (sampleServer [ascii "/a"] true)
        { LibraryScanners := [7], trace := [] } =
      some (none, { LibraryScanners := [7], trace := [] }) :=
  scanLibraries_guard _ _ _ (Or.inl (by decide))

/-- C16. Scenario B: `WindowsAbs` of `C:\Users\u` and `..\..\pkg\yarn.lock`
is `C:\pkg\yarn.lock`. -/
theorem WindowsAbs_scenario_B :
    WindowsAbs (ascii "C:\\Users\\u") (ascii "..\\..\\pkg\\yarn.lock") =
      some (ascii "C:\\pkg\\yarn.lock") := by
  decide

/-- C17. Working-directory fallback: the working directory is the trimmed
output of the dialect's probe when the probe succeeds, and otherwise `C:\` for
`cmd.exe` and PowerShell and `/` for any other dialect; it is the directory
the loop of `scanLibraries` resolves with, and a failed probe returns no
error. -/
theorem workingDir_table {L : Type} (env : Collaborators L) (info : ServerInfo)
    (shell : List Nat) (tr : List Event) :
    (shell = ascii "cmd.exe" →
        (workingDir env shell tr).1 =
          if env.isSuccess (env.exec (ascii ("powershell.exe -NoProfile -NonInteractive " ++
              "\"Get-Location | Select-object -ExpandProperty Path\"")) false) then
            env.TrimSpace (env.exec (ascii ("powershell.exe -NoProfile -NonInteractive " ++
              "\"Get-Location | Select-object -ExpandProperty Path\"")) false).Stdout
          else ascii "C:\\") ∧
      (shell = ascii "powershell" →
        (workingDir env shell tr).1 =
          if env.isSuccess
              (env.exec (ascii "Get-Location | Select-object -ExpandProperty Path") false) then
            env.TrimSpace
              (env.exec (ascii "Get-Location | Select-object -ExpandProperty Path") false).Stdout
          else ascii "C:\\") ∧
      (shell ≠ ascii "cmd.exe" → shell ≠ ascii "powershell" →
        (workingDir env shell tr).1 =
          if env.isSuccess (env.exec (ascii "pwd") false) then
            env.TrimSpace (env.exec (ascii "pwd") false).Stdout
          else ascii "/") ∧
      ∀ st : scanState L, st.LibraryScanners = [] →
        ¬ (info.Lockfiles = [] ∧ info.FindLock = false) →
        ∀ detectFiles tr1,
          searchLockfiles env info (detectShell env st.trace).1 (detectShell env st.trace).2 =
            some (Except.ok detectFiles, tr1) →
          scanLibraries env info st =
            scanLoop env info (detectShell env st.trace).1
              (workingDir env (detectShell env st.trace).1 tr1).1 detectFiles []
              { st with trace := (workingDir env (detectShell env st.trace).1 tr1).2 } := by
  have hne : ascii "powershell" ≠ ascii "cmd.exe" := by decide
  refine ⟨?_, ?_, ?_, ?_⟩
  · intro h
    subst h
    simp only [workingDir, runCmd, if_true]
    split <;> rfl
  · intro h
    subst h
    simp only [workingDir, runCmd, hne, if_false, if_true]
    split <;> rfl
  · intro h1 h2
    simp only [workingDir, runCmd, h1, h2, if_false]
    split <;> rfl
  · intro st h1 h2 detectFiles tr1 hs
    rw [scanLibraries_pass env info st h1 h2, hs]

/-- C17, on the host where every probe fails: the dialect is unknown and the
declared lock file `a.lock` is resolved from `/`. -/
theorem workingDir_table_witness :
    (workingDir silentHost (ascii "unknown") []).1 = ascii "/" ∧
      (workingDir silentHost (ascii "powershell") []).1 = ascii "C:\\" ∧
      scanLibraries silentHost (sampleServer [ascii "a.lock"] false)
          { LibraryScanners := [], trace := [] } =
        scanLoop silentHost (sampleServer [ascii "a.lock"] false) (ascii "unknown") (ascii "/")
          [ascii "a.lock"] []
          { LibraryScanners := [],
            trace := [Event.exec (ascii "uname") false, Event.exec (ascii "echo $env:OS") false,
              Event.exec (ascii "pwd") false] } :=
  ⟨((workingDir_table silentHost (sampleServer [] false) (ascii "unknown") []).2.2.1
      (by decide) (by decide)).trans (by decide),
    by decide,
    ((workingDir_table silentHost (sampleServer [ascii "a.lock"] false) (ascii "unknown")
      []).2.2.2 { LibraryScanners := [], trace := [] } rfl (by decide) [ascii "a.lock"]
      [Event.exec (ascii "uname") false, Event.exec (ascii "echo $env:OS") false]
      rfl).trans (by decide)⟩

/-- C11, as stated, fails: on the sample host the search command ends with
exit status 1 and prints nothing, and `scanLibraries` still returns an error,
the failure of the analyser on the declared lock file `/a`. -/
theorem scanLibraries_status_one_with_error :
    (findLockCmd (hostShell (sampleHost 1 [] [] [ascii "/a"])) [] sampleLockFiles).map
        (fun cmd => (sampleHost 1 [] [] [ascii "/a"]).exec cmd false) =
      some { Stdout := [], ExitStatus := 1 } ∧
    (scanLibraries (sampleHost 1 [] [] [ascii "/a"]) (sampleServer [ascii "/a"] true)
        { LibraryScanners := [], trace := [] }).map Prod.fst =
      some (some (scanError.analyzeFailed (ascii "parse error") (ascii "/a"))) := by
  constructor
  · decide
  · decide

/-- C11, amended. With `FindLock` on, `LibraryScanners` empty on entry and the
search command built, `scanLibraries` returns; it returns the error "Failed to
find lock files" if and only if the exit status of the command is neither 0
nor 1, and then every call it made is a remote command (no stat, read or
analyse call). With exit status 1 and empty output it does not return that
error, every path it fetches or analyses is the canonical path of a declared
lock file, and it returns no error at all unless the analyser fails on a
declared lock file. -/
theorem scanLibraries_search_gate {L : Type} (env : Collaborators L) (info : ServerInfo)
    (st : scanState L) (cmd : List Nat)
    (h1 : st.LibraryScanners = []) (hf : info.FindLock = true)
    (hcmd : findLockCmd (hostShell env) info.FindLockDirs env.FindLockFiles = some cmd) :
    ∃ err st' evs,
      scanLibraries env info st = some (err, st') ∧ st'.trace = st.trace ++ evs ∧
      (err = some scanError.findLockFailed ↔
        ((env.exec cmd (info.IsFastRoot || info.IsDeep)).ExitStatus ≠ 0 ∧
          (env.exec cmd (info.IsFastRoot || info.IsDeep)).ExitStatus ≠ 1)) ∧
      (((env.exec cmd (info.IsFastRoot || info.IsDeep)).ExitStatus ≠ 0 ∧
          (env.exec cmd (info.IsFastRoot || info.IsDeep)).ExitStatus ≠ 1) →
        ∀ e ∈ evs, isExec e = true) ∧
      ((env.exec cmd (info.IsFastRoot || info.IsDeep)).ExitStatus = 1 →
        (env.exec cmd (info.IsFastRoot || info.IsDeep)).Stdout = [] →
        err ≠ some scanError.findLockFailed ∧
        (∀ k ∈ statPaths evs,
          k ∈ canonicalPaths env (hostShell env) (hostWd env) info.Lockfiles) ∧
        (∀ k ∈ analyzePaths evs,
          k ∈ canonicalPaths env (hostShell env) (hostWd env) info.Lockfiles) ∧
        ((∀ k ∈ canonicalPaths env (hostShell env) (hostWd env) info.Lockfiles,
            analyzerFails env info k = false) → err = none)) := by
  have h2 : ¬ (info.Lockfiles = [] ∧ info.FindLock = false) := by simp [hf]
  have hs := searchLockfiles_on env info (hostShell env) [] cmd hf hcmd
  by_cases hst : (env.exec cmd (info.IsFastRoot || info.IsDeep)).ExitStatus ≠ 0 ∧
      (env.exec cmd (info.IsFastRoot || info.IsDeep)).ExitStatus ≠ 1
  · rw [if_pos hst] at hs
    refine ⟨_, _, _, scanLibraries_search_error env info st _ _ h1 h2 hs, rfl, ?_, ?_, ?_⟩
    · simp [hst]
    · intro _ e he
      rcases List.mem_append.1 he with he | he
      · exact detectShell_exec env e he
      · exact searchLockfiles_exec env info _ _ _ hs e he
    · intro e1 _
      exact absurd e1 hst.2
  · rw [if_neg hst] at hs
    obtain ⟨err, st', cmds, ks, g1, g2, g3, g4, g5, g6, g7⟩ :=
      scanLibraries_run env info st _ _ h1 h2 hs (searchLockfiles_exec env info _ _ _ hs)
    obtain ⟨c1, c2, c3⟩ := statPaths_of_exec cmds g3
    have hstat : statPaths (cmds ++ (ks.map (keyEvents env info)).flatten) = ks := by
      rw [statPaths_append, c1, statPaths_flatten, List.nil_append]
    have han : analyzePaths (cmds ++ (ks.map (keyEvents env info)).flatten) =
        ks.filter (fun k => (fetched env k).isSome) := by
      rw [analyzePaths_append, c2, analyzePaths_flatten, List.nil_append]
    have hne : err ≠ some scanError.findLockFailed := by
      intro he
      obtain ⟨msg, k, e1, _, _⟩ := g6 _ he
      cases e1
    refine ⟨err, st', cmds ++ (ks.map (keyEvents env info)).flatten, g1, ?_, ?_, ?_, ?_⟩
    · rw [g2, List.append_assoc]
    · exact ⟨fun he => absurd he hne, fun h => absurd h hst⟩
    · intro h; exact absurd h hst
    · intro e1 e2
      rw [e2] at g4 g5
      have hK : canonicalPaths env (hostShell env) (hostWd env)
          (info.Lockfiles ++ splitByte 10 []) =
          canonicalPaths env (hostShell env) (hostWd env) info.Lockfiles := by
        rw [canonicalPaths_append]
        have : splitByte 10 [] = [[]] := rfl
        rw [this, canonicalPaths_cons_empty, canonicalPaths_nil, List.append_nil]
      rw [hK] at g4 g5
      refine ⟨hne, ?_, ?_, ?_⟩
      · rw [hstat]; exact mem_of_prefix_firstOccurrences g4
      · rw [han]
        intro k hk
        exact mem_of_prefix_firstOccurrences g4 k (List.mem_filter.1 hk).1
      · intro hall
        cases herr : err with
        | none => rfl
        | some e =>
          obtain ⟨msg, k, _, e2, e3⟩ := g6 e herr
          have := hall k (mem_of_prefix_firstOccurrences g4 k e2)
          rw [← Bool.not_eq_true, analyzerFails_iff] at this
          exact absurd ⟨msg, e3⟩ this

/-- C11, amended, on the sample host with exit status 2: the error is
"Failed to find lock files" and the pass made remote commands only. -/
theorem scanLibraries_search_gate_witness :
    ∃ err st' evs,
      scanLibraries (sampleHost 2 [] [] []) (sampleServer [ascii "/a"] true)
          { LibraryScanners := [], trace := [] } = some (err, st') ∧
        st'.trace = [] ++ evs ∧ err = some scanError.findLockFailed ∧
        ∀ e ∈ evs, isExec e = true := by
  obtain ⟨err, st', evs, g1, g2, g3, g4, _⟩ :=
    scanLibraries_search_gate (sampleHost 2 [] [] []) (sampleServer [ascii "/a"] true)
      { LibraryScanners := [], trace := [] }
      (ascii ("find / -type f -and \\( -name \"package-lock.json\" -o -name \"yarn.lo \\) " ++
        "2>&1 | grep -v \"find: \""))
      rfl rfl (by decide)
  exact ⟨err, st', evs, g1, g2, g3.2 (by decide), g4 (by decide)⟩

/-- C12, as stated, fails: `a` and `/home/u/a` are two raw strings with the
canonical path `/home/u/a`, and the pass fetches that path not once but never,
because the analyser fails on the earlier candidate `bad` and ends the pass. -/
theorem scanLibraries_fetches_none_after_failure :
    canonicalPaths (sampleHost 0 [] [] [ascii "/home/u/bad"])
        (hostShell (sampleHost 0 [] [] [ascii "/home/u/bad"]))
        (hostWd (sampleHost 0 [] [] [ascii "/home/u/bad"]))
        [ascii "bad", ascii "a", ascii "/home/u/a"] =
      [ascii "/home/u/bad", ascii "/home/u/a", ascii "/home/u/a"] ∧
    (scanLibraries (sampleHost 0 [] [] [ascii "/home/u/bad"])
        (sampleServer [ascii "bad", ascii "a", ascii "/home/u/a"] false)
        { LibraryScanners := [], trace := [] }).map
        (fun r => (r.1, statPaths r.2.trace)) =
      some (some (scanError.analyzeFailed (ascii "parse error") (ascii "/home/u/bad")),
        [ascii "/home/u/bad"]) := by
  constructor
  · decide
  · decide

/-- C12, amended. The loop of `scanLibraries` returns for every candidate list,
working directory and dialect; the paths it fetches are pairwise distinct
canonical paths of the candidates, so are the paths it hands to the analyser,
and the fetches are a prefix of the first occurrences of the canonical paths.
When no analyser failure ends the pass, every canonical path is fetched (so
exactly once), and a path whose first occurrence is the candidate `p` is fetched right
after the paths of the candidates before `p`. A pass of `scanLibraries` whose
search block gives the candidates is this loop, started with no key seen. -/
theorem scanLoop_dedup {L : Type} (env : Collaborators L) (info : ServerInfo)
    (shell wd : List Nat) (cands : List (List Nat)) (st : scanState L) :
    (∃ err st' evs,
      scanLoop env info shell wd cands [] st = some (err, st') ∧
      st'.trace = st.trace ++ evs ∧
      (statPaths evs).Nodup ∧ (analyzePaths evs).Nodup ∧
      (∀ k ∈ statPaths evs, k ∈ canonicalPaths env shell wd cands) ∧
      (analyzePaths evs).Sublist (statPaths evs) ∧
      statPaths evs <+: firstOccurrences (canonicalPaths env shell wd cands) [] ∧
      (err = none →
        (∀ k ∈ canonicalPaths env shell wd cands, k ∈ statPaths evs) ∧
        ∀ pre p post k, cands = pre ++ p :: post → p ≠ [] → absPath env shell wd p = some k →
          k ∉ canonicalPaths env shell wd pre →
          ∃ later, statPaths evs =
            firstOccurrences (canonicalPaths env shell wd pre) [] ++ k :: later)) ∧
    ∀ (st0 : scanState L) (es : List Event), st0.LibraryScanners = [] →
      ¬ (info.Lockfiles = [] ∧ info.FindLock = false) →
      searchLockfiles env info (hostShell env) [] = some (Except.ok cands, es) →
      ∃ tr, scanLibraries env info st0 =
        scanLoop env info (hostShell env) (hostWd env) cands [] { st0 with trace := tr } := by
  refine ⟨?_, fun st0 es h1 h2 hs => ⟨_, scanLibraries_eq_scanLoop env info st0 cands es h1 h2 hs⟩⟩
  obtain ⟨err, st', ks, g1, g2, g3, g4, _, _⟩ := scanLoop_spec env info shell wd cands [] st
  have hnd : ks.Nodup := (nodup_firstOccurrences _ _).sublist g3.sublist
  refine ⟨err, st', (ks.map (keyEvents env info)).flatten, g1, g2, ?_, ?_, ?_, ?_, ?_, ?_⟩
  · rw [statPaths_flatten]; exact hnd
  · rw [analyzePaths_flatten]; exact hnd.filter _
  · rw [statPaths_flatten]; exact mem_of_prefix_firstOccurrences g3
  · rw [statPaths_flatten, analyzePaths_flatten]; exact List.filter_sublist _
  · rw [statPaths_flatten]; exact g3
  · intro he
    rw [statPaths_flatten, g4 he]
    refine ⟨?_, ?_⟩
    · intro k hk
      exact (mem_firstOccurrences _ _ _).2 ⟨hk, List.not_mem_nil _⟩
    · intro pre p post k hc hp hk hpre
      subst hc
      rw [canonicalPaths_append, canonicalPaths_cons env shell wd p k post hp hk,
        firstOccurrences_at_first _ _ _ hpre]
      exact ⟨_, rfl⟩

/-- C12, amended, on the sample host: of `a`, `b` and `/home/u/a` the loop
fetches at most `/home/u/a`, at the position of `a`, and then `/home/u/b`; and
the pass of `scanLibraries` on these declared lock files is this loop. -/
theorem scanLoop_dedup_witness :
    (∃ err st' evs,
      scanLoop (sampleHost 0 [] [] []) (sampleServer [] false) (ascii "linux/unix")
          (ascii "/home/u") [ascii "a", ascii "b", ascii "/home/u/a"] []
          { LibraryScanners := [], trace := [] } = some (err, st') ∧
        st'.trace = [] ++ evs ∧
        statPaths evs <+: [ascii "/home/u/a", ascii "/home/u/b"]) ∧
    ∃ tr, scanLibraries (sampleHost 0 [] [] [])
        (sampleServer [ascii "a", ascii "b", ascii "/home/u/a"] false)
        { LibraryScanners := [], trace := [] } =
      scanLoop (sampleHost 0 [] [] [])
        (sampleServer [ascii "a", ascii "b", ascii "/home/u/a"] false)
        (ascii "linux/unix") (ascii "/home/u") [ascii "a", ascii "b", ascii "/home/u/a"] []
        { LibraryScanners := [], trace := tr } := by
  constructor
  · obtain ⟨err, st', evs, g1, g2, _, _, _, _, g7, _⟩ :=
      (scanLoop_dedup (sampleHost 0 [] [] []) (sampleServer [] false) (ascii "linux/unix")
        (ascii "/home/u") [ascii "a", ascii "b", ascii "/home/u/a"]
        { LibraryScanners := [], trace := [] }).1
    have hK : firstOccurrences
        (canonicalPaths (sampleHost 0 [] [] []) (ascii "linux/unix") (ascii "/home/u")
          [ascii "a", ascii "b", ascii "/home/u/a"]) [] =
        [ascii "/home/u/a", ascii "/home/u/b"] := by decide
    rw [hK] at g7
    exact ⟨err, st', evs, g1, g2, g7⟩
  · exact (scanLoop_dedup (sampleHost 0 [] [] [])
      (sampleServer [ascii "a", ascii "b", ascii "/home/u/a"] false) [] []
      [ascii "a", ascii "b", ascii "/home/u/a"] { LibraryScanners := [], trace := [] }).2
      { LibraryScanners := [], trace := [] } [] rfl (by decide) rfl

theorem filter_eq_singleton_of_nodup (ks : List (List Nat)) (bad : List Nat)
    (hnd : ks.Nodup) (hb : bad ∈ ks) : ks.filter (fun k => decide (k = bad)) = [bad] := by
  induction ks with
  | nil => cases hb
  | cons a ks ih =>
    rw [List.nodup_cons] at hnd
    by_cases hab : a = bad
    · subst hab
      rw [List.filter_cons_of_pos (by simp)]
      congr 1
      rw [List.filter_eq_nil_iff]
      intro x hx
      simp only [decide_eq_true_eq]
      intro hxa
      exact hnd.1 (hxa ▸ hx)
    · rw [List.filter_cons_of_neg (by simpa using hab)]
      rcases List.mem_cons.1 hb with h | h
      · exact absurd h.symm hab
      · exact ih hnd.2 h

/-- The fetch of a file fails exactly when `os.Stat` or `os.ReadFile` fails. -/
theorem fetched_eq_none_iff {L : Type} (env : Collaborators L) (k : List Nat) :
    fetched env k = none ↔ env.stat k = none ∨ env.readFile k = none := by
  unfold fetched fetchFile
  cases env.stat k with
  | none => simp
  | some m =>
    cases env.readFile k with
    | none => simp
    | some c => simp

/-- The fetch of a file gives the mode of `os.Stat` and the contents of
`os.ReadFile`. -/
theorem fetched_eq_some_iff {L : Type} (env : Collaborators L) (k : List Nat) (m : Nat)
    (c : List Nat) :
    fetched env k = some (m, c) ↔ env.stat k = some m ∧ env.readFile k = some c := by
  unfold fetched fetchFile
  cases env.stat k with
  | none => simp
  | some m' =>
    cases env.readFile k with
    | none => simp
    | some c' => simp

theorem fetched_isSome_iff {L : Type} (env : Collaborators L) (k : List Nat) :
    (fetched env k).isSome = true ↔
      (env.stat k).isSome = true ∧ (env.readFile k).isSome = true := by
  unfold fetched fetchFile
  cases env.stat k with
  | none => simp
  | some m' =>
    cases env.readFile k with
    | none => simp
    | some c' => simp

/-- The analyser fails on a file exactly when the file is fetched and
`AnalyzeLibrary`, called with its mode and contents, returns an error. -/
theorem analysis_error_iff {L : Type} (env : Collaborators L) (info : ServerInfo)
    (k msg : List Nat) :
    analysis env info k = some (Except.error msg) ↔
      ∃ m c, env.stat k = some m ∧ env.readFile k = some c ∧
        env.AnalyzeLibrary k c m info.IsOffline = Except.error msg := by
  unfold analysis
  cases hf : fetched env k with
  | none =>
    rcases (fetched_eq_none_iff env k).1 hf with h | h
    · simp [h]
    · simp [h]
  | some mc =>
    obtain ⟨m, c⟩ := mc
    obtain ⟨h1, h2⟩ := (fetched_eq_some_iff env k m c).1 hf
    simp [h1, h2]

theorem readPaths_append (a b : List Event) :
    readPaths (a ++ b) = readPaths a ++ readPaths b := by
  simp [readPaths]

theorem readPaths_keyEvents {L : Type} (env : Collaborators L) (info : ServerInfo)
    (k : List Nat) :
    readPaths (keyEvents env info k) = if (env.stat k).isSome then [k] else [] := by
  unfold keyEvents fetched fetchFile
  cases env.stat k with
  | none => simp [readPaths]
  | some m =>
    cases env.readFile k with
    | none => simp [readPaths]
    | some c => simp [readPaths]

theorem readPaths_flatten {L : Type} (env : Collaborators L) (info : ServerInfo)
    (ks : List (List Nat)) :
    readPaths (ks.map (keyEvents env info)).flatten =
      ks.filter (fun k => (env.stat k).isSome) := by
  induction ks with
  | nil => rfl
  | cons k ks ih =>
    rw [List.map_cons, List.flatten_cons, readPaths_append, readPaths_keyEvents, ih]
    cases h : (env.stat k).isSome <;> simp [h]

theorem readPaths_of_exec (evs : List Event) (h : ∀ e ∈ evs, isExec e = true) :
    readPaths evs = [] := by
  induction evs with
  | nil => rfl
  | cons e evs ih =>
    have h1 := h e (List.mem_cons_self _ _)
    have := ih (fun e he => h e (List.mem_cons_of_mem _ he))
    cases e <;> simp_all [isExec, readPaths]

/-- A call of the analyser in the events of a key is made on that key, with the
mode `os.Stat` gave and the contents `os.ReadFile` gave. -/
theorem analyze_mem_keyEvents {L : Type} (env : Collaborators L) (info : ServerInfo)
    (k k' c : List Nat) (m : Nat) (o : Bool)
    (h : Event.analyze k' c m o ∈ keyEvents env info k) :
    k' = k ∧ env.stat k = some m ∧ env.readFile k = some c ∧ o = info.IsOffline := by
  unfold keyEvents fetched fetchFile at h
  cases hs : env.stat k with
  | none => simp [hs] at h
  | some m' =>
    cases hr : env.readFile k with
    | none => simp [hs, hr] at h
    | some c' =>
      simp [hs, hr] at h
      obtain ⟨e1, e2, e3, e4⟩ := h
      subst e1; subst e2; subst e3; subst e4
      exact ⟨rfl, rfl, rfl, rfl⟩

/-- C13. Fetch fault tolerance. A pass of `scanLibraries` over the candidates
`cands` returns. When the canonical paths of the candidates are pairwise
distinct, `os.Stat` or `os.ReadFile` fails on exactly one of them, `bad`, and
`AnalyzeLibrary` returns no error on any of them, the pass returns no error,
calls `os.Stat` on every path, hands to the analyser exactly the other paths, in
candidate order (one fewer than the candidates), and logs one warning, for
`bad`. Whatever the candidates: the pass returns no error when
`AnalyzeLibrary` returns no error on any of them (a failure of `os.Stat` or
`os.ReadFile` is never an error); an error it returns is the error
`AnalyzeLibrary` returned on a file handed to it; an error `AnalyzeLibrary`
returns on a file handed to it is returned; a file is read exactly when its
`os.Stat` succeeded; and every call of the analyser is made with the mode that
`os.Stat` and the contents that `os.ReadFile` gave for that path. -/
theorem scanLibraries_fetch_fault_tolerance {L : Type} (env : Collaborators L)
    (info : ServerInfo) (st : scanState L) (cands : List (List Nat)) (es : List Event)
    (h1 : st.LibraryScanners = [])
    (h2 : ¬ (info.Lockfiles = [] ∧ info.FindLock = false))
    (hs : searchLockfiles env info (hostShell env) [] = some (Except.ok cands, es)) :
    ∃ err st' evs,
      scanLibraries env info st = some (err, st') ∧ st'.trace = st.trace ++ evs ∧
      (∀ bad, (canonicalPaths env (hostShell env) (hostWd env) cands).Nodup →
        bad ∈ canonicalPaths env (hostShell env) (hostWd env) cands →
        (env.stat bad = none ∨ env.readFile bad = none) →
        (∀ k ∈ canonicalPaths env (hostShell env) (hostWd env) cands, k ≠ bad →
          (env.stat k).isSome = true ∧ (env.readFile k).isSome = true) →
        (∀ k ∈ canonicalPaths env (hostShell env) (hostWd env) cands, ∀ m c msg,
          env.stat k = some m → env.readFile k = some c →
          env.AnalyzeLibrary k c m info.IsOffline ≠ Except.error msg) →
        err = none ∧
        statPaths evs = canonicalPaths env (hostShell env) (hostWd env) cands ∧
        analyzePaths evs =
          (canonicalPaths env (hostShell env) (hostWd env) cands).filter (fun k => k ≠ bad) ∧
        (analyzePaths evs).length + 1 =
          (canonicalPaths env (hostShell env) (hostWd env) cands).length ∧
        warnPaths evs = [bad]) ∧
      ((∀ k ∈ canonicalPaths env (hostShell env) (hostWd env) cands, ∀ m c msg,
          env.stat k = some m → env.readFile k = some c →
          env.AnalyzeLibrary k c m info.IsOffline ≠ Except.error msg) → err = none) ∧
      (∀ e, err = some e → ∃ msg k m c, e = scanError.analyzeFailed msg k ∧
        k ∈ analyzePaths evs ∧ env.stat k = some m ∧ env.readFile k = some c ∧
        env.AnalyzeLibrary k c m info.IsOffline = Except.error msg) ∧
      (∀ k ∈ analyzePaths evs, ∀ m c msg, env.stat k = some m → env.readFile k = some c →
        env.AnalyzeLibrary k c m info.IsOffline = Except.error msg →
        err = some (scanError.analyzeFailed msg k)) ∧
      readPaths evs = (statPaths evs).filter (fun k => (env.stat k).isSome) ∧
      (∀ k c m o, Event.analyze k c m o ∈ evs →
        env.stat k = some m ∧ env.readFile k = some c ∧ o = info.IsOffline) := by
  obtain ⟨err, st', cmds, ks, g1, g2, g3, g4, g5, g6, g7⟩ :=
    scanLibraries_run env info st cands es h1 h2 hs (searchLockfiles_exec env info _ _ _ hs)
  obtain ⟨c1, c2, c3⟩ := statPaths_of_exec cmds g3
  have hst : statPaths (cmds ++ (ks.map (keyEvents env info)).flatten) = ks := by
    rw [statPaths_append, c1, statPaths_flatten, List.nil_append]
  have han : analyzePaths (cmds ++ (ks.map (keyEvents env info)).flatten) =
      ks.filter (fun k => (fetched env k).isSome) := by
    rw [analyzePaths_append, c2, analyzePaths_flatten, List.nil_append]
  have hwa : warnPaths (cmds ++ (ks.map (keyEvents env info)).flatten) =
      ks.filter (fun k => (fetched env k).isNone) := by
    rw [warnPaths_append, c3, warnPaths_flatten, List.nil_append]
  have hrd : readPaths (cmds ++ (ks.map (keyEvents env info)).flatten) =
      ks.filter (fun k => (env.stat k).isSome) := by
    rw [readPaths_append, readPaths_of_exec cmds g3, readPaths_flatten, List.nil_append]
  have hnone : (∀ k ∈ canonicalPaths env (hostShell env) (hostWd env) cands, ∀ m c msg,
      env.stat k = some m → env.readFile k = some c →
      env.AnalyzeLibrary k c m info.IsOffline ≠ Except.error msg) → err = none := by
    intro hall
    cases herr : err with
    | none => rfl
    | some e =>
      obtain ⟨msg, k, _, e2, e3⟩ := g6 e herr
      obtain ⟨m, c, f1, f2, f3⟩ := (analysis_error_iff env info k msg).1 e3
      exact absurd f3 (hall k (mem_of_prefix_firstOccurrences g4 k e2) m c msg f1 f2)
  refine ⟨err, st', cmds ++ (ks.map (keyEvents env info)).flatten, g1, ?_, ?_, hnone, ?_, ?_,
    ?_, ?_⟩
  · rw [g2, List.append_assoc]
  · intro bad hnd hbad hfb hgood hall
    have hfb' : fetched env bad = none := (fetched_eq_none_iff env bad).2 hfb
    have hgood' : ∀ k ∈ canonicalPaths env (hostShell env) (hostWd env) cands, k ≠ bad →
        (fetched env k).isSome = true :=
      fun k hk hne => (fetched_isSome_iff env k).2 (hgood k hk hne)
    have herr := hnone hall
    have hks : ks = canonicalPaths env (hostShell env) (hostWd env) cands := by
      rw [g5 herr]
      exact firstOccurrences_of_nodup _ [] hnd (fun k _ => List.not_mem_nil k)
    have hf1 : ks.filter (fun k => (fetched env k).isSome) =
        ks.filter (fun k => k ≠ bad) := by
      apply List.filter_congr
      intro k hk
      by_cases hkb : k = bad
      · subst hkb; simp [hfb']
      · rw [hgood' k (hks ▸ hk) hkb]; simp [hkb]
    have hf2 : ks.filter (fun k => (fetched env k).isNone) = ks.filter (fun k => k = bad) := by
      apply List.filter_congr
      intro k hk
      by_cases hkb : k = bad
      · subst hkb; simp [hfb']
      · have := hgood' k (hks ▸ hk) hkb
        cases hfk : fetched env k with
        | none => rw [hfk] at this; cases this
        | some v => simp [hkb]
    have hone : ks.filter (fun k => decide (k = bad)) = [bad] :=
      filter_eq_singleton_of_nodup ks bad (hks ▸ hnd) (hks ▸ hbad)
    have hlen : (ks.filter (fun k => k ≠ bad)).length + 1 = ks.length := by
      have e1 : ks.filter (fun k => k ≠ bad) = ks.filter (fun k => !decide (k = bad)) := by
        apply List.filter_congr; intro k _; simp
      have e2 := List.length_eq_length_filter_add (l := ks) (fun k => decide (k = bad))
      rw [hone] at e2
      rw [e1]
      simp only [List.length_singleton] at e2
      omega
    refine ⟨herr, ?_, ?_, ?_, ?_⟩
    · rw [hst, hks]
    · rw [han, hf1, hks]
    · rw [han, hf1, hlen, hks]
    · rw [hwa, hf2]; exact hone
  · intro e he
    obtain ⟨msg, k, e1, e2, e3⟩ := g6 e he
    obtain ⟨m, c, f1, f2, f3⟩ := (analysis_error_iff env info k msg).1 e3
    refine ⟨msg, k, m, c, e1, ?_, f1, f2, f3⟩
    rw [han, List.mem_filter]
    exact ⟨e2, (fetched_isSome_iff env k).2 ⟨by simp [f1], by simp [f2]⟩⟩
  · intro k hk m c msg f1 f2 f3
    rw [han] at hk
    exact g7 k (List.mem_filter.1 hk).1 msg
      ((analysis_error_iff env info k msg).2 ⟨m, c, f1, f2, f3⟩)
  · rw [hrd, hst]
  · intro k c m o hmem
    rcases List.mem_append.1 hmem with h | h
    · have := g3 _ h
      simp [isExec] at this
    · simp only [List.mem_flatten, List.mem_map] at h
      obtain ⟨l, ⟨k0, _, rfl⟩, hl⟩ := h
      obtain ⟨_, f1, f2, f3⟩ := analyze_mem_keyEvents env info k0 k c m o hl
      rename_i hk
      subst hk
      exact ⟨f1, f2, f3⟩

/-- C13, on two sample hosts. The search prints `/x/yarn.lock` and
`/y/yarn.lock`, and `y.lock` is declared. On the first host `os.Stat` fails on
`/x/yarn.lock`, on the second `os.ReadFile` does; on both the pass returns no
error, analyses the two other files and warns once. On the first host the
failing file is not read, on the second it is. -/
theorem scanLibraries_fetch_fault_tolerance_witness :
    (∃ st' evs,
      scanLibraries
          ({ sampleHost 0 (ascii "/x/yarn.lock\n/y/yarn.lock\n") [] [] with
              stat := fun p => if p = ascii "/x/yarn.lock" then none else some 420 } :
            Collaborators Nat)
          (sampleServer [ascii "y.lock"] true) { LibraryScanners := [], trace := [] } =
        some (none, st') ∧
      st'.trace = [] ++ evs ∧
      statPaths evs = [ascii "/home/u/y.lock", ascii "/x/yarn.lock", ascii "/y/yarn.lock"] ∧
      readPaths evs = [ascii "/home/u/y.lock", ascii "/y/yarn.lock"] ∧
      analyzePaths evs = [ascii "/home/u/y.lock", ascii "/y/yarn.lock"] ∧
      warnPaths evs = [ascii "/x/yarn.lock"]) ∧
    ∃ st' evs,
      scanLibraries
          (sampleHost 0 (ascii "/x/yarn.lock\n/y/yarn.lock\n") [ascii "/x/yarn.lock"] [])
          (sampleServer [ascii "y.lock"] true) { LibraryScanners := [], trace := [] } =
        some (none, st') ∧
      st'.trace = [] ++ evs ∧
      statPaths evs = [ascii "/home/u/y.lock", ascii "/x/yarn.lock", ascii "/y/yarn.lock"] ∧
      readPaths evs = [ascii "/home/u/y.lock", ascii "/x/yarn.lock", ascii "/y/yarn.lock"] ∧
      analyzePaths evs = [ascii "/home/u/y.lock", ascii "/y/yarn.lock"] ∧
      warnPaths evs = [ascii "/x/yarn.lock"] := by
  constructor
  · obtain ⟨err, st', evs, g1, g2, g3, _, _, _, g7, _⟩ :=
      scanLibraries_fetch_fault_tolerance
        ({ sampleHost 0 (ascii "/x/yarn.lock\n/y/yarn.lock\n") [] [] with
            stat := fun p => if p = ascii "/x/yarn.lock" then none else some 420 } :
          Collaborators Nat)
        (sampleServer [ascii "y.lock"] true) { LibraryScanners := [], trace := [] }
        [ascii "y.lock", ascii "/x/yarn.lock", ascii "/y/yarn.lock", []] _
        rfl (by decide) rfl
    obtain ⟨e1, e2, e3, _, e5⟩ := g3 (ascii "/x/yarn.lock") (by decide) (by decide)
      (Or.inl (by decide)) (by decide)
      (by intro k _ m c msg _ _; simp [sampleHost])
    subst e1
    refine ⟨st', evs, g1, g2, e2.trans (by decide), ?_, e3.trans (by decide), e5⟩
    rw [g7, e2]
    decide
  · obtain ⟨err, st', evs, g1, g2, g3, _, _, _, g7, _⟩ :=
      scanLibraries_fetch_fault_tolerance
        (sampleHost 0 (ascii "/x/yarn.lock\n/y/yarn.lock\n") [ascii "/x/yarn.lock"] [])
        (sampleServer [ascii "y.lock"] true) { LibraryScanners := [], trace := [] }
        [ascii "y.lock", ascii "/x/yarn.lock", ascii "/y/yarn.lock", []] _
        rfl (by decide) rfl
    obtain ⟨e1, e2, e3, _, e5⟩ := g3 (ascii "/x/yarn.lock") (by decide) (by decide)
      (Or.inr (by decide)) (by decide)
      (by intro k _ m c msg _ _; simp [sampleHost])
    subst e1
    refine ⟨st', evs, g1, g2, e2.trans (by decide), ?_, e3.trans (by decide), e5⟩
    rw [g7, e2]
    decide

/-! ## Relative paths -/

theorem windowsVolumeNameLen_relative (a : Nat) (t : List Nat)
    (ha : windowsIsPathSeparator a = false) (ht : t.head? ≠ some 58) :
    windowsVolumeNameLen (a :: t) = some 0 := by
  cases t with
  | nil => simp [windowsVolumeNameLen, ha]
  | cons b t =>
    have hb : b ≠ 58 := by simpa using ht
    simp [windowsVolumeNameLen, ha, hb]

theorem head_of_windowsVolumeNameLen_zero (a : Nat) (t : List Nat)
    (hv : windowsVolumeNameLen (a :: t) = some 0) : t.head? ≠ some 58 := by
  intro h
  cases t with
  | nil => simp at h
  | cons b t =>
    simp only [List.head?_cons, Option.some.injEq] at h
    subst h
    rw [windowsVolumeNameLen_drive] at hv
    cases hv

/-- The guard of `windowsPostClean` on an output that starts with a byte other
than a separator: either `.\` is put in front, or nothing is and the second
byte of the output is not a colon. -/
theorem postCleanPrefix_relative (out : lazybuf) (x : Nat) (xs : List Nat)
    (hvol : out.volLen = 0) (hcont : out.content = x :: xs)
    (hx : windowsIsPathSeparator x = false)
    (hlazy : out.buf = none → xs.head? ≠ some 58) :
    postCleanPrefix out = [46, 92] ∨ (postCleanPrefix out = [] ∧ xs.head? ≠ some 58) := by
  unfold postCleanPrefix
  cases hb : out.buf with
  | none => exact Or.inr ⟨rfl, hlazy hb⟩
  | some buf =>
    simp only [lazybuf.content, hb, Option.getD_some] at hcont
    cases buf with
    | nil => simp at hcont
    | cons b0 buf' =>
      cases hw : out.w with
      | zero => rw [hw] at hcont; simp at hcont
      | succ w =>
        rw [hw, List.take_succ_cons] at hcont
        injection hcont with h0 h1
        subst h0
        simp only [hvol, bne_self_eq_false, Bool.false_eq_true, if_false]
        by_cases hcol : colonInFirstElem (b0 :: buf') = true
        · exact Or.inl (by simp [hcol])
        · right
          have hdev : startsLikeRootLocalDevice (b0 :: buf') ≠ some true := by
            unfold startsLikeRootLocalDevice
            split
            · simp [hx]
            · simp
          refine ⟨by simp [hcol, hdev], ?_⟩
          intro h58
          apply hcol
          cases buf' with
          | nil => rw [← h1] at h58; simp at h58
          | cons b1 buf'' =>
            cases w with
            | zero => rw [← h1] at h58; simp at h58
            | succ w =>
              rw [← h1, List.take_succ_cons] at h58
              simp only [List.head?_cons, Option.some.injEq] at h58
              subst h58
              simp only [colonInFirstElem, hx, Bool.false_eq_true, if_false]
              split
              · rfl
              · rfl

/-- What the loop keeps true of the output of a path that is not rooted: it
does not start with a separator. -/
theorem relative_step (path : List Nat) (st st' : cleanState) (hw : st.out.content.length = st.out.w)
    (hs : StepRel path false st st')
    (hP : ∀ x, st.out.content[0]? = some x → windowsIsPathSeparator x = false) :
    ∀ x, st'.out.content[0]? = some x → windowsIsPathSeparator x = false := by
  intro x hx
  cases hs with
  | skip hr he hc hd => rw [hc] at hx; exact hP x hx
  | back k hr he hk1 hk2 hsep hno hc hd =>
    rw [hc] at hx
    cases k with
    | zero => simp at hx
    | succ k =>
      apply hP x
      rw [← hx]
      cases st.out.content <;> simp
  | dots hr he hroot hw2 hc hd =>
    rw [hc] at hx
    cases hcont : st.out.content with
    | nil =>
      have : st.out.w = 0 := by rw [← hw, hcont]; rfl
      rw [hcont, this] at hx
      simp at hx
      subst hx; decide
    | cons y ys =>
      rw [hcont] at hx
      simp at hx
      exact hP x (by rw [hcont]; simp [hx])
  | stay hr he hroot hw2 hc hd => cases hroot
  | elem hr h0 h1 h2 hc hd =>
    rw [hc] at hx
    cases hcont : st.out.content with
    | nil =>
      have : st.out.w = 0 := by rw [← hw, hcont]; rfl
      rw [hcont, this] at hx
      simp only [baseIndex, Bool.false_eq_true, if_false, if_true, List.nil_append] at hx
      have hmem : x ∈ elemAt path st.r := List.mem_iff_getElem?.2 ⟨0, hx⟩
      have := List.mem_takeWhile_imp hmem
      simpa [notSep] using this
    | cons y ys =>
      rw [hcont] at hx
      simp at hx
      exact hP x (by rw [hcont]; simp [hx])

/-- C20. Relative paths stay relative: for a path with no volume whose first
byte is not a separator, `windowsClean` returns a string that has no volume
either (`windowsVolumeNameLen` is 0, so `windowsIsAbs` is false) and whose first
byte is not a separator. -/
theorem windowsClean_relative (p : List Nat) (a : Nat)
    (hv : windowsVolumeNameLen p = some 0) (h0 : p[0]? = some a)
    (ha : windowsIsPathSeparator a = false) :
    ∃ q b, windowsClean p = some q ∧ windowsVolumeNameLen q = some 0 ∧
      windowsIsAbs q = some false ∧ q[0]? = some b ∧ windowsIsPathSeparator b = false := by
  obtain ⟨t, rfl⟩ : ∃ t, p = a :: t := by
    cases p with
    | nil => simp at h0
    | cons b t => simp at h0; exact ⟨t, by rw [h0]⟩
  have ht := head_of_windowsVolumeNameLen_zero a t hv
  obtain ⟨st0, st, out, hinv, hP, hr, _, _, hout, hvol, hres⟩ :=
    windowsClean_run (a :: t) 0 a hv (by simp)
      (fun st => ∀ x, st.out.content[0]? = some x → windowsIsPathSeparator x = false)
      (by
        intro st _ _ hc _ x hx
        rw [hc, ha] at hx
        simp at hx)
      (by
        intro st st' hinv _ hs hP
        rw [ha] at hs
        exact relative_step _ st st' (lazybuf.content_length _ hinv.wf) hs hP)
  have hshape : ∃ x xs, out.content = x :: xs ∧ windowsIsPathSeparator x = false ∧
      (out.buf = none → xs.head? ≠ some 58) := by
    rcases hout with ⟨hw, rfl⟩ | ⟨_, _, hc⟩
    · have hlen := lazybuf.content_length _ hinv.wf
      cases hcont : st.out.content with
      | nil => rw [hcont] at hlen; exact absurd hlen.symm hw
      | cons x xs =>
        refine ⟨x, xs, rfl, hP x (by rw [hcont]; simp), ?_⟩
        intro hb
        have hpath : st.out.path = a :: t := by rw [hinv.path_eq]; rfl
        simp only [lazybuf.content, hb, Option.getD_none, hpath] at hcont
        cases hw' : st.out.w with
        | zero => exact absurd hw' hw
        | succ w =>
          rw [hw', List.take_succ_cons] at hcont
          injection hcont with _ h1
          rw [← h1]
          intro h58
          apply ht
          cases t with
          | nil => simp at h58
          | cons b t =>
            cases w with
            | zero => simp at h58
            | succ w => simpa using h58
    · exact ⟨46, [], hc, by decide, fun _ => by simp⟩
  obtain ⟨x, xs, hc, hx, hlazy⟩ := hshape
  have hmap : ∀ l : List Nat, l.head? ≠ some 58 →
      (l.map (fun c => if c = 47 then 92 else c)).head? ≠ some 58 := by
    intro l hl
    cases l with
    | nil => simp
    | cons c l =>
      simp only [List.map_cons, List.head?_cons, ne_eq, Option.some.injEq] at hl ⊢
      split
      · decide
      · exact hl
  have hx' : (if x = 47 then 92 else x) = x := by
    have : x ≠ 47 := by
      intro h; subst h; simp [windowsIsPathSeparator] at hx
    simp [this]
  have hfin : ∀ q b, windowsVolumeNameLen q = some 0 → q[0]? = some b →
      windowsIsPathSeparator b = false → windowsClean (a :: t) = some q →
      ∃ q b, windowsClean (a :: t) = some q ∧ windowsVolumeNameLen q = some 0 ∧
        windowsIsAbs q = some false ∧ q[0]? = some b ∧ windowsIsPathSeparator b = false := by
    intro q b h1 h2 h3 h4
    exact ⟨q, b, h4, h1, by simp [windowsIsAbs, h1], h2, h3⟩
  rw [List.take_zero, List.nil_append, FromSlash_eq_map, hc] at hres
  rcases postCleanPrefix_relative out x xs hvol hc hx hlazy with hpre | ⟨hpre, hxs⟩
  · rw [hpre] at hres
    simp only [List.cons_append, List.nil_append, List.map_cons] at hres
    refine hfin _ 46 ?_ (by simp) (by decide) hres
    exact windowsVolumeNameLen_relative _ _ (by decide) (by simp)
  · rw [hpre] at hres
    simp only [List.nil_append, List.map_cons, hx'] at hres
    exact hfin _ x (windowsVolumeNameLen_relative _ _ hx (hmap xs hxs)) (by simp) hx hres

/-- C20 on the example of the claim: `a/../c:` is cleaned to `.\c:`, not to
`c:`, and the result has no volume. -/
theorem windowsClean_relative_witness :
    windowsClean (ascii "a/../c:") = some (ascii ".\\c:") ∧
      ∃ q b, windowsClean (ascii "a/../c:") = some q ∧ windowsVolumeNameLen q = some 0 ∧
        windowsIsAbs q = some false ∧ q[0]? = some b ∧ windowsIsPathSeparator b = false :=
  ⟨by decide, windowsClean_relative (ascii "a/../c:") 97 (by decide) (by decide) (by decide)⟩

/-! ## Further claims on the path canonicaliser -/

/-- C18 fails on `c\..\ab:\..\d`: at the end of the loop the lazy buffer holds
`db:` with the write index 1 (the output is `d`, and `b:` is left over from the
element `ab:` that the second `..` removed); `windowsPostClean` reads the
left-over colon and `windowsClean` returns `.\d`, while the same algorithm on
the eager builder returns `d`. Likewise `\a\..\??\..` gives `\.\` against `\`.
The two agree on `a/../c:` and on `ab:c`. -/
theorem windowsClean_differs_from_eager :
    (cleanStateAfter (ascii "c\\..\\ab:\\..\\d") 9).map
        (fun st => (st.r, st.out.w, st.out.buf.map (fun buf => buf.take 3))) =
      some (13, 1, some (ascii "db:")) ∧
    windowsClean (ascii "c\\..\\ab:\\..\\d") = some (ascii ".\\d") ∧
    eagerClean (ascii "c\\..\\ab:\\..\\d") = some (ascii "d") ∧
    windowsClean (ascii "\\a\\..\\??\\..") = some (ascii "\\.\\") ∧
    eagerClean (ascii "\\a\\..\\??\\..") = some (ascii "\\") ∧
    windowsClean (ascii "a/../c:") = eagerClean (ascii "a/../c:") ∧
    windowsClean (ascii "ab:c") = eagerClean (ascii "ab:c") := by
  refine ⟨?_, ?_, ?_, ?_, ?_, ?_, ?_⟩ <;> decide

/-! ## Rooted paths, element by element -/

theorem rdropWhile_append_noSep (a b : List Nat)
    (hb : ∀ c ∈ b, windowsIsPathSeparator c = false) :
    (a ++ b).rdropWhile notSep = a.rdropWhile notSep := by
  induction b using List.reverseRecOn with
  | nil => simp
  | append_singleton b x ih =>
    have hx : notSep x = true := by simp [notSep, hb x (by simp)]
    rw [← List.append_assoc, List.rdropWhile_concat_pos _ _ _ hx]
    exact ih (fun c hc => hb c (by simp [hc]))

theorem rdropWhile_concat_sep (a : List Nat) (x : Nat) (hx : windowsIsPathSeparator x = true) :
    (a ++ [x]).rdropWhile notSep = a ++ [x] := by
  rw [List.rdropWhile_concat_neg]
  simp [notSep, hx]

/-- The cut of a backtrack, on an output that starts with a separator. -/
theorem popElem_eq_take (content : List Nat) (c0 : Nat) (k : Nat)
    (h0 : content[0]? = some c0) (hc0 : windowsIsPathSeparator c0 = true)
    (hk1 : 1 ≤ k) (hk2 : k < content.length)
    (hsep : 1 < k → ∃ c, content[k]? = some c ∧ windowsIsPathSeparator c = true)
    (hno : ∀ j, k < j → j < content.length →
      ∃ c, content[j]? = some c ∧ windowsIsPathSeparator c = false) :
    popElem content = content.take k := by
  obtain ⟨ck, hck⟩ := getElem?_some_of_lt hk2
  have hsplit : content = content.take k ++ [ck] ++ content.drop (k + 1) := by
    rw [List.append_assoc, List.singleton_append]
    have := List.get_drop_eq_drop content k hk2
    rw [List.getElem?_eq_getElem hk2, Option.some.injEq] at hck
    rw [← hck, this, List.take_append_drop]
  have htail : ∀ c ∈ content.drop (k + 1), windowsIsPathSeparator c = false := by
    intro c hc
    obtain ⟨i, hi⟩ := List.mem_iff_getElem?.1 hc
    rw [List.getElem?_drop] at hi
    have hlt : k + 1 + i < content.length := by
      by_contra h
      rw [List.getElem?_eq_none (by omega)] at hi
      cases hi
    obtain ⟨c', h1, h2⟩ := hno (k + 1 + i) (by omega) hlt
    rw [hi] at h1
    cases h1
    exact h2
  have hkept : content.rdropWhile notSep = (content.take k ++ [ck]).rdropWhile notSep := by
    conv_lhs => rw [hsplit]
    exact rdropWhile_append_noSep _ _ htail
  have hlen : (content.take k).length = k := by
    rw [List.length_take]; omega
  unfold popElem
  simp only [hkept]
  by_cases hs : windowsIsPathSeparator ck = true
  · rw [rdropWhile_concat_sep _ _ hs]
    have : ¬ (content.take k ++ [ck]).length ≤ 1 := by
      rw [List.length_append, hlen]; simp; omega
    rw [if_neg this, List.dropLast_concat]
  · have hk : k = 1 := by
      by_contra hne
      obtain ⟨c, h1, h2⟩ := hsep (by omega)
      rw [hck] at h1
      cases h1
      exact hs h2
    subst hk
    have ht : content.take 1 = [c0] := by
      cases content with
      | nil => simp at h0
      | cons a t =>
        simp only [List.getElem?_cons_zero, Option.some.injEq] at h0
        subst h0
        simp
    have hx : notSep ck = true := by simpa [notSep] using hs
    rw [List.rdropWhile_concat_pos _ _ _ hx, ht]
    have : List.rdropWhile notSep [c0] = [c0] := by
      have := rdropWhile_concat_sep [] c0 hc0
      simpa using this
    rw [this]
    simp

theorem take_add_elemAt (path : List Nat) (r : Nat) :
    path.take (r + (elemAt path r).length) = path.take r ++ elemAt path r := by
  rw [List.take_add]
  congr 1
  unfold elemAt
  have hp : (path.drop r).takeWhile notSep <+: path.drop r := List.takeWhile_prefix _
  exact List.prefix_iff_eq_take.1 hp |>.symm

/-- One iteration on an element of a rooted path, as `rootedStep`. -/
theorem rootedStep_of_StepRel (path : List Nat) (st st' : cleanState) (rest : List Nat)
    (hw : st.out.content.length = st.out.w) (hdd : st.dotdot = 1)
    (hhead : st.out.content = 92 :: rest) (hs : StepRel path true st st')
    (he : elemAt path st.r ≠ []) :
    st'.out.content = rootedStep st.out.content (elemAt path st.r) ∧
      st'.r = st.r + (elemAt path st.r).length ∧ st'.dotdot = 1 := by
  cases hs with
  | skip hr he' hc hd =>
    rcases he' with h | h
    · exact absurd h he
    · rw [h]
      exact ⟨by rw [hc]; simp [rootedStep], by simpa using hr, by rw [hd, hdd]⟩
  | back k hr he' hk1 hk2 hsep hno hc hd =>
    rw [he']
    refine ⟨?_, by simpa using hr, by rw [hd, hdd]⟩
    rw [hdd] at hk1 hsep
    rw [← hw] at hk2 hno
    have hlen : ¬ st.out.content.length ≤ 1 := by omega
    rw [hc]
    simp only [rootedStep, List.cons_ne_self, reduceCtorEq, or_self, if_false, if_true, hlen]
    symm
    apply popElem_eq_take _ 92 k (by rw [hhead]; simp) (by decide) hk1 hk2 hsep hno
  | dots hr he' hroot hw2 hc hd => cases hroot
  | stay hr he' hroot hw2 hc hd =>
    rw [he']
    refine ⟨?_, by simpa using hr, by rw [hd, hdd]⟩
    have hlen : st.out.content.length ≤ 1 := by rw [hw]; omega
    rw [hc]
    simp [rootedStep, hlen]
  | elem hr h0 h1 h2 hc hd =>
    refine ⟨?_, hr, by rw [hd, hdd]⟩
    rw [hc]
    simp only [rootedStep, h0, h1, h2, or_self, if_false, baseIndex, if_true, hw]

theorem rootedStep_nil (content : List Nat) : rootedStep content [] = content := by
  simp [rootedStep]

/-- The loop of `windowsClean` on a rooted path keeps its output equal to the
fold of `rootedStep` over the elements read so far. -/
theorem rootedFold_step (orig path : List Nat) (v : Nat) (st st' : cleanState)
    (hinv : CleanInv orig path v true st) (hr : st.r < path.length)
    (hs : StepRel path true st st')
    (hP : RootedOut st ∧
      st.out.content = (pathElems (path.take st.r)).foldl rootedStep [92] ∧
      (st.r = path.length ∨ (∃ c, path[st.r]? = some c ∧ windowsIsPathSeparator c = true) ∨
        (1 ≤ st.r ∧ ∃ c, path[st.r - 1]? = some c ∧ windowsIsPathSeparator c = true))) :
    RootedOut st' ∧
      st'.out.content = (pathElems (path.take st'.r)).foldl rootedStep [92] ∧
      (st'.r = path.length ∨ (∃ c, path[st'.r]? = some c ∧ windowsIsPathSeparator c = true) ∨
        (1 ≤ st'.r ∧ ∃ c, path[st'.r - 1]? = some c ∧ windowsIsPathSeparator c = true)) := by
  obtain ⟨hro, hfold, hb⟩ := hP
  have hro' := RootedOut_step orig path v st st' hinv hs hro
  refine ⟨hro', ?_⟩
  obtain ⟨c, hc⟩ := getElem?_some_of_lt hr
  have hel := elemAt_cons hc
  by_cases hsep : windowsIsPathSeparator c = true
  · have he : elemAt path st.r = [] := by rw [hel]; simp [notSep, hsep]
    have hskip : st'.r = st.r + 1 ∧ st'.out.content = st.out.content := by
      cases hs with
      | skip hr' _ hc' _ => exact ⟨hr', hc'⟩
      | back k _ he' => rw [he] at he'; cases he'
      | dots _ he' => rw [he] at he'; cases he'
      | stay _ he' => rw [he] at he'; cases he'
      | elem _ h0 => exact absurd he h0
    obtain ⟨hr', hc'⟩ := hskip
    refine ⟨?_, Or.inr (Or.inr ⟨by omega, c, by rw [hr']; simpa using hc, hsep⟩)⟩
    have htake : path.take (st.r + 1) = path.take st.r ++ [c] := by
      rw [List.take_succ, hc]; rfl
    rw [hc', hr', htake, pathElems_append_sep _ _ _ hsep, List.foldl_append, ← hfold]
    simp [pathElems, rootedStep_nil]
  · have hsepf : windowsIsPathSeparator c = false := by simpa using hsep
    have he : elemAt path st.r ≠ [] := by rw [hel]; simp [notSep, hsepf]
    obtain ⟨hdd, rest, hcont, _, _⟩ := hro
    obtain ⟨hc', hr', _⟩ := rootedStep_of_StepRel path st st' rest
      (lazybuf.content_length _ hinv.wf) hdd hcont hs he
    have hprev : 1 ≤ st.r ∧ ∃ c', path[st.r - 1]? = some c' ∧
        windowsIsPathSeparator c' = true := by
      rcases hb with h | ⟨c2, h1, h2⟩ | h
      · omega
      · rw [hc] at h1; cases h1; exact absurd h2 hsep
      · exact h
    obtain ⟨hr1, c', hc1, hs1⟩ := hprev
    have htake : path.take st.r = path.take (st.r - 1) ++ [c'] := by
      have : st.r = (st.r - 1) + 1 := by omega
      conv_lhs => rw [this]
      rw [List.take_succ, hc1]; rfl
    have hfold' : st.out.content = (pathElems (path.take (st.r - 1))).foldl rootedStep [92] := by
      rw [hfold, htake, pathElems_append_sep _ _ _ hs1, List.foldl_append]
      simp [pathElems, rootedStep_nil]
    refine ⟨?_, ?_⟩
    · rw [hc', hr', take_add_elemAt, htake, List.append_assoc, List.singleton_append,
        pathElems_append_sep _ _ _ hs1, pathElems_noSep _ (elemAt_noSep path st.r),
        List.foldl_append, ← hfold']
      rfl
    · have hle := elemAt_length_le path st.r
      rcases elemAt_stop path st.r with h | ⟨c2, h1, h2⟩
      · left; rw [hr']
        have : max st.r path.length = path.length := by omega
        omega
      · right; left; exact ⟨c2, by rw [hr']; exact h1, h2⟩

/-- The result of `windowsClean` on a path with a volume and a rooted remainder:
the volume, then the fold of `rootedStep` over the elements of the remainder. -/
theorem windowsClean_rooted_eq (p : List Nat) (v c : Nat)
    (hv : windowsVolumeNameLen p = some v) (hv0 : v ≠ 0) (hc : p[v]? = some c)
    (hs : windowsIsPathSeparator c = true) :
    windowsClean p =
        some (FromSlash (p.take v ++ rootedContent (p.drop v)) WindowsSeparator) ∧
      ∃ rest, rootedContent (p.drop v) = 92 :: rest := by
  have hc' : (p.drop v)[0]? = some c := by rw [List.getElem?_drop]; exact hc
  obtain ⟨st0, st, out, hinv, hP, hr, _, _, hcase, hvl, hres⟩ :=
    windowsClean_run p v c hv hc'
      (fun st => RootedOut st ∧
        st.out.content = (pathElems ((p.drop v).take st.r)).foldl rootedStep [92] ∧
        (st.r = (p.drop v).length ∨
          (∃ c, (p.drop v)[st.r]? = some c ∧ windowsIsPathSeparator c = true) ∨
          (1 ≤ st.r ∧ ∃ c, (p.drop v)[st.r - 1]? = some c ∧ windowsIsPathSeparator c = true)))
      (fun st h0 hi hcont hdd => by
        rw [hs] at hcont hdd hi h0
        have hr1 : st.r = 1 := by
          obtain ⟨st1, h1, _, _, _, _, h6⟩ := cleanInit_spec p (p.drop v) v true
            (by intro h; rw [h] at hc'; simp at hc')
          rw [h0] at h1; cases h1; simpa [baseIndex] using h6
        refine ⟨⟨hdd, [], by simpa using hcont, by simp, by simp [pathElems]⟩, ?_,
          Or.inr (Or.inr ⟨by omega, c, by rw [hr1]; exact hc', hs⟩)⟩
        have htake : (p.drop v).take 1 = [c] := by
          cases hd : p.drop v with
          | nil => rw [hd] at hc'; simp at hc'
          | cons a t => rw [hd] at hc'; simp at hc'; simp [hc']
        rw [hr1, htake]
        simp [pathElems, hs, rootedStep_nil, hcont])
      (fun st st' hi hr hrel h => by
        rw [hs] at hi hrel
        exact rootedFold_step p (p.drop v) v st st' hi hr hrel h)
  obtain ⟨⟨_, rest, hcont, _, _⟩, hfold, _⟩ := hP
  rw [hs] at hinv
  have hw : st.out.w ≠ 0 := by
    rw [← lazybuf.content_length _ hinv.wf, hcont]; simp
  have hout : out = st.out := by
    rcases hcase with ⟨_, h⟩ | ⟨h, _⟩
    · exact h
    · exact absurd h hw
  subst hout
  have hpre : postCleanPrefix st.out = [] := by
    rcases postCleanPrefix_cases st.out with h | ⟨h0, _⟩
    · exact h
    · rw [hvl] at h0; exact absurd h0 hv0
  have hrc : st.out.content = rootedContent (p.drop v) := by
    rw [hfold, hr, List.take_length]; rfl
  refine ⟨?_, rest, by rw [← hrc, hcont]⟩
  rw [hres, hpre, List.append_nil, hrc]

/-! ## The volume of a longer path -/

theorem getElem?_append_of_lt (s x : List Nat) (i : Nat) (h : i < s.length) :
    (s ++ x)[i]? = s[i]? := List.getElem?_append_left h

theorem pathHasPrefixFoldLoop_append (s x pre : List Nat) (h : pre.length < s.length) :
    ∀ fuel i, pathHasPrefixFoldLoop (s ++ x) pre fuel i = pathHasPrefixFoldLoop s pre fuel i := by
  have hl : (s ++ x).length > pre.length := by rw [List.length_append]; omega
  have hp : (s ++ x)[pre.length]? = s[pre.length]? := getElem?_append_of_lt s x _ h
  intro fuel
  induction fuel with
  | zero =>
    intro i
    unfold pathHasPrefixFoldLoop
    simp only [hl, h, hp, gt_iff_lt]
  | succ fuel ih =>
    intro i
    unfold pathHasPrefixFoldLoop
    by_cases hi : i < pre.length
    · have hs : (s ++ x)[i]? = s[i]? := getElem?_append_of_lt s x _ (by omega)
      simp only [hi, if_true, hs, ih]
    · simp only [hi, if_false, hl, h, hp, gt_iff_lt]

/-- A prefix test on a string longer than the prefix reads nothing beyond the
byte after the prefix. -/
theorem pathHasPrefixFold_append (s x pre : List Nat) (h : pre.length < s.length) :
    pathHasPrefixFold (s ++ x) pre = pathHasPrefixFold s pre := by
  unfold pathHasPrefixFold
  have h1 : ¬ (s ++ x).length < pre.length := by rw [List.length_append]; omega
  have h2 : ¬ s.length < pre.length := by omega
  simp only [h1, h2, if_false, pathHasPrefixFoldLoop_append s x pre h]

theorem uncLenLoop_lt (path x : List Nat) :
    ∀ fuel fuel' i count v, uncLenLoop path fuel i count = some v → v < path.length →
      (path ++ x).length ≤ i + fuel' →
      uncLenLoop (path ++ x) fuel' i count = some v ∧ i ≤ v ∧ (count = 0 → i + 1 ≤ v) ∧
        ∃ c, path[v]? = some c ∧ windowsIsPathSeparator c = true := by
  intro fuel
  induction fuel with
  | zero =>
    intro fuel' i count v h hv _
    unfold uncLenLoop at h
    split at h
    · cases h
    · cases h; omega
  | succ fuel ih =>
    intro fuel' i count v h hv hf
    unfold uncLenLoop at h
    by_cases hi : i < path.length
    · obtain ⟨c, hc⟩ := getElem?_some_of_lt hi
      have hi' : i < (path ++ x).length := by rw [List.length_append]; omega
      have hc' : (path ++ x)[i]? = some c := by rw [getElem?_append_of_lt _ _ _ hi]; exact hc
      cases fuel' with
      | zero => omega
      | succ fuel' =>
        unfold uncLenLoop
        simp only [hi, if_true, hc, Option.bind_eq_bind, Option.some_bind] at h
        simp only [hi', if_true, hc', Option.bind_eq_bind, Option.some_bind]
        by_cases hs : windowsIsPathSeparator c = true
        · simp only [hs, if_true] at h ⊢
          by_cases h2 : count + 1 = 2
          · simp only [h2, if_true, Option.some.injEq] at h ⊢
            subst h
            exact ⟨rfl, le_refl _, fun h0 => by omega, c, hc, hs⟩
          · simp only [h2, if_false] at h ⊢
            obtain ⟨g1, g2, _, g3⟩ := ih fuel' (i + 1) (count + 1) v h hv (by omega)
            exact ⟨g1, by omega, fun _ => g2, g3⟩
        · simp only [hs, Bool.false_eq_true, if_false] at h ⊢
          obtain ⟨g1, g2, _, g3⟩ := ih fuel' (i + 1) count v h hv (by omega)
          exact ⟨g1, by omega, fun _ => g2, g3⟩
    · simp only [hi, if_false, Option.some.injEq] at h
      omega

/-- The volume `uncLen` finds before the end of a path ends at a separator and
stays the volume of any longer path. -/
theorem uncLen_lt (path x : List Nat) (k v : Nat) (h : uncLen path k = some v)
    (hv : v < path.length) :
    uncLen (path ++ x) k = some v ∧ k + 1 ≤ v ∧
      ∃ c, path[v]? = some c ∧ windowsIsPathSeparator c = true := by
  obtain ⟨g1, _, g2, g3⟩ :=
    uncLenLoop_lt path x path.length (path ++ x).length k 0 v h hv (by omega)
  exact ⟨g1, g2 rfl, g3⟩

theorem takeWhile_append_of_lt (l x : List Nat)
    (h : (l.takeWhile notSep).length < l.length) :
    (l ++ x).takeWhile notSep = l.takeWhile notSep := by
  induction l with
  | nil => simp at h
  | cons a l ih =>
    by_cases ha : notSep a = true
    · simp only [List.cons_append, List.takeWhile_cons, ha, if_true, List.length_cons] at h ⊢
      rw [ih (by omega)]
    · simp [List.takeWhile_cons, ha]

/-- The volume `deviceVolumeLen` finds before the end of a path ends at a
separator and stays the volume of any longer path. -/
theorem deviceVolumeLen_lt (path x : List Nat) (v : Nat) (h3 : 3 ≤ path.length)
    (h : deviceVolumeLen path = some v) (hv : v < path.length) :
    deviceVolumeLen (path ++ x) = some v ∧ 4 ≤ v ∧
      (∃ c, path[v]? = some c ∧ windowsIsPathSeparator c = true) ∧
      v = 4 + ((path.drop 4).takeWhile notSep).length := by
  rw [deviceVolumeLen_spec path h3] at h
  by_cases hl : path.length = 3
  · simp only [hl, if_true, Option.some.injEq] at h; omega
  · simp only [hl, if_false, Option.some.injEq] at h
    have hlt : ((path.drop 4).takeWhile notSep).length < (path.drop 4).length := by
      rw [List.length_drop]; omega
    have hlen : 3 ≤ (path ++ x).length := by rw [List.length_append]; omega
    have hl' : (path ++ x).length ≠ 3 := by rw [List.length_append]; omega
    rw [deviceVolumeLen_spec _ hlen]
    simp only [hl', if_false]
    have hd : (path ++ x).drop 4 = path.drop 4 ++ x := by
      rw [List.drop_append_of_le_length (by omega)]
    rw [hd, takeWhile_append_of_lt _ _ hlt, h]
    refine ⟨rfl, by omega, ?_, rfl⟩
    rcases takeWhile_stop notSep (path.drop 4) with h1 | ⟨c, h1, h2⟩
    · omega
    · rw [List.getElem?_drop] at h1
      exact ⟨c, by rw [← h]; exact h1, by simpa [notSep] using h2⟩

theorem not_sep_of_toUpper (pc e : Nat) (hpc : 65 ≤ pc ∧ pc ≤ 90)
    (h : toUpper pc = toUpper e) : windowsIsPathSeparator e = false := by
  unfold toUpper at h
  simp only [windowsIsPathSeparator, Bool.or_eq_false_iff, beq_eq_false_iff_ne, ne_eq]
  constructor
  · intro he; subst he; simp at h; split at h <;> omega
  · intro he; subst he; simp at h; split at h <;> omega

/-- A path of at most seven bytes that a longer path completes to the prefix
`\\.\UNC` starts with `\\.\` and has no separator after it. -/
theorem unc_prefix_short (a b c d : Nat) (t x : List Nat) (ht : t.length ≤ 3)
    (h : pathHasPrefixFold (a :: b :: c :: d :: (t ++ x)) [92, 92, 46, 92, 85, 78, 67] =
      some true) :
    pathHasPrefixFold (a :: b :: c :: d :: t) [92, 92, 46] = some true ∧
      ∀ y ∈ t, windowsIsPathSeparator y = false := by
  have hsep92 : windowsIsPathSeparator 92 = true := by decide
  have hsep46 : windowsIsPathSeparator 46 = false := by decide
  have hsep85 : windowsIsPathSeparator 85 = false := by decide
  have hsep78 : windowsIsPathSeparator 78 = false := by decide
  have hsep67 : windowsIsPathSeparator 67 = false := by decide
  generalize hu : t ++ x = u at h
  match u, hu, h with
  | [], _, h => simp [pathHasPrefixFold] at h
  | [_], _, h => simp [pathHasPrefixFold] at h
  | [_, _], _, h => simp [pathHasPrefixFold] at h
  | e :: f :: g :: u', hu, h =>
    simp only [pathHasPrefixFold, List.length_cons, List.length_nil, pathHasPrefixFoldLoop] at h
    simp [hsep92, hsep46, hsep85, hsep78, hsep67] at h
    have h1 : ¬ (u'.length + 1 + 1 + 1 + 1 + 1 + 1 + 1 < 7) := by omega
    rw [if_neg h1] at h
    by_cases ha : windowsIsPathSeparator a = false
    · rw [if_pos ha] at h; cases h
    rw [if_neg ha] at h
    by_cases hb : windowsIsPathSeparator b = false
    · rw [if_pos hb] at h; cases h
    rw [if_neg hb] at h
    by_cases hc : toUpper 46 = toUpper c
    swap
    · rw [if_neg hc] at h; cases h
    rw [if_pos hc] at h
    by_cases hd : windowsIsPathSeparator d = false
    · rw [if_pos hd] at h; cases h
    rw [if_neg hd] at h
    by_cases he : toUpper 85 = toUpper e
    swap
    · rw [if_neg he] at h; cases h
    rw [if_pos he] at h
    by_cases hf : toUpper 78 = toUpper f
    swap
    · rw [if_neg hf] at h; cases h
    rw [if_pos hf] at h
    by_cases hg : toUpper 67 = toUpper g
    swap
    · rw [if_neg hg] at h; cases h
    have hne := not_sep_of_toUpper 85 e (by omega) he
    have hnf := not_sep_of_toUpper 78 f (by omega) hf
    have hng := not_sep_of_toUpper 67 g (by omega) hg
    have ha' : windowsIsPathSeparator a = true := by simpa using ha
    have hb' : windowsIsPathSeparator b = true := by simpa using hb
    have hd' : windowsIsPathSeparator d = true := by simpa using hd
    constructor
    · simp only [pathHasPrefixFold, List.length_cons, List.length_nil, pathHasPrefixFoldLoop]
      simp [hsep92, hsep46, ha', hb', hd', hc]
    · match t, ht, hu with
      | [], _, _ => simp
      | [t0], _, hu =>
        simp only [List.cons_append, List.nil_append, List.cons.injEq] at hu
        obtain ⟨rfl, _⟩ := hu
        simpa using hne
      | [t0, t1], _, hu =>
        simp only [List.cons_append, List.nil_append, List.cons.injEq] at hu
        obtain ⟨rfl, rfl, _⟩ := hu
        simp [hne, hnf]
      | [t0, t1, t2], _, hu =>
        simp only [List.cons_append, List.nil_append, List.cons.injEq] at hu
        obtain ⟨rfl, rfl, rfl, _⟩ := hu
        simp [hne, hnf, hng]
      | _ :: _ :: _ :: _ :: _, ht, _ => simp at ht

/-- The `switch` of `windowsVolumeNameLen` on a path that starts with a
separator and has no drive letter, by the results of the four prefix tests. -/
theorem windowsVolumeNameLen_branches (p : List Nat) (a b : Nat) (h0 : p[0]? = some a)
    (h1 : p[1]? = some b) (hb58 : b ≠ 58) (ha : windowsIsPathSeparator a = true)
    (b1 b2 b3 b4 : Bool)
    (hb1 : pathHasPrefixFold p [92, 92, 46, 92, 85, 78, 67] = some b1)
    (hb2 : pathHasPrefixFold p [92, 92, 46] = some b2)
    (hb3 : pathHasPrefixFold p [92, 92, 63] = some b3)
    (hb4 : pathHasPrefixFold p [92, 63, 63] = some b4) :
    windowsVolumeNameLen p =
      if b1 = true then uncLen p 8
      else if (b2 || b3 || b4) = true then deviceVolumeLen p
      else if windowsIsPathSeparator b = true then uncLen p 2 else some 0 := by
  have hlen : 2 ≤ p.length := by
    by_contra h
    rw [List.getElem?_eq_none (by omega)] at h1
    cases h1
  have hl0 : p.length ≠ 0 := by omega
  unfold windowsVolumeNameLen
  simp only [h1, Option.some.injEq, hb58, and_false, if_false, hl0, h0, Option.bind_eq_bind,
    Option.some_bind, ha, Bool.not_true, Bool.false_eq_true, hb1, hb2, hb3, hb4, hlen,
    ge_iff_le, if_true]
  cases b1 <;> cases b2 <;> cases b3 <;> cases b4 <;> simp

/-- A volume that ends before the end of a path is the volume of every longer
path, and it ends at a separator unless the path starts with a drive letter. -/
theorem windowsVolumeNameLen_append (p x : List Nat) (v : Nat)
    (hv : windowsVolumeNameLen p = some v) (hv0 : v ≠ 0) (hlt : v < p.length) :
    windowsVolumeNameLen (p ++ x) = some v ∧
      (p[1]? = some 58 ∨ ∃ c, p[v]? = some c ∧ windowsIsPathSeparator c = true) := by
  obtain ⟨v', hv', _, hv2⟩ := windowsVolumeNameLen_bounds p
  rw [hv] at hv'; cases hv'
  have hv2 : 2 ≤ v := by omega
  obtain ⟨a, h0⟩ := getElem?_some_of_lt (l := p) (i := 0) (by omega)
  obtain ⟨b, h1⟩ := getElem?_some_of_lt (l := p) (i := 1) (by omega)
  have h0' : (p ++ x)[0]? = some a := by rw [getElem?_append_of_lt _ _ _ (by omega)]; exact h0
  have h1' : (p ++ x)[1]? = some b := by rw [getElem?_append_of_lt _ _ _ (by omega)]; exact h1
  by_cases hb58 : b = 58
  · subst hb58
    obtain ⟨t, rfl⟩ : ∃ t, p = a :: 58 :: t := by
      match p, h0, h1 with
      | a' :: b' :: t, h0, h1 =>
        simp only [List.getElem?_cons_zero, List.getElem?_cons_succ, Option.some.injEq] at h0 h1
        subst h0; subst h1
        exact ⟨t, rfl⟩
    rw [windowsVolumeNameLen_drive] at hv
    cases hv
    exact ⟨by rw [List.cons_append, List.cons_append, windowsVolumeNameLen_drive],
      Or.inl (by simp)⟩
  have ha : windowsIsPathSeparator a = true := by
    by_contra hna
    have hna' : windowsIsPathSeparator a = false := by simpa using hna
    obtain ⟨t, rfl⟩ : ∃ t, p = a :: t := by
      match p, h0 with
      | a' :: t, h0 =>
        simp only [List.getElem?_cons_zero, Option.some.injEq] at h0
        subst h0
        exact ⟨t, rfl⟩
    rw [windowsVolumeNameLen_relative a t hna'
      (by
        intro h
        cases t with
        | nil => simp at h
        | cons y t => simp at h1 h; exact hb58 (h1 ▸ h))] at hv
    cases hv
    exact hv0 rfl
  obtain ⟨b1, hb1⟩ := pathHasPrefixFold_total p [92, 92, 46, 92, 85, 78, 67]
  obtain ⟨b2, hb2⟩ := pathHasPrefixFold_total p [92, 92, 46]
  obtain ⟨b3, hb3⟩ := pathHasPrefixFold_total p [92, 92, 63]
  obtain ⟨b4, hb4⟩ := pathHasPrefixFold_total p [92, 63, 63]
  obtain ⟨c1, hc1⟩ := pathHasPrefixFold_total (p ++ x) [92, 92, 46, 92, 85, 78, 67]
  rw [windowsVolumeNameLen_branches p a b h0 h1 hb58 ha b1 b2 b3 b4 hb1 hb2 hb3 hb4] at hv
  -- the three-byte tests read the first four bytes only
  have h3 : 4 ≤ p.length → pathHasPrefixFold (p ++ x) [92, 92, 46] = some b2 ∧
      pathHasPrefixFold (p ++ x) [92, 92, 63] = some b3 ∧
      pathHasPrefixFold (p ++ x) [92, 63, 63] = some b4 := by
    intro h4
    refine ⟨?_, ?_, ?_⟩
    · rw [pathHasPrefixFold_append _ _ _ (by simpa using h4)]; exact hb2
    · rw [pathHasPrefixFold_append _ _ _ (by simpa using h4)]; exact hb3
    · rw [pathHasPrefixFold_append _ _ _ (by simpa using h4)]; exact hb4
  -- a path of four to seven bytes, split after the fourth
  have hsplit : 4 ≤ p.length → p.length ≤ 7 →
      ∃ c d t, p = a :: b :: c :: d :: t ∧ t.length ≤ 3 := by
    intro h4 h7
    match p, h0, h1, h4, h7 with
    | a' :: b' :: c :: d :: t, h0, h1, _, h7 =>
      simp only [List.getElem?_cons_zero, List.getElem?_cons_succ, Option.some.injEq] at h0 h1
      subst h0; subst h1
      exact ⟨c, d, t, rfl, by simpa using h7⟩
  by_cases hb1t : b1 = true
  · subst hb1t
    simp only [if_true] at hv
    obtain ⟨g1, g2, g3⟩ := uncLen_lt p x 8 v hv hlt
    have hc1' : pathHasPrefixFold (p ++ x) [92, 92, 46, 92, 85, 78, 67] = some true := by
      rw [pathHasPrefixFold_append _ _ _ (by simp; omega)]; exact hb1
    obtain ⟨e2, e3, e4⟩ := h3 (by omega)
    rw [windowsVolumeNameLen_branches (p ++ x) a b h0' h1' hb58 ha true b2 b3 b4 hc1' e2 e3 e4]
    exact ⟨by simpa using g1, Or.inr g3⟩
  · have hb1f : b1 = false := by simpa using hb1t
    subst hb1f
    simp only [Bool.false_eq_true, if_false] at hv
    by_cases hdev : (b2 || b3 || b4) = true
    · simp only [hdev, if_true] at hv
      have hlen3 : 3 ≤ p.length := by omega
      obtain ⟨g1, g2, g3, g4⟩ := deviceVolumeLen_lt p x v hlen3 hv hlt
      obtain ⟨e2, e3, e4⟩ := h3 (by omega)
      have hc1f : c1 = false := by
        by_contra hne
        have hc1t : c1 = true := by simpa using hne
        subst hc1t
        by_cases h8 : 8 ≤ p.length
        · rw [pathHasPrefixFold_append _ _ _ (by simp; omega), hb1] at hc1
          cases hc1
        · obtain ⟨c, d, t, rfl, ht⟩ := hsplit (by omega) (by omega)
          obtain ⟨_, hnos⟩ := unc_prefix_short a b c d t x ht (by simpa using hc1)
          have htw : t.takeWhile notSep = t := by
            rw [List.takeWhile_eq_self_iff]
            intro y hy
            simp [notSep, hnos y hy]
          simp only [List.drop_succ_cons, List.drop_zero, htw, List.length_cons] at g4 hlt
          omega
      subst hc1f
      rw [windowsVolumeNameLen_branches (p ++ x) a b h0' h1' hb58 ha false b2 b3 b4 hc1 e2 e3 e4]
      simp only [Bool.false_eq_true, if_false, hdev, if_true]
      exact ⟨g1, Or.inr g3⟩
    · simp only [hdev, if_false] at hv
      by_cases hbs : windowsIsPathSeparator b = true
      · simp only [hbs, if_true] at hv
        obtain ⟨g1, g2, g3⟩ := uncLen_lt p x 2 v hv hlt
        obtain ⟨e2, e3, e4⟩ := h3 (by omega)
        have hb2f : b2 = false := by
          cases b2
          · rfl
          · simp at hdev
        have hc1f : c1 = false := by
          by_contra hne
          have hc1t : c1 = true := by simpa using hne
          subst hc1t
          by_cases h8 : 8 ≤ p.length
          · rw [pathHasPrefixFold_append _ _ _ (by simp; omega), hb1] at hc1
            cases hc1
          · obtain ⟨c, d, t, rfl, ht⟩ := hsplit (by omega) (by omega)
            obtain ⟨hdot, _⟩ := unc_prefix_short a b c d t x ht (by simpa using hc1)
            rw [hb2, hb2f] at hdot
            cases hdot
        subst hc1f
        rw [windowsVolumeNameLen_branches (p ++ x) a b h0' h1' hb58 ha false b2 b3 b4 hc1 e2 e3
          e4]
        simp only [Bool.false_eq_true, if_false, hdev, hbs, if_true]
        exact ⟨g1, Or.inr g3⟩
      · simp only [hbs, Bool.false_eq_true, if_false, Option.some.injEq] at hv
        exact absurd hv.symm hv0

theorem rootedStep_push_pop (content rest s : List Nat) (hc : content = 92 :: rest)
    (hs0 : s ≠ []) (hsep : ∀ c ∈ s, windowsIsPathSeparator c = false) (hs1 : s ≠ [46])
    (hs2 : s ≠ [46, 46]) :
    rootedStep (rootedStep content s) [46, 46] = content := by
  have hpush : rootedStep content s = content ++ (if content.length = 1 then [] else [92]) ++ s := by
    simp only [rootedStep, hs0, hs1, hs2, or_self, if_false]
  have hslen : 0 < s.length := List.length_pos.mpr hs0
  have hclen : 1 ≤ content.length := by rw [hc]; simp
  rw [hpush]
  have hlen : ¬ (content ++ (if content.length = 1 then [] else [92]) ++ s).length ≤ 1 := by
    simp only [List.length_append]; omega
  simp only [rootedStep, List.cons_ne_self, reduceCtorEq, or_self, if_false, if_true, hlen]
  unfold popElem
  simp only [rdropWhile_append_noSep _ _ hsep]
  by_cases h1 : content.length = 1
  · have hr : rest = [] := by
      rw [hc] at h1
      simpa using h1
    subst hr
    subst hc
    have : List.rdropWhile notSep [92] = [92] := by
      have := rdropWhile_concat_sep [] 92 (by decide)
      simpa using this
    simp [this]
  · simp only [h1, if_false]
    rw [rdropWhile_concat_sep _ _ (by decide)]
    have : ¬ (content ++ [92]).length ≤ 1 := by
      rw [List.length_append, List.length_singleton]; omega
    rw [if_neg this, List.dropLast_concat]

/-- An absolute path with bytes after its volume has a separator right after
the volume. -/
theorem windowsIsAbs_sep_after_volume (p x : List Nat) (v : Nat)
    (habs : windowsIsAbs p = some true) (hv : windowsVolumeNameLen p = some v)
    (hlt : v < p.length) :
    v ≠ 0 ∧ windowsVolumeNameLen (p ++ x) = some v ∧
      ∃ c, p[v]? = some c ∧ windowsIsPathSeparator c = true := by
  have hv0 : v ≠ 0 := by
    intro h
    subst h
    simp [windowsIsAbs, hv] at habs
  obtain ⟨g1, g2⟩ := windowsVolumeNameLen_append p x v hv hv0 hlt
  refine ⟨hv0, g1, ?_⟩
  rcases g2 with h58 | h
  · obtain ⟨a, h0⟩ := getElem?_some_of_lt (l := p) (i := 0) (by omega)
    obtain ⟨c, hcv⟩ := getElem?_some_of_lt hlt
    have hne : p.drop v ≠ [] := by
      intro h
      have := congrArg List.length h
      simp at this
      omega
    have hd : (p.drop v)[0]? = some c := by rw [List.getElem?_drop]; simpa using hcv
    simp only [windowsIsAbs, hv, Option.bind_eq_bind, Option.some_bind, hv0, if_false, h0, h58,
      sliceFrom, Nat.le_of_lt hlt, if_true, hne, hd] at habs
    have h58s : windowsIsPathSeparator 58 = false := by decide
    by_cases ha : windowsIsPathSeparator a = true
    · simp [ha, h58s] at habs
      exact ⟨c, hcv, habs⟩
    · simp [ha] at habs
      exact ⟨c, hcv, habs⟩
  · exact h

/-- C19, as stated, fails: `\\host\share` is absolute and `s` is an ordinary
segment, but the volume of `\\host\share` is the whole path, which
`windowsClean` returns as it is, while `\\host\share\s\..` is cleaned to
`\\host\share\`. On `\\host` the segment even becomes the share name. -/
theorem windowsClean_insert_segment_differs :
    windowsIsAbs (ascii "\\\\host\\share") = some true ∧
    windowsClean (ascii "\\\\host\\share") = some (ascii "\\\\host\\share") ∧
    windowsClean (ascii "\\\\host\\share" ++ ascii "\\" ++ ascii "s" ++ ascii "\\..") =
      some (ascii "\\\\host\\share\\") ∧
    windowsIsAbs (ascii "\\\\host") = some true ∧
    windowsClean (ascii "\\\\host") = some (ascii "\\\\host") ∧
    windowsClean (ascii "\\\\host" ++ ascii "\\" ++ ascii "s" ++ ascii "\\..") =
      some (ascii "\\\\host\\s\\") := by
  refine ⟨?_, ?_, ?_, ?_, ?_, ?_⟩ <;> decide

/-- C19, amended. For every absolute path `p` that has bytes after its volume
and every segment `s` that is not empty, holds no separator and is neither `.`
nor `..`, `windowsClean` returns the same string on `p` and on `p` followed by
`\`, `s` and `\..`. -/
theorem windowsClean_insert_segment (p s : List Nat) (v : Nat)
    (habs : windowsIsAbs p = some true) (hv : windowsVolumeNameLen p = some v)
    (hlt : v < p.length) (hs0 : s ≠ [])
    (hsep : ∀ c ∈ s, windowsIsPathSeparator c = false) (hs1 : s ≠ [46])
    (hs2 : s ≠ [46, 46]) :
    ∃ q, windowsClean p = some q ∧
      windowsClean (p ++ [92] ++ s ++ [92, 46, 46]) = some q := by
  have hassoc : p ++ [92] ++ s ++ [92, 46, 46] = p ++ 92 :: (s ++ 92 :: [46, 46]) := by
    simp [List.append_assoc]
  obtain ⟨hv0, hv', c, hc, hcs⟩ :=
    windowsIsAbs_sep_after_volume p (92 :: (s ++ 92 :: [46, 46])) v habs hv hlt
  obtain ⟨h1, rest, hrest⟩ := windowsClean_rooted_eq p v c hv hv0 hc hcs
  have hc' : (p ++ 92 :: (s ++ 92 :: [46, 46]))[v]? = some c := by
    rw [getElem?_append_of_lt _ _ _ hlt]; exact hc
  obtain ⟨h2, _⟩ := windowsClean_rooted_eq _ v c hv' hv0 hc' hcs
  refine ⟨_, h1, ?_⟩
  rw [hassoc, h2, List.take_append_of_le_length (Nat.le_of_lt hlt),
    List.drop_append_of_le_length (Nat.le_of_lt hlt)]
  congr 3
  have h46 : ∀ c ∈ [46, 46], windowsIsPathSeparator c = false := by
    intro c hc; simp at hc; subst hc; decide
  unfold rootedContent at hrest ⊢
  rw [pathElems_append_sep _ _ _ (by decide), pathElems_append_sep _ _ _ (by decide),
    pathElems_noSep s hsep, pathElems_noSep _ h46, List.foldl_append]
  simp only [List.singleton_append, List.foldl_cons, List.foldl_nil]
  exact rootedStep_push_pop _ rest s hrest hs0 hsep hs1 hs2

/-- C19, amended, on `C:\Users\u` with the segment `node_modules`. -/
theorem windowsClean_insert_segment_witness :
    ∃ q, windowsClean (ascii "C:\\Users\\u") = some q ∧
      windowsClean (ascii "C:\\Users\\u" ++ [92] ++ ascii "node_modules" ++ [92, 46, 46]) =
        some q :=
  windowsClean_insert_segment (ascii "C:\\Users\\u") (ascii "node_modules") 2 (by decide)
    (by decide) (by decide) (by decide) (by decide) (by decide) (by decide)

end Vuls
